import Mathlib

/-!
Verification of the `bm` binary-merkle substrate: shallow embedding of the
reference-counted backend (`src/memory.rs`, `src/traits.rs`), the raw tree
(`src/raw.rs`), the typed vector layer (`src/vector.rs`), the proving layer
(`src/proving.rs`), serialization (`src/serialize.rs`) and the SSZ codec
pieces of `le/src` that the checked properties concern.
-/

set_option maxRecDepth 4096
set_option linter.unusedSectionVars false

namespace BM

/-- Value in a merkle tree (`traits.rs::Value`): an intermediate hash of two
sub-items, or an end (leaf) value. -/
inductive Value (I E : Type) where
  | intermediate (hash : I) : Value I E
  | end_ (data : E) : Value I E
deriving DecidableEq, Repr

namespace Value

/-- `Value::intermediate` accessor (returns `some` iff intermediate). -/
def intermediate? {I E : Type} : Value I E → Option I
  | .intermediate i => some i
  | .end_ _ => none

/-- `Value::end` accessor (returns `some` iff end value). -/
def end? {I E : Type} : Value I E → Option E
  | .intermediate _ => none
  | .end_ e => some e

end Value

section Core

variable {I E : Type} [DecidableEq I] [DecidableEq E]

/-- A `(left, right)` child pair stored under an intermediate key. -/
abbrev Pair (I E : Type) := Value I E × Value I E

/-- A backend entry: the child pair together with the reference count.
`none` marks proof-populated entries that are immune to collection
(`Option<usize>` in `InMemoryBackend`). -/
abbrev Entry (I E : Type) := Pair I E × Option Nat

/-- The in-memory backend state: a finite map from intermediate keys to
entries, modelled as an association list (`HashMap` in the source). -/
abbrev Store (I E : Type) := List (I × Entry I E)

/-- Map lookup (first match; stores are kept key-nodup). -/
def lookup : Store I E → I → Option (Entry I E)
  | [], _ => none
  | (k', e) :: rest, k => if k = k' then some e else lookup rest k

/-- Whether a key is present. -/
def containsKey (s : Store I E) (k : I) : Bool :=
  (lookup s k).isSome

/-- Replace the entry under an existing key (first match), leaving other
entries alone (`get_mut` followed by assignment in the source). -/
def update : Store I E → I → Entry I E → Store I E
  | [], _, _ => []
  | (k', e) :: rest, k, e' => if k = k' then (k, e') :: rest else (k', e) :: update rest k e'

/-- Remove a key (first match) from the store (`HashMap::remove`). -/
def erase : Store I E → I → Store I E
  | [], _ => []
  | (k', e) :: rest, k => if k = k' then rest else (k', e) :: erase rest k

/-- Increment the reference count under a key, if its count is tracked:
`get_mut(k).1.as_mut().map(|v| *v += 1)`. Missing keys are left alone
(callers check presence first). -/
def bumpRC (s : Store I E) (k : I) : Store I E :=
  match lookup s k with
  | none => s
  | some (pair, rc) => update s k (pair, rc.map (· + 1))

/-- Errors of the in-memory backend (`InMemoryBackendError`). -/
inductive BackendError where
  | fetchingKeyNotExist
  | rootifyKeyNotExist
  | setIntermediateNotExist
deriving DecidableEq, Repr

/-- `ReadBackend::get` for the in-memory backend: clone of the stored pair. -/
def getB (s : Store I E) (k : I) : Option (Pair I E) :=
  (lookup s k).map (·.1)

/-- `WriteBackend::rootify`: increment the refcount of an existing key;
fails with `RootifyKeyNotExist` when the key is absent. -/
def rootifyB (s : Store I E) (k : I) : Option (Store I E) :=
  if containsKey s k then some (bumpRC s k) else none

/-- `WriteBackend::insert` for the in-memory backend (`memory.rs` lines
226-254).  If the key is already present it does nothing.  Otherwise each
child that is an `Intermediate` must already be present and has its
refcount incremented (the left child is processed before the right child,
so a failure on the right child leaves the left increment in place, as in
the source), and the entry is stored with local refcount `Some 0`.
Returns the (possibly partially mutated) store and the error, if any. -/
def insertB (s : Store I E) (k : I) (pair : Pair I E) : Store I E × Option BackendError :=
  if containsKey s k then (s, none)
  else
    match pair.1 with
    | .intermediate sub =>
      if containsKey s sub then
        let s1 := bumpRC s sub
        match pair.2 with
        | .intermediate sub2 =>
          if containsKey s1 sub2 then ((k, (pair, some 0)) :: bumpRC s1 sub2, none)
          else (s1, some .setIntermediateNotExist)
        | .end_ _ => ((k, (pair, some 0)) :: s1, none)
      else (s, some .setIntermediateNotExist)
    | .end_ _ =>
      match pair.2 with
      | .intermediate sub2 =>
        if containsKey s sub2 then ((k, (pair, some 0)) :: bumpRC s sub2, none)
        else (s, some .setIntermediateNotExist)
      | .end_ _ => ((k, (pair, some 0)) :: s, none)

/-- Occurrences of `Intermediate j` among the two components of a pair. -/
def occInt (j : I) (pair : Pair I E) : Nat :=
  (if pair.1 = Value.intermediate j then 1 else 0) +
  (if pair.2 = Value.intermediate j then 1 else 0)

end Core

section MoreDefs

variable {I E : Type} [DecidableEq I] [DecidableEq E] [Inhabited E]

/-! #### Generalized index routes (`index.rs` / `raw.rs::MerkleIndex`) -/

/-- A left/right selection (`MerkleSelection`). -/
inductive Sel where
  | left
  | right
deriving DecidableEq, Repr

/-- Worker for `route`, structurally recursive on a fuel bound (`n` halves
each step, so fuel `n` always suffices). -/
def routeGo : Nat → Nat → List Sel
  | 0, _ => []
  | fuel + 1, n =>
    if n ≤ 1 then []
    else routeGo fuel (n / 2) ++ [if n % 2 = 0 then Sel.left else Sel.right]

/-- `MerkleIndex::route`: the selections of a 1-based generalized index,
read from the most significant bit (below the leading 1) down to the least
significant bit.  The source builds the list LSB-first and reverses it. -/
def route (n : Nat) : List Sel :=
  routeGo n n

/-- `MerkleRaw::get` walk: follow the route through the backend, returning
`none` when an `End` is met with route remaining or a key is missing. -/
def getRawGo (s : Store I E) : Value I E → List Sel → Option (Value I E)
  | current, [] => some current
  | current, sel :: rest =>
    match current with
    | .end_ _ => none
    | .intermediate i =>
      match getB s i with
      | none => none
      | some pair =>
        getRawGo s (match sel with | Sel.left => pair.1 | Sel.right => pair.2) rest

/-- `MerkleRaw::get` (`raw.rs` lines 152-179). -/
def getRaw (s : Store I E) (root : Value I E) (idx : Nat) : Option (Value I E) :=
  getRawGo s root (route idx)

/-! #### Unrootify / remove (`traits.rs::InMemoryBackend::remove`) -/

/-- `InMemoryBackend::remove`: decrement the refcount when tracked; when it
reaches zero, recursively remove intermediate children, then delete the
entry.  Recursion is fuelled (the source recursion is unbounded); `none`
covers both fuel exhaustion and the `SetIntermediateNotExist` error.
`Nat` subtraction stands in for the `usize` decrement (call sites keep the
count positive). -/
def removeB : Nat → Store I E → I → Option (Store I E)
  | 0, _, _ => none
  | fuel + 1, s, k =>
    match lookup s k with
    | none => none
    | some (pair, rc) =>
      let rc' := rc.map (· - 1)
      let s1 := update s k (pair, rc')
      if rc' = some 0 then
        let s2opt :=
          match pair.1 with
          | .intermediate sub => removeB fuel s1 sub
          | .end_ _ => some s1
        match s2opt with
        | none => none
        | some s2 =>
          let s3opt :=
            match pair.2 with
            | .intermediate sub => removeB fuel s2 sub
            | .end_ _ => some s2
          match s3opt with
          | none => none
          | some s3 => some (erase s3 k)
      else some s1

/-- One child step of the removal cascade: recursively remove an
`Intermediate` child, leave the store alone on an `End` child. -/
def childStep (fuel : Nat) (t : Store I E) : Value I E → Option (Store I E)
  | .intermediate sub => removeB fuel t sub
  | .end_ _ => some t

/-- One child step of `insert`: bump the refcount of an `Intermediate`
child, leave the store alone on an `End` child. -/
def bumpChild (s : Store I E) : Value I E → Store I E
  | .intermediate c => bumpRC s c
  | .end_ _ => s

/-! #### Empty subtrees (`memory.rs::EmptyBackend::empty_at`) -/

/-- The empty-subtree policy of a backend (`EmptyStatus` in `memory.rs`). -/
inductive EmptyStatus where
  | unit
  | inherited
deriving DecidableEq, Repr

/-- Raw `HashMap::insert` (overwrite), used by `empty_at` which writes the
chain entries directly into the map. -/
def storePut (s : Store I E) (k : I) (e : Entry I E) : Store I E :=
  if containsKey s k then update s k e else (k, e) :: s

/-- `empty_at(depth_to_bottom)`: unit policy returns `End(default)`;
inherited policy builds the all-empty chain bottom-up, writing each level
with refcount `None`, and returns the topmost value. -/
def emptyAtB (H : Value I E → Value I E → I) : EmptyStatus → Store I E → Nat → Store I E × Value I E
  | .unit, s, _ => (s, .end_ default)
  | .inherited, s, 0 => (s, .end_ default)
  | .inherited, s, d + 1 =>
    let (s', cur) := emptyAtB H .inherited s d
    let key := H cur cur
    (storePut s' key ((cur, cur), none), .intermediate key)

/-! #### `MerkleRaw::set` (`raw.rs` lines 182-278) -/

/-- Step 2 of `set`: walk the route from below the root, reading the
existing tree and accumulating the `(selection, (left, right))` stack;
missing pairs and `End` nodes continue through conceptual empty pairs. -/
def walkValues (s : Store I E) : Option I → List Sel → List (Sel × Pair I E)
  | _, [] => []
  | none, sel :: rest =>
    (sel, (Value.end_ default, Value.end_ default)) :: walkValues s none rest
  | some cur, sel :: rest =>
    match getB s cur with
    | some pair =>
      let next :=
        match sel with
        | Sel.left => pair.1.intermediate?
        | Sel.right => pair.2.intermediate?
      (sel, pair) :: walkValues s next rest
    | none =>
      (sel, (Value.end_ default, Value.end_ default)) :: walkValues s none rest

/-- Step 3 of `set`: unwind the stack (deepest first; callers pass the
reversed stack), plugging the updated value into the selected side, hashing
and inserting the parent, and feeding the parent upwards. -/
def unwind (H : Value I E → Value I E → I) :
    Store I E → List (Sel × Pair I E) → Value I E → Option (Store I E × Value I E)
  | s, [], u => some (s, u)
  | s, (sel, pair) :: rest, u =>
    let pair' :=
      match sel with
      | Sel.left => (u, pair.2)
      | Sel.right => (pair.1, u)
    let key := H pair'.1 pair'.2
    match insertB s key pair' with
    | (s', none) => unwind H s' rest (Value.intermediate key)
    | (_, some _) => none

/-- `MerkleRaw::set` up to and including the rootify of the new root: the
pre-insert of an intermediate `set` value (which must already exist), the
walk, the unwind, and `rootify` of the new root.  The unrootify of the old
root happens after this (see `setB`), so every subtree the new tree
references is already counted when the old root is released. -/
def setChain (H : Value I E → Value I E → I) (s : Store I E) (root : Value I E)
    (idx : Nat) (v : Value I E) : Option (Store I E × Value I E) :=
  let step1 : Option (Store I E) :=
    match v with
    | .end_ _ => some s
    | .intermediate key =>
      match getB s key with
      | none => none
      | some pair =>
        match insertB s key pair with
        | (s', none) => some s'
        | (_, some _) => none
  match step1 with
  | none => none
  | some s1 =>
    match root, route idx with
    | .end_ _, [] =>
      match v with
      | .intermediate key => (rootifyB s1 key).map (fun s2 => (s2, v))
      | .end_ _ => some (s1, v)
    | r, rt =>
      let values := walkValues s1 r.intermediate? rt
      match unwind H s1 values.reverse v with
      | none => none
      | some (s2, u) =>
        match u with
        | .intermediate k => (rootifyB s2 k).map (fun s3 => (s3, u))
        | .end_ _ => some (s2, u)

/-- `MerkleRaw::set`: the chain above, then unrootify of the previous root
(the reference-releasing cascade), returning the final store and new root. -/
def setB (H : Value I E → Value I E → I) (fuel : Nat) (s : Store I E) (root : Value I E)
    (idx : Nat) (v : Value I E) : Option (Store I E × Value I E) :=
  match setChain H s root idx v with
  | none => none
  | some (s', u) =>
    match root with
    | .intermediate k => (removeB fuel s' k).map (fun s'' => (s'', u))
    | .end_ _ => some (s', u)

/-! #### Vector (`vector.rs`) -/

/-- Tree-layer error kinds (`traits.rs::Error`); backend errors are
collapsed into one constructor. -/
inductive TreeError where
  | corruptedDatabase
  | accessOverflowed
  | invalidParameter
  | backendError
deriving DecidableEq, Repr

/-- The `while max_len < len { max_len *= 2 }` loop from `max_len = m`,
structurally recursive on a fuel bound (`len` iterations always suffice). -/
def pow2GoF : Nat → Nat → Nat → Nat
  | 0, _, m => m
  | fuel + 1, len, m => if 0 < m ∧ m < len then pow2GoF fuel len (2 * m) else m

/-- The `max_len` loop started from 1. -/
def pow2Go (len m : Nat) : Nat :=
  pow2GoF len len m

/-- The matching depth loop (`depth` in `vector.rs`, `required_depth`). -/
def depthGoF : Nat → Nat → Nat → Nat → Nat
  | 0, _, _, d => d
  | fuel + 1, len, m, d => if 0 < m ∧ m < len then depthGoF fuel len (2 * m) (d + 1) else d

/-- The depth loop started from `(1, 0)`. -/
def depthGo (len m d : Nat) : Nat :=
  depthGoF len len m d

/-- `Vector` state: the raw tree root plus `(len, max_len)`. -/
structure VecState (I E : Type) where
  root : Value I E
  len : Nat
  maxLen : Option Nat
deriving DecidableEq, Repr

/-- `Vector::current_max_len`. -/
def currentMaxLen (v : VecState I E) : Nat :=
  v.maxLen.getD (pow2Go v.len 1)

/-- `Vector::depth`. -/
def vDepth (v : VecState I E) : Nat :=
  depthGo (currentMaxLen v) 1 0

/-- `Vector::get`.  `raw_index` is `Index::from_one(current_max_len + i)`,
which fails with `InvalidParameter` when the one-based index is zero. -/
def vGet (s : Store I E) (v : VecState I E) (i : Nat) : Except TreeError E :=
  if v.len ≤ i then .error .accessOverflowed
  else if currentMaxLen v + i = 0 then .error .invalidParameter
  else
    match getRaw s v.root (currentMaxLen v + i) with
    | none => .error .corruptedDatabase
    | some (.end_ e) => .ok e
    | some (.intermediate _) => .error .corruptedDatabase

/-- `Vector::set`. -/
def vSet (H : Value I E → Value I E → I) (fuel : Nat) (s : Store I E) (v : VecState I E)
    (i : Nat) (x : E) : Except TreeError (Store I E × VecState I E) :=
  if v.len ≤ i then .error .accessOverflowed
  else if currentMaxLen v + i = 0 then .error .invalidParameter
  else
    match setB H fuel s v.root (currentMaxLen v + i) (Value.end_ x) with
    | none => .error .backendError
    | some (s', root') => .ok (s', { v with root := root' })

/-- `Vector::extend` (`vector.rs` lines 27-36): build a fresh raw tree whose
left child is the old root and whose right child is `empty_at(depth)`, then
release the old raw tree. -/
def vExtend (H : Value I E → Value I E → I) (pol : EmptyStatus) (fuel : Nat)
    (s : Store I E) (v : VecState I E) : Except TreeError (Store I E × VecState I E) :=
  let (s0, empty) := emptyAtB H pol s (vDepth v)
  match setB H fuel s0 (Value.end_ default) 2 v.root with
  | none => .error .backendError
  | some (s1, r1) =>
    match setB H fuel s1 r1 3 empty with
    | none => .error .backendError
    | some (s2, r2) =>
      match setB H fuel s2 v.root 1 (Value.end_ default) with
      | none => .error .backendError
      | some (s3, _) => .ok (s3, { v with root := r2 })

/-- `Vector::shrink` (`vector.rs` lines 38-44). -/
def vShrink (H : Value I E → Value I E → I) (fuel : Nat) (s : Store I E)
    (v : VecState I E) : Except TreeError (Store I E × VecState I E) :=
  match getRaw s v.root 2 with
  | some ev =>
    match setB H fuel s v.root 1 ev with
    | none => .error .backendError
    | some (s', root') => .ok (s', { v with root := root' })
  | none =>
    match setB H fuel s v.root 1 (Value.end_ default) with
    | none => .error .backendError
    | some (s', root') => .ok (s', { v with root := root' })

/-- `Vector::push` (`vector.rs` lines 96-112). -/
def vPush (H : Value I E → Value I E → I) (pol : EmptyStatus) (fuel : Nat)
    (s : Store I E) (v : VecState I E) (x : E) : Except TreeError (Store I E × VecState I E) :=
  if v.len = currentMaxLen v then
    if v.maxLen.isSome then .error .accessOverflowed
    else
      match vExtend H pol fuel s v with
      | .error e => .error e
      | .ok (s', v') =>
        let v2 := { v' with len := v.len + 1 }
        if currentMaxLen v2 + v.len = 0 then .error .invalidParameter
        else
          match setB H fuel s' v2.root (currentMaxLen v2 + v.len) (Value.end_ x) with
          | none => .error .backendError
          | some (s'', root') => .ok (s'', { v2 with root := root' })
  else
    let v2 := { v with len := v.len + 1 }
    if currentMaxLen v2 + v.len = 0 then .error .invalidParameter
    else
      match setB H fuel s v2.root (currentMaxLen v2 + v.len) (Value.end_ x) with
      | none => .error .backendError
      | some (s', root') => .ok (s', { v2 with root := root' })

/-- The pop walk-up loop: ascend while the position is a left child (even
index with a parent), counting the levels; structurally recursive on a
fuel bound (`i` halves each step). -/
def walkUpF : Nat → Nat → Nat → Nat × Nat
  | 0, i, d => (i, d)
  | fuel + 1, i, d => if 1 < i ∧ i % 2 = 0 then walkUpF fuel (i / 2) (d + 1) else (i, d)

/-- The walk-up loop with sufficient fuel. -/
def walkUp (i d : Nat) : Nat × Nat :=
  walkUpF i i d

/-- `Vector::pop` (`vector.rs` lines 115-153): read the last element, walk
up through left-child ancestors, plant `empty_at(d)` at the reached
position, then shrink when the new length allows it and no `max_len` is
fixed. -/
def vPop (H : Value I E → Value I E → I) (pol : EmptyStatus) (fuel : Nat)
    (s : Store I E) (v : VecState I E) :
    Except TreeError (Store I E × VecState I E × Option E) :=
  if v.len = 0 then .ok (s, v, none)
  else
    let index := v.len - 1
    let ri := currentMaxLen v + index
    if ri = 0 then .error .invalidParameter
    else
    match getRaw s v.root ri with
    | none => .error .corruptedDatabase
    | some (.intermediate _) => .error .corruptedDatabase
    | some (.end_ x) =>
      let (r, d) := walkUp ri 0
      let (s0, empty) := emptyAtB H pol s d
      match setB H fuel s0 v.root r empty with
      | none => .error .backendError
      | some (s1, root1) =>
        let v1 := { v with root := root1 }
        if v.len - 1 ≤ currentMaxLen v / 2 ∧ v.maxLen = none then
          match vShrink H fuel s1 v1 with
          | .error e => .error e
          | .ok (s2, v2) => .ok (s2, { v2 with len := v.len - 1 }, some x)
        else .ok (s1, { v1 with len := v.len - 1 }, some x)

/-- `Vector::create` (`vector.rs` lines 210-235).  Note the guard in the
source is `len < max_len || max_len == 0`. -/
def vCreate (H : Value I E → Value I E → I) (pol : EmptyStatus) (fuel : Nat)
    (s : Store I E) (len : Nat) (maxLen : Option Nat) :
    Except TreeError (Store I E × VecState I E) :=
  let build : Except TreeError (Store I E × VecState I E) :=
    let target := maxLen.getD len
    let depth := depthGo target 1 0
    let (s0, empty) := emptyAtB H pol s depth
    match setB H fuel s0 (Value.end_ default) 1 empty with
    | none => .error .backendError
    | some (s1, root1) => .ok (s1, ⟨root1, len, maxLen⟩)
  match maxLen with
  | some m => if len < m ∨ m = 0 then .error .invalidParameter else build
  | none => build

/-! #### Length mixing (`length.rs::with_mut`, `list.rs::update_metadata`) -/

/-- The metadata rewrite shared by `LengthMixed::with_mut` (`length.rs`
lines 47-58) and `List::update_metadata` (`list.rs` lines 24-28): write the
inner root at generalized index 2 and the length leaf at index 3. -/
def updateMetadataB (H : Value I E → Value I E → I) (fuel : Nat) (s : Store I E)
    (root innerRoot : Value I E) (lenLeaf : E) : Option (Store I E × Value I E) :=
  match setB H fuel s root 2 innerRoot with
  | none => none
  | some (s1, r1) =>
    match setB H fuel s1 r1 3 (Value.end_ lenLeaf) with
    | none => none
    | some (s2, r2) => some (s2, r2)

/-! #### `serialize.rs::serialize_vector` -/

/-- `required_depth` (also the inline loop in `serialize_vector`). -/
def requiredDepth (len : Nat) : Nat :=
  depthGo len 1 0

/-- The inner `while !current.is_empty()` loop of `serialize_vector`:
values are taken with `Vec::pop` (from the END of the buffer), the
`unwrap_or` argument `db.empty_at(depth_to_bottom)?` is evaluated eagerly
as in Rust, pairs are hashed and inserted, and the results accumulate in
`next` in pop order. -/
def serializeLevelF (H : Value I E → Value I E → I) (pol : EmptyStatus) :
    Nat → Store I E → List (Value I E) → Nat → List (Value I E) →
    Option (Store I E × List (Value I E))
  | _, s, [], _, next => some (s, next)
  | 0, _, _ :: _, _, _ => none
  | fuel + 1, s, c :: cs, d2b, next =>
    let current := c :: cs
    let (s1, e1) := emptyAtB H pol s d2b
    let left := current.getLast?.getD e1
    let current1 := current.dropLast
    let (s2, e2) := emptyAtB H pol s1 d2b
    let right := current1.getLast?.getD e2
    let current2 := current1.dropLast
    let key := H left right
    match insertB s2 key (left, right) with
    | (s3, none) => serializeLevelF H pol fuel s3 current2 d2b (next ++ [Value.intermediate key])
    | (_, some _) => none

/-- The level loop with sufficient fuel (the buffer shrinks every pass). -/
def serializeLevel (H : Value I E → Value I E → I) (pol : EmptyStatus)
    (s : Store I E) (current : List (Value I E)) (d2b : Nat) (next : List (Value I E)) :
    Option (Store I E × List (Value I E)) :=
  serializeLevelF H pol current.length s current d2b next

/-- The `for depth in (1..total_depth+1).rev()` loop of `serialize_vector`;
after every iteration `next` is reset to an empty buffer. -/
def serializeFor (H : Value I E → Value I E → I) (pol : EmptyStatus) (totalDepth : Nat) :
    List Nat → Store I E → List (Value I E) → Option (Store I E × List (Value I E))
  | [], s, current => some (s, current)
  | depth :: rest, s, current =>
    match serializeLevel H pol s current (totalDepth - depth) [] with
    | none => none
    | some (s', next) => serializeFor H pol totalDepth rest s' next

/-- `serialize_vector` (`serialize.rs` lines 12-44).  The final expression
indexes `current[0]` when `total_depth == 0` and `next[0]` otherwise; after
the loop `next` is always the empty buffer, so the `next[0]` lookup is an
out-of-bounds panic, modelled as `none`. -/
def serializeVectorB (H : Value I E → Value I E → I) (pol : EmptyStatus)
    (values : List (Value I E)) (s : Store I E) (atDepth : Option Nat) :
    Option (Store I E × Value I E) :=
  let totalDepth := atDepth.getD (requiredDepth values.length)
  match serializeFor H pol totalDepth ((List.range' 1 totalDepth).reverse) s values with
  | none => none
  | some (s', current) =>
    if totalDepth = 0 then
      match current.head? with
      | none => none
      | some v => some (s', v)
    else none

/-! #### SSZ decoders (`le/src`) -/

/-- Little-endian byte-list to natural number (`U256::from_little_endian`). -/
def leBytesToNat : List Nat → Nat
  | [] => 0
  | b :: rest => b + 256 * leBytesToNat rest

/-- `usize::max_value()` for the 64-bit reference target. -/
def usizeMax : Nat := 2 ^ 64 - 1

/-- `from_list_tree` (`elemental_variable.rs` lines 111-138) up to the
element-reader call: read the vector root (left child of the root) and the
length leaf (right child, a 32-byte little-endian 256-bit integer); lengths
above `usize::MAX` fail with `CorruptedDatabase`. -/
def fromListTreeHeader (s : Store I (List Nat)) (root : Value I (List Nat)) :
    Except TreeError (Value I (List Nat) × Nat) :=
  match getRaw s root 2 with
  | none => .error .corruptedDatabase
  | some vroot =>
    match getRaw s root 3 with
    | none => .error .corruptedDatabase
    | some (.intermediate _) => .error .corruptedDatabase
    | some (.end_ bytes) =>
      let lenBig := leBytesToNat bytes
      if usizeMax < lenBig then .error .corruptedDatabase
      else .ok (vroot, lenBig)

/-- `FromTree` for the built-in unsigned integers (`basic.rs` lines 40-57):
the root must be an end leaf; the first `nbytes` little-endian bytes are
decoded and the remaining padding bytes are ignored without any check. -/
def fromTreeUint (nbytes : Nat) (root : Value I (List Nat)) : Except TreeError Nat :=
  match root with
  | .intermediate _ => .error .corruptedDatabase
  | .end_ bytes => .ok (leBytesToNat (bytes.take nbytes))

/-- `host_max_len` / `host_len` (`utils.rs`). -/
def hostLenB (hostBytes valBytes valueLen : Nat) : Nat :=
  let bytes := valBytes * valueLen
  if bytes % hostBytes = 0 then bytes / hostBytes else bytes / hostBytes + 1

/-- The `while covered < value_len` loop of `coverings` (`packed.rs`),
structurally recursive on a fuel bound (`covered` grows by at least one
per iteration when the host width is positive). -/
def coveringsLoopF : Nat → Nat → Nat → Nat → List (Nat × Nat)
  | 0, _, _, _ => []
  | fuel + 1, hostLen, valLen, covered =>
    if covered < valLen ∧ 0 < hostLen then
      let rest := valLen - covered
      (0, min rest hostLen) :: coveringsLoopF fuel hostLen valLen (covered + min rest hostLen)
    else []

/-- The coverings loop with sufficient fuel. -/
def coveringsLoop (hostLen valLen covered : Nat) : List (Nat × Nat) :=
  coveringsLoopF valLen hostLen valLen covered

/-- `coverings` (`packed.rs` lines 13-32): the base host index and the byte
ranges of the host leaves covered by one value. -/
def coveringsB (hostLen valLen idx : Nat) : Nat × List (Nat × Nat) :=
  let bytes := valLen * idx
  let hostIndex := bytes / hostLen
  let offset := bytes - hostLen * hostIndex
  let hi := min (offset + valLen) hostLen
  (hostIndex, (offset, hi) :: coveringsLoop hostLen valLen (hi - offset))

/-- `PackedVector::get` (`packed.rs` lines 53-66): concatenate the covered
byte ranges of the host leaves. -/
def packedGetGo (s : Store I (List Nat)) (tuple : VecState I (List Nat)) (base : Nat) :
    Nat → List (Nat × Nat) → Except TreeError (List Nat)
  | _, [] => .ok []
  | i, (a, b) :: rest =>
    match vGet s tuple (base + i) with
    | .error e => .error e
    | .ok hostBytes =>
      let piece := (hostBytes.drop a).take (b - a)
      match packedGetGo s tuple base (i + 1) rest with
      | .error e => .error e
      | .ok more => .ok (piece ++ more)

/-- The byte-collection loop of the packed bool decoder: `packed.get(db, i)[0]`
for each host byte index. -/
def packedBytesGo (s : Store I (List Nat)) (tuple : VecState I (List Nat)) :
    Nat → Nat → Except TreeError (List Nat)
  | _, 0 => .ok []
  | i, n + 1 =>
    let (base, ranges) := coveringsB 32 1 i
    match packedGetGo s tuple base 0 ranges with
    | .error e => .error e
    | .ok bytes =>
      match bytes.head? with
      | none => .error .corruptedDatabase
      | some b =>
        match packedBytesGo s tuple (i + 1) n with
        | .error e => .error e
        | .ok more => .ok (b :: more)

/-- `FromCompactVectorTree for ElementalFixedVec<bool>` (`elemental_fixed.rs`
lines 188-213): rebuild the packed byte vector, then read `len` bits
LSB-first.  The trailing bits of the final byte are not checked (the
`TODO` in the source). -/
def fromCompactVectorTreeBool (s : Store I (List Nat)) (root : Value I (List Nat))
    (len : Nat) (maxLen : Option Nat) : Except TreeError (List Bool) :=
  let valueLen := (len + 7) / 8
  let tuple : VecState I (List Nat) :=
    ⟨root, hostLenB 32 1 valueLen, (maxLen.map (fun l => (l + 7) / 8)).map (hostLenB 32 1)⟩
  match packedBytesGo s tuple 0 valueLen with
  | .error e => .error e
  | .ok bytes => .ok ((List.range len).map (fun i => Nat.testBit (bytes.getD (i / 8) 0) (i % 8)))

/-! #### Proving layer (`proving.rs`) -/

/-- Compact proofs (`CompactValue`). -/
inductive CompactValue (V : Type) where
  | single (v : V)
  | combined (l r : CompactValue V)
deriving DecidableEq, Repr

/-- A proof map `I → (Value, Value)` as an insertion-ordered list. -/
abbrev ProofsMap (V : Type) := List (V × (V × V))

/-- Map lookup with insertion semantics of `HashMap::insert` (the latest
binding of a key wins). -/
def lookupP {V : Type} [DecidableEq V] : ProofsMap V → V → Option (V × V)
  | [], _ => none
  | (k', v) :: rest, k =>
    match lookupP rest k with
    | some r => some r
    | none => if k = k' then some v else none

/-- `Proofs::into_compact` (`proving.rs` lines 162-172), fuelled: if the
root is a key of the proofs emit `Combined` of the children's compacts,
otherwise `Single(root)`.  The source recursion is unbounded; `none` marks
fuel exhaustion. -/
def intoCompactF {V : Type} [DecidableEq V] : Nat → ProofsMap V → V → Option (CompactValue V)
  | 0, _, _ => none
  | fuel + 1, P, root =>
    match lookupP P root with
    | some (l, r) =>
      (intoCompactF fuel P l).bind fun cl =>
        (intoCompactF fuel P r).bind fun cr => some (.combined cl cr)
    | none => some (.single root)

/-- `Proofs::from_compact` via `CompactValue::fold` (`proving.rs` lines
175-183 and 214-230): fold the compact tree, recompute each intermediate
key, chain the children's proofs and insert the recomputed entry. -/
def fromCompact {V : Type} [DecidableEq V] (H2 : V → V → V) :
    CompactValue V → ProofsMap V × V
  | .single v => ([], v)
  | .combined cl cr =>
    let (pl, l) := fromCompact H2 cl
    let (pr, r) := fromCompact H2 cr
    let key := H2 l r
    (pl ++ pr ++ [(key, (l, r))], key)

/-- Keys visited by `into_compact` when expanding a value: the value itself
when it is a key of the proofs, and recursively the keys visited from the
children of any visited key. -/
inductive ReachP {V : Type} [DecidableEq V] (P : ProofsMap V) : V → V → Prop where
  | here {v : V} {pr : V × V} : lookupP P v = some pr → ReachP P v v
  | left {v l r k : V} : lookupP P v = some (l, r) → ReachP P l k → ReachP P v k
  | right {v l r k : V} : lookupP P v = some (l, r) → ReachP P r k → ReachP P v k

/-! #### Backend invariants used in the refcount proofs -/

/-- Weight of one store element as a (non-zombie, refcounted) parent of `j`. -/
def refWeight (Z : List I) (e : I × Entry I E) (j : I) : Nat :=
  if e.1 ∈ Z then 0
  else
    match e.2.2 with
    | some _ => occInt j e.2.1
    | none => 0

/-- Number of references to `j` from refcounted entries outside `Z`. -/
def pcNZ (s : Store I E) (Z : List I) (j : I) : Nat :=
  (s.map (fun e => refWeight Z e j)).sum

/-- Total refcount mass of a store (termination measure for the cascade). -/
def muStore (s : Store I E) : Nat :=
  (s.map (fun e => e.2.2.getD 0)).sum

/-- Key list of a store is duplicate-free. -/
def KeysNodup (s : Store I E) : Prop :=
  (s.map Prod.fst).Nodup

/-- All externally rooted keys are present. -/
def RootsPresent (R : List I) (s : Store I E) : Prop :=
  ∀ r ∈ R, containsKey s r = true

/-- A child value points at a present entry (or is a leaf). -/
def childPresentB (s : Store I E) : Value I E → Bool
  | .intermediate j => containsKey s j
  | .end_ _ => true

/-- All children of entries outside `Z` are present. -/
def ClosedNZ (Z : List I) (s : Store I E) : Prop :=
  ∀ e ∈ s, e.1 ∉ Z → childPresentB s e.2.1.1 = true ∧ childPresentB s e.2.1.2 = true

/-- A child value points at an entry with untracked (`None`) refcount. -/
def childNoneB (s : Store I E) : Value I E → Bool
  | .intermediate j =>
    match lookup s j with
    | some (_, none) => true
    | _ => false
  | .end_ _ => true

/-- Children of proof-populated (`None`) entries are proof-populated. -/
def NoneZone (s : Store I E) : Prop :=
  ∀ e ∈ s, e.2.2 = none → childNoneB s e.2.1.1 = true ∧ childNoneB s e.2.1.2 = true

/-- Refcount balance: outside `Z`, a tracked count equals the external
roots plus the references from tracked entries outside `Z`. -/
def ValidZ (R Z : List I) (s : Store I E) : Prop :=
  ∀ e ∈ s, e.1 ∉ Z → ∀ n, e.2.2 = some n → n = R.count e.1 + pcNZ s Z e.1

/-- An entry is a zombie candidate: present with tracked count zero. -/
def zombieEntryB (s : Store I E) (z : I) : Bool :=
  match lookup s z with
  | some (_, some 0) => true
  | _ => false

/-- Keys in `Z` are pending deletions: present with count zero, unrooted,
and unreferenced by entries outside `Z`. -/
def ZombiesOK (R Z : List I) (s : Store I E) : Prop :=
  ∀ z ∈ Z, zombieEntryB s z = true ∧ z ∉ R ∧ pcNZ s Z z = 0

/-- The full backend invariant, relative to external roots `R` and pending
deletions `Z`. -/
def INVZ (R Z : List I) (s : Store I E) : Prop :=
  KeysNodup s ∧ RootsPresent R s ∧ ClosedNZ Z s ∧ NoneZone s ∧ ValidZ R Z s ∧ ZombiesOK R Z s

/-- The quiescent invariant (no pending deletions). -/
def INV (R : List I) (s : Store I E) : Prop :=
  INVZ R [] s

/-- Content-addressed store: every entry is keyed by the hash of its pair. -/
def CA (H : Value I E → Value I E → I) (s : Store I E) : Prop :=
  ∀ e ∈ s, e.1 = H e.2.1.1 e.2.1.2

/-- Every entry of `s'` appears in `s` with the same key and pair (only the
refcount may differ): the pair content of `s'` comes from `s`. -/
def PairsSub (s' s : Store I E) : Prop :=
  ∀ e ∈ s', ∃ rcx, (e.1, (e.2.1, rcx)) ∈ s

/-- Keys reachable from a value through the store. -/
inductive ReachKey (s : Store I E) : Value I E → I → Prop where
  | root {j : I} : ReachKey s (.intermediate j) j
  | stepLeft {v : Value I E} {j j' : I} {pair : Pair I E} :
      ReachKey s v j' → getB s j' = some pair → pair.1 = Value.intermediate j →
      ReachKey s v j
  | stepRight {v : Value I E} {j j' : I} {pair : Pair I E} :
      ReachKey s v j' → getB s j' = some pair → pair.2 = Value.intermediate j →
      ReachKey s v j

/-- The intermediate children of a value, as a (zero- or one-element) list. -/
def intChildren1 : Value I E → List I
  | .intermediate j => [j]
  | .end_ _ => []

/-- External roots after a `set`: the new root intermediate (rootified by
`set`) joins the previous roots. -/
def rootsAfter (u : Value I E) (R : List I) : List I :=
  match u with
  | .intermediate uk => uk :: R
  | .end_ _ => R

/-- External roots after a full owned `set`: the new root joins and the old
root intermediate (unrootified by `set`) leaves the previous roots. -/
def rootsAfterSet (root u : Value I E) (R : List I) : List I :=
  match root with
  | .intermediate k0 => (rootsAfter u R).erase k0
  | .end_ _ => rootsAfter u R

/-- The intermediate children of a pair, left first. -/
def intChildren (pair : Pair I E) : List I :=
  intChildren1 pair.1 ++ intChildren1 pair.2

end MoreDefs

/-! ### Concrete instantiation used for witnesses and counterexamples

Keys and end values are natural numbers; the hash of a pair is computed with
`Nat.pair` over an injective encoding of values, so that distinct pairs get
distinct keys (a collision-free stand-in for SHA-256). -/

/-- Injective encoding of a concrete value into a natural number. -/
def encV : Value Nat Nat → Nat
  | .intermediate i => 2 * i + 1
  | .end_ e => 2 * e

/-- Concrete collision-free hash for witnesses (stand-in for SHA-256). -/
def hashC (l r : Value Nat Nat) : Nat :=
  Nat.pair (encV l) (encV r)


section Lemmas

variable {I E : Type} [DecidableEq I] [DecidableEq E]

theorem lookup_update_self {s : Store I E} {k : I} {e₀ : Entry I E} (h : lookup s k = some e₀)
    (e : Entry I E) : lookup (update s k e) k = some e := by
  induction s with
  | nil => simp [lookup] at h
  | cons hd tl ih =>
    by_cases hk : k = hd.1
    · simp [lookup, update, hk]
    · simp [lookup, update, hk] at h ⊢
      exact ih h

theorem lookup_update_ne {s : Store I E} {k j : I} (hne : j ≠ k) (e : Entry I E) :
    lookup (update s k e) j = lookup s j := by
  induction s with
  | nil => simp [update]
  | cons hd tl ih =>
    by_cases hk : k = hd.1
    · subst hk
      simp [update, lookup, hne]
    · simp only [update, if_neg hk]
      by_cases hj : j = hd.1
      · simp [lookup, hj]
      · simp [lookup, hj, ih]

theorem lookup_update_absent {s : Store I E} {k : I} (h : lookup s k = none)
    (e : Entry I E) : update s k e = s := by
  induction s with
  | nil => rfl
  | cons hd tl ih =>
    by_cases hk : k = hd.1
    · simp [lookup, hk] at h
    · simp [lookup, hk] at h
      simp [update, hk, ih h]

theorem lookup_erase_self {s : Store I E} {k : I} (hnd : (s.map Prod.fst).Nodup) :
    lookup (erase s k) k = none := by
  induction s with
  | nil => rfl
  | cons hd tl ih =>
    simp only [List.map_cons, List.nodup_cons] at hnd
    by_cases hk : k = hd.1
    · subst hk
      simp only [erase, if_pos rfl]
      cases hh : lookup tl hd.1 with
      | none => exact hh
      | some e =>
        exfalso
        have : hd.1 ∈ tl.map Prod.fst := by
          clear ih hnd
          induction tl with
          | nil => simp [lookup] at hh
          | cons hd2 tl2 ih2 =>
            by_cases h2 : hd.1 = hd2.1
            · simp [h2]
            · simp [lookup, h2] at hh
              simp [ih2 hh]
        exact hnd.1 this
    · simp [erase, hk, lookup, ih hnd.2]

theorem lookup_erase_ne {s : Store I E} {k j : I} (hne : j ≠ k) :
    lookup (erase s k) j = lookup s j := by
  induction s with
  | nil => rfl
  | cons hd tl ih =>
    by_cases hk : k = hd.1
    · subst hk
      simp [erase, lookup, hne]
    · by_cases hj : j = hd.1
      · simp [erase, hk, lookup, hj]
      · simp [erase, hk, lookup, hj, ih]

theorem update_self_eq {s : Store I E} {k : I} {e : Entry I E} (h : lookup s k = some e) :
    update s k e = s := by
  induction s with
  | nil => rfl
  | cons hd tl ih =>
    by_cases hk : k = hd.1
    · simp only [lookup, if_pos hk] at h
      injection h with h2
      subst hk
      simp [update, ← h2]
    · simp only [lookup, if_neg hk] at h
      simp [update, hk, ih h]

theorem lookup_bumpRC_self {s : Store I E} {k : I} {pair : Pair I E} {rc : Option Nat}
    (h : lookup s k = some (pair, rc)) :
    lookup (bumpRC s k) k = some (pair, rc.map (· + 1)) := by
  unfold bumpRC
  rw [h]
  exact lookup_update_self h _

theorem lookup_bumpRC_ne {s : Store I E} {k j : I} (hne : j ≠ k) :
    lookup (bumpRC s k) j = lookup s j := by
  unfold bumpRC
  cases h : lookup s k with
  | none => rfl
  | some e => exact lookup_update_ne hne _

theorem containsKey_bumpRC {s : Store I E} {k : I} (j : I) :
    containsKey (bumpRC s k) j = containsKey s j := by
  unfold containsKey
  by_cases hj : j = k
  · subst hj
    cases h : lookup s j with
    | none =>
      have hb : bumpRC s j = s := by unfold bumpRC; rw [h]
      rw [hb, h]
    | some e =>
      have hpe : lookup s j = some (e.1, e.2) := by rw [h]
      rw [lookup_bumpRC_self hpe]
      rfl
  · rw [lookup_bumpRC_ne hj]

end Lemmas

theorem encV_injective : Function.Injective encV := by
  intro a b h
  cases a <;> cases b <;> simp [encV] at h <;> first
    | (exfalso; omega)
    | (subst h; rfl)

theorem hashC_injective : ∀ l r l' r', hashC l r = hashC l' r' → l = l' ∧ r = r' := by
  intro l r l' r' h
  unfold hashC at h
  have h1 := congrArg Nat.unpair h
  simp [Nat.unpair_pair] at h1
  exact ⟨encV_injective h1.1, encV_injective h1.2⟩

/-! ### Claim C1: `WriteBackend::insert` for `InMemoryBackend` -/

section C1

variable {I E : Type} [DecidableEq I] [DecidableEq E]

theorem insertB_present {s : Store I E} {k : I} (h : containsKey s k = true)
    (pair : Pair I E) : insertB s k pair = (s, none) := by
  unfold insertB
  simp [h]

/-- C1 (amended): `insert(k, (l, r))` on the in-memory backend leaves the
backend unchanged when `k` is present; when `k` is absent and every child
among `l, r` that is an `Intermediate` is present, it stores `(l, r)` under
`k` with local refcount 0 and increments the refcount of each such child
(by its number of occurrences); when `k` is absent and an `Intermediate`
child is missing it fails with `SetIntermediateNotExist`; and calling
`insert` twice with the same `(k, p)` yields the same refcount state as
calling it once provided the first call succeeds (on failure, the children
already processed are re-incremented by each retry). -/
theorem occInt_int_int {j sub sub2 : I} :
    occInt (E := E) j (Value.intermediate sub, Value.intermediate sub2) =
      (if j = sub then 1 else 0) + (if j = sub2 then 1 else 0) := by
  simp only [occInt, Value.intermediate.injEq]
  congr 1 <;> simp [eq_comm]

theorem occInt_int_end {j sub : I} {d : E} :
    occInt j (Value.intermediate sub, Value.end_ d) = (if j = sub then 1 else 0) := by
  simp only [occInt, Value.intermediate.injEq]
  simp [eq_comm]

theorem occInt_end_int {j sub2 : I} {d : E} :
    occInt j (Value.end_ d, Value.intermediate sub2) = (if j = sub2 then 1 else 0) := by
  simp only [occInt, Value.intermediate.injEq]
  simp [eq_comm]

theorem occInt_end_end {j : I} {d d2 : E} :
    occInt j (Value.end_ (I := I) d, Value.end_ d2) = 0 := by
  simp [occInt]

theorem map_add_zero (o : Option Nat) : o.map (· + 0) = o := by
  cases o <;> simp

theorem map_add_add (o : Option Nat) (a b : Nat) :
    (o.map (· + a)).map (· + b) = o.map (· + (a + b)) := by
  cases o <;> simp
  omega

theorem insert_spec_amended (s : Store I E) (k : I) (p : Pair I E) :
    (containsKey s k = true → insertB s k p = (s, none)) ∧
    (containsKey s k = false →
      (∀ j, p.1 = Value.intermediate j ∨ p.2 = Value.intermediate j →
        containsKey s j = true) →
      (insertB s k p).2 = none ∧
      lookup (insertB s k p).1 k = some (p, some 0) ∧
      (∀ j e, j ≠ k → lookup s j = some e →
        lookup (insertB s k p).1 j = some (e.1, e.2.map (· + occInt j p)))) ∧
    (containsKey s k = false →
      (∃ j, (p.1 = Value.intermediate j ∨ p.2 = Value.intermediate j) ∧
        containsKey s j = false) →
      (insertB s k p).2 = some BackendError.setIntermediateNotExist) ∧
    ((insertB s k p).2 = none →
      insertB (insertB s k p).1 k p = ((insertB s k p).1, none)) := by
  obtain ⟨l, r⟩ := p
  refine ⟨fun h => insertB_present h _, ?_, ?_, ?_⟩
  · -- successful fresh insert
    intro habs hch
    cases l with
    | intermediate sub =>
      have h1 : containsKey s sub = true := hch sub (Or.inl rfl)
      cases r with
      | intermediate sub2 =>
        have h2 : containsKey s sub2 = true := hch sub2 (Or.inr rfl)
        have h2b : containsKey (bumpRC s sub) sub2 = true := by
          rw [containsKey_bumpRC]; exact h2
        have hres : insertB s k (Value.intermediate sub, Value.intermediate sub2) =
            ((k, ((Value.intermediate sub, Value.intermediate sub2), some 0)) ::
              bumpRC (bumpRC s sub) sub2, none) := by
          simp [insertB, habs, h1, h2b]
        rw [hres]
        refine ⟨rfl, by simp [lookup], ?_⟩
        intro j e hjk hje
        simp only [lookup, if_neg hjk, occInt_int_int]
        by_cases hs1 : j = sub
        · subst hs1
          by_cases hs2 : j = sub2
          · subst hs2
            have hb1 : lookup (bumpRC s j) j = some (e.1, e.2.map (· + 1)) :=
              lookup_bumpRC_self (show lookup s j = some (e.1, e.2) by rw [← hje])
            have hb2 := lookup_bumpRC_self hb1
            rw [hb2, map_add_add]
            simp
          · have hb1 : lookup (bumpRC s j) j = some (e.1, e.2.map (· + 1)) :=
              lookup_bumpRC_self (show lookup s j = some (e.1, e.2) by rw [← hje])
            rw [lookup_bumpRC_ne hs2, hb1]
            simp [hs2]
        · by_cases hs2 : j = sub2
          · subst hs2
            have hb1 : lookup (bumpRC s sub) j = some (e.1, e.2) := by
              rw [lookup_bumpRC_ne hs1]; exact hje
            have hb2 := lookup_bumpRC_self hb1
            rw [hb2]
            simp [hs1]
          · rw [lookup_bumpRC_ne hs2, lookup_bumpRC_ne hs1, hje]
            simp [hs1, hs2, map_add_zero]
      | end_ d =>
        have hres : insertB s k (Value.intermediate sub, Value.end_ d) =
            ((k, ((Value.intermediate sub, Value.end_ d), some 0)) :: bumpRC s sub, none) := by
          simp [insertB, habs, h1]
        rw [hres]
        refine ⟨rfl, by simp [lookup], ?_⟩
        intro j e hjk hje
        simp only [lookup, if_neg hjk, occInt_int_end]
        by_cases hs1 : j = sub
        · subst hs1
          have hb1 : lookup (bumpRC s j) j = some (e.1, e.2.map (· + 1)) :=
            lookup_bumpRC_self (show lookup s j = some (e.1, e.2) by rw [← hje])
          rw [hb1]
          simp
        · rw [lookup_bumpRC_ne hs1, hje]
          simp [hs1, map_add_zero]
    | end_ d =>
      cases r with
      | intermediate sub2 =>
        have h2 : containsKey s sub2 = true := hch sub2 (Or.inr rfl)
        have hres : insertB s k (Value.end_ d, Value.intermediate sub2) =
            ((k, ((Value.end_ d, Value.intermediate sub2), some 0)) :: bumpRC s sub2, none) := by
          simp [insertB, habs, h2]
        rw [hres]
        refine ⟨rfl, by simp [lookup], ?_⟩
        intro j e hjk hje
        simp only [lookup, if_neg hjk, occInt_end_int]
        by_cases hs2 : j = sub2
        · subst hs2
          have hb1 : lookup (bumpRC s j) j = some (e.1, e.2.map (· + 1)) :=
            lookup_bumpRC_self (show lookup s j = some (e.1, e.2) by rw [← hje])
          rw [hb1]
          simp
        · rw [lookup_bumpRC_ne hs2, hje]
          simp [hs2, map_add_zero]
      | end_ d2 =>
        have hres : insertB s k (Value.end_ d, Value.end_ d2) =
            ((k, ((Value.end_ d, Value.end_ d2), some 0)) :: s, none) := by
          simp [insertB, habs]
        rw [hres]
        refine ⟨rfl, by simp [lookup], ?_⟩
        intro j e hjk hje
        simp only [lookup, if_neg hjk, occInt_end_end]
        rw [hje]
        rw [map_add_zero]
  · -- failing fresh insert
    rintro habs ⟨j, hj, hjabs⟩
    cases l with
    | intermediate sub =>
      cases r with
      | intermediate sub2 =>
        rcases hj with hj | hj
        · have hjs : j = sub := by injection hj with h2; exact h2.symm
          subst hjs
          simp [insertB, habs, hjabs]
        · have hjs : j = sub2 := by injection hj with h2; exact h2.symm
          subst hjs
          by_cases h1 : containsKey s sub = true
          · have h2b : containsKey (bumpRC s sub) j = false := by
              rw [containsKey_bumpRC]; exact hjabs
            simp [insertB, habs, h1, h2b]
          · have h1' : containsKey s sub = false := by
              cases hc : containsKey s sub
              · rfl
              · exact absurd hc h1
            simp [insertB, habs, h1']
      | end_ d =>
        rcases hj with hj | hj
        · have hjs : j = sub := by injection hj with h2; exact h2.symm
          subst hjs
          simp [insertB, habs, hjabs]
        · exact absurd hj (by simp)
    | end_ d =>
      cases r with
      | intermediate sub2 =>
        rcases hj with hj | hj
        · exact absurd hj (by simp)
        · have hjs : j = sub2 := by injection hj with h2; exact h2.symm
          subst hjs
          simp [insertB, habs, hjabs]
      | end_ d2 =>
        rcases hj with hj | hj <;> exact absurd hj (by simp)
  · -- idempotence after a successful call
    intro hok
    cases habs : containsKey s k with
    | true =>
      rw [insertB_present habs]
      exact insertB_present habs _
    | false =>
      cases l with
      | intermediate sub =>
        cases r with
        | intermediate sub2 =>
          by_cases h1 : containsKey s sub = true
          · by_cases h2b : containsKey (bumpRC s sub) sub2 = true
            · have hres : insertB s k (Value.intermediate sub, Value.intermediate sub2) =
                  ((k, ((Value.intermediate sub, Value.intermediate sub2), some 0)) ::
                    bumpRC (bumpRC s sub) sub2, none) := by
                simp [insertB, habs, h1, h2b]
              rw [hres]
              exact insertB_present (by simp [containsKey, lookup]) _
            · exfalso
              simp [insertB, habs, h1, h2b] at hok
          · exfalso
            simp [insertB, habs, h1] at hok
        | end_ d =>
          by_cases h1 : containsKey s sub = true
          · have hres : insertB s k (Value.intermediate sub, Value.end_ d) =
                ((k, ((Value.intermediate sub, Value.end_ d), some 0)) :: bumpRC s sub, none) := by
              simp [insertB, habs, h1]
            rw [hres]
            exact insertB_present (by simp [containsKey, lookup]) _
          · exfalso
            simp [insertB, habs, h1] at hok
      | end_ d =>
        cases r with
        | intermediate sub2 =>
          by_cases h2 : containsKey s sub2 = true
          · have hres : insertB s k (Value.end_ d, Value.intermediate sub2) =
                ((k, ((Value.end_ d, Value.intermediate sub2), some 0)) :: bumpRC s sub2, none) := by
              simp [insertB, habs, h2]
            rw [hres]
            exact insertB_present (by simp [containsKey, lookup]) _
          · exfalso
            simp [insertB, habs, h2] at hok
        | end_ d2 =>
          have hres : insertB s k (Value.end_ d, Value.end_ d2) =
              ((k, ((Value.end_ d, Value.end_ d2), some 0)) :: s, none) := by
            simp [insertB, habs]
          rw [hres]
          exact insertB_present (by simp [containsKey, lookup]) _

end C1

/-- C1 counterexample: when `insert` fails with `SetIntermediateNotExist`
(left child present, right child absent), the refcount of the left child is
incremented on every call, so calling `insert` twice with the same `(k, p)`
does not yield the same refcount state as calling it once. -/
theorem insert_idempotent_counterexample :
    (insertB (insertB [(10, ((Value.end_ 0, Value.end_ 0), some 1))] 5
        (Value.intermediate 10, Value.intermediate 11)).1 5
        (Value.intermediate 10, Value.intermediate 11)).1 ≠
      (insertB [(10, ((Value.end_ 0, Value.end_ 0), some 1))] 5
        (Value.intermediate 10, Value.intermediate 11)).1 := by
  decide

/-- C1 witness: the amended spec instantiated at a concrete store, key and
pair whose children are present; the insert succeeds and repeating it
leaves the state unchanged. -/
theorem insert_spec_amended_witness :
    containsKey ([(10, ((Value.end_ 0, Value.end_ 0), some 1))] : Store Nat Nat) 5 = false ∧
    (insertB ([(10, ((Value.end_ 0, Value.end_ 0), some 1))] : Store Nat Nat) 5
        (Value.intermediate 10, Value.end_ 7)).2 = none ∧
    lookup (insertB ([(10, ((Value.end_ 0, Value.end_ 0), some 1))] : Store Nat Nat) 5
        (Value.intermediate 10, Value.end_ 7)).1 5 =
      some ((Value.intermediate 10, Value.end_ 7), some 0) ∧
    insertB (insertB ([(10, ((Value.end_ 0, Value.end_ 0), some 1))] : Store Nat Nat) 5
        (Value.intermediate 10, Value.end_ 7)).1 5 (Value.intermediate 10, Value.end_ 7) =
      ((insertB ([(10, ((Value.end_ 0, Value.end_ 0), some 1))] : Store Nat Nat) 5
        (Value.intermediate 10, Value.end_ 7)).1, none) := by
  have h := insert_spec_amended ([(10, ((Value.end_ 0, Value.end_ 0), some 1))] : Store Nat Nat)
    5 (Value.intermediate 10, Value.end_ 7)
  have hch : ∀ j, ((Value.intermediate 10, Value.end_ 7) : Pair Nat Nat).1 = Value.intermediate j ∨
      ((Value.intermediate 10, Value.end_ 7) : Pair Nat Nat).2 = Value.intermediate j →
      containsKey ([(10, ((Value.end_ 0, Value.end_ 0), some 1))] : Store Nat Nat) j = true := by
    intro j hj
    rcases hj with hj | hj
    · injection hj with h2
      subst h2
      decide
    · exact absurd hj (by simp)
  refine ⟨by decide, ?_, ?_, ?_⟩
  · exact (h.2.1 (by decide) hch).1
  · exact (h.2.1 (by decide) hch).2.1
  · exact h.2.2.2 (h.2.1 (by decide) hch).1

/-! ### Claim C9: length decoding of length-mixed lists -/

/-- C9: when reconstructing a length-mixed list (`from_list_tree`), the
length leaf is the right child of the root read as a 32-byte little-endian
256-bit integer; a value above `usize::MAX` fails with `CorruptedDatabase`
and otherwise the decoded length is exactly that integer. -/
theorem list_tree_length_decode {I : Type} [DecidableEq I]
    (s : Store I (List Nat)) (root vroot : Value I (List Nat)) (bytes : List Nat)
    (hv : getRaw s root 2 = some vroot)
    (hl : getRaw s root 3 = some (Value.end_ bytes)) :
    (usizeMax < leBytesToNat bytes → fromListTreeHeader s root = .error .corruptedDatabase) ∧
    (leBytesToNat bytes ≤ usizeMax → fromListTreeHeader s root = .ok (vroot, leBytesToNat bytes)) := by
  unfold fromListTreeHeader
  rw [hv, hl]
  constructor
  · intro h
    simp [h]
  · intro h
    simp [Nat.not_lt.mpr h]

/-- C9 witness: a length leaf of `2^64` (one byte set at position 8) fails
with `CorruptedDatabase`, while a leaf holding `7` decodes to length 7. -/
theorem list_tree_length_decode_witness :
    fromListTreeHeader (I := Nat)
      [(1, ((Value.end_ [], Value.end_
        (0 :: 0 :: 0 :: 0 :: 0 :: 0 :: 0 :: 0 :: 1 :: List.replicate 23 0)), none))]
      (Value.intermediate 1) = .error .corruptedDatabase ∧
    fromListTreeHeader (I := Nat)
      [(1, ((Value.end_ [], Value.end_ (7 :: List.replicate 31 0)), none))]
      (Value.intermediate 1) = .ok (Value.end_ [], 7) := by
  constructor
  · exact (list_tree_length_decode
      [(1, ((Value.end_ [], Value.end_
        (0 :: 0 :: 0 :: 0 :: 0 :: 0 :: 0 :: 0 :: 1 :: List.replicate 23 0)), none))]
      (Value.intermediate 1) (Value.end_ [])
      (0 :: 0 :: 0 :: 0 :: 0 :: 0 :: 0 :: 0 :: 1 :: List.replicate 23 0)
      (by rfl) (by rfl)).1 (by decide)
  · exact (list_tree_length_decode
      [(1, ((Value.end_ [], Value.end_ (7 :: List.replicate 31 0)), none))]
      (Value.intermediate 1) (Value.end_ []) (7 :: List.replicate 31 0)
      (by rfl) (by rfl)).2 (by decide)

/-! ### Claim C6: `Vector::create` parameter validation -/

/-- C6: the source guard in `Vector::create` is `len < max_len || max_len == 0`,
which is reversed with respect to the documented `InvalidParameter` contract:
creating a vector with `len = 0 ≤ max_len = 2` (consistent arguments) fails
with `InvalidParameter`, while `len = 2 > max_len = 1` (inconsistent
arguments) succeeds. -/
theorem vector_create_reversed_check :
    vCreate hashC EmptyStatus.inherited 10 ([] : Store Nat Nat) 0 (some 2) =
      .error .invalidParameter ∧
    vCreate hashC EmptyStatus.inherited 10 ([] : Store Nat Nat) 1 (some 4) =
      .error .invalidParameter ∧
    (vCreate hashC EmptyStatus.inherited 10 ([] : Store Nat Nat) 2 (some 1)).isOk = true := by
  exact ⟨rfl, rfl, rfl⟩

/-! ### Claim C8: decoder validation of unused bits and bytes -/

/-- C8: `FromTree` for `uN` primitives decodes only the first `N/8` bytes of
the leaf and never inspects the padding (it succeeds on every leaf), so a
leaf with the non-zero padding byte `5` still decodes `u8` to `1`; and the
packed boolean vector decoder accepts a final byte with a set bit beyond
the semantic length (byte `3` with `len = 1` decodes to `[true]`),
matching the unimplemented `TODO` in the source. -/
theorem from_tree_padding_unchecked :
    fromTreeUint (I := Nat) 1 (Value.end_ (1 :: 5 :: List.replicate 30 0)) = .ok 1 ∧
    (∀ (nb : Nat) (bytes : List Nat),
      fromTreeUint (I := Nat) nb (Value.end_ bytes) = .ok (leBytesToNat (bytes.take nb))) ∧
    fromCompactVectorTreeBool (I := Nat) [] (Value.end_ (3 :: List.replicate 31 0)) 1 none =
      .ok [true] := by
  exact ⟨rfl, fun nb bytes => rfl, rfl⟩

/-! ### Claim C10: `serialize_vector` -/

/-- C10: `serialize_vector` resets `next` to an empty buffer after every
level of the loop, yet returns `next[0]` whenever `total_depth > 0`; the
final lookup therefore indexes an empty buffer and panics for every input
needing depth at least 1 (e.g. two values), instead of returning the root.
Only the depth-0 case (a single value) returns. -/
theorem serialize_vector_panics :
    serializeVectorB hashC EmptyStatus.inherited [Value.end_ 1, Value.end_ 2]
      ([] : Store Nat Nat) none = none ∧
    (∀ (values : List (Value Nat Nat)) (s : Store Nat Nat) (d : Nat),
      serializeVectorB hashC EmptyStatus.inherited values s (some (d + 1)) = none) ∧
    serializeVectorB hashC EmptyStatus.inherited [Value.end_ 5] ([] : Store Nat Nat) none =
      some ([], Value.end_ 5) := by
  refine ⟨rfl, ?_, rfl⟩
  intro values s d
  unfold serializeVectorB
  cases h : serializeFor hashC EmptyStatus.inherited (d + 1)
      ((List.range' 1 (d + 1)).reverse) s values with
  | none => simp [h]
  | some p => simp [h]

/-! ### Claim C7: compact proofs (`proving.rs`) -/

theorem lookupP_append {V : Type} [DecidableEq V] (a b : ProofsMap V) (k : V) :
    lookupP (a ++ b) k =
      match lookupP b k with
      | some v => some v
      | none => lookupP a k := by
  induction a with
  | nil =>
    simp only [List.nil_append]
    cases lookupP b k <;> simp [lookupP]
  | cons hd tl ih =>
    have hstep : lookupP ((hd :: tl) ++ b) k =
        match lookupP (tl ++ b) k with
        | some r => some r
        | none => if k = hd.1 then some hd.2 else none := rfl
    rw [hstep, ih]
    cases hbk : lookupP b k with
    | some v => rfl
    | none =>
      simp [lookupP]

theorem lookupP_mem {V : Type} [DecidableEq V] {P : ProofsMap V} {k : V} {pr : V × V}
    (h : lookupP P k = some pr) : (k, pr) ∈ P := by
  induction P with
  | nil => simp [lookupP] at h
  | cons hd tl ih =>
    simp only [lookupP] at h
    cases hrest : lookupP tl k with
    | some r =>
      rw [hrest] at h
      injection h with h2
      subst h2
      exact List.mem_cons_of_mem _ (ih hrest)
    | none =>
      rw [hrest] at h
      by_cases hk : k = hd.1
      · rw [if_pos hk] at h
        injection h with h2
        subst hk
        rw [← h2]
        exact List.mem_cons_self _ _
      · rw [if_neg hk] at h
        cases h

theorem fromCompact_root_eq {V : Type} [DecidableEq V] (H2 : V → V → V) {P : ProofsMap V}
    (hca : ∀ e ∈ P, e.1 = H2 e.2.1 e.2.2) :
    ∀ fuel root c, intoCompactF fuel P root = some c → (fromCompact H2 c).2 = root := by
  intro fuel
  induction fuel with
  | zero =>
    intro root c h
    simp [intoCompactF] at h
  | succ n ih =>
    intro root c h
    unfold intoCompactF at h
    cases hl : lookupP P root with
    | none =>
      rw [hl] at h
      simp only [Option.some.injEq] at h
      rw [← h]
      rfl
    | some pr =>
      obtain ⟨l, r⟩ := pr
      rw [hl] at h
      simp only [Option.bind_eq_some, Option.some.injEq] at h
      obtain ⟨cl, h1, cr, h2, h3⟩ := h
      rw [← h3]
      have hroot : root = H2 l r := hca _ (lookupP_mem hl)
      simp [fromCompact, ih _ _ h1, ih _ _ h2, hroot]

theorem fromCompact_lookup_iff {V : Type} [DecidableEq V] (H2 : V → V → V) {P : ProofsMap V}
    (hca : ∀ e ∈ P, e.1 = H2 e.2.1 e.2.2) :
    ∀ fuel root c, intoCompactF fuel P root = some c →
      ∀ k pr, lookupP (fromCompact H2 c).1 k = some pr ↔
        (ReachP P root k ∧ lookupP P k = some pr) := by
  intro fuel
  induction fuel with
  | zero =>
    intro root c h
    simp [intoCompactF] at h
  | succ n ih =>
    intro root c h k pr
    unfold intoCompactF at h
    cases hl : lookupP P root with
    | none =>
      rw [hl] at h
      simp only [Option.some.injEq] at h
      subst h
      simp only [fromCompact, lookupP]
      constructor
      · intro hc
        cases hc
      · rintro ⟨hre, _⟩
        cases hre with
        | here h' => rw [hl] at h'; cases h'
        | left h' _ => rw [hl] at h'; cases h'
        | right h' _ => rw [hl] at h'; cases h'
    | some lr =>
      obtain ⟨l, r⟩ := lr
      rw [hl] at h
      simp only [Option.bind_eq_some, Option.some.injEq] at h
      obtain ⟨cl, h1, cr, h2, h3⟩ := h
      subst h3
      have hroot : root = H2 l r := hca _ (lookupP_mem hl)
      have hql : (fromCompact H2 cl).2 = l := fromCompact_root_eq H2 hca n l cl h1
      have hqr : (fromCompact H2 cr).2 = r := fromCompact_root_eq H2 hca n r cr h2
      have hfc : fromCompact H2 (CompactValue.combined cl cr) =
          ((fromCompact H2 cl).1 ++ (fromCompact H2 cr).1 ++
            [(H2 (fromCompact H2 cl).2 (fromCompact H2 cr).2,
              ((fromCompact H2 cl).2, (fromCompact H2 cr).2))],
            H2 (fromCompact H2 cl).2 (fromCompact H2 cr).2) := rfl
      rw [hfc]
      simp only [hql, hqr, ← hroot]
      rw [lookupP_append]
      have hsingle : ∀ kk, lookupP [(root, (l, r))] kk =
          if kk = root then some (l, r) else none := by
        intro kk
        simp [lookupP]
      rw [hsingle]
      by_cases hk : k = root
      · subst hk
        simp only [if_pos rfl]
        constructor
        · intro hc
          injection hc with hc2
          subst hc2
          exact ⟨ReachP.here hl, hl⟩
        · rintro ⟨_, hpk⟩
          rw [hl] at hpk
          injection hpk with hpk2
          simp [hpk2]
      · rw [if_neg hk]
        rw [lookupP_append]
        cases hqrl : lookupP (fromCompact H2 cr).1 k with
        | some pr' =>
          have hfacts := (ih r cr h2 k pr').mp hqrl
          constructor
          · intro hc
            injection hc with hc2
            subst hc2
            exact ⟨ReachP.right hl hfacts.1, hfacts.2⟩
          · rintro ⟨_, hpk⟩
            rw [hfacts.2] at hpk
            injection hpk with hpk2
            rw [hpk2]
        | none =>
          constructor
          · intro hc
            have hfacts := (ih l cl h1 k pr).mp hc
            exact ⟨ReachP.left hl hfacts.1, hfacts.2⟩
          · rintro ⟨hre, hpk⟩
            cases hre with
            | here h' =>
              exact absurd rfl hk
            | left h' hrest =>
              rw [hl] at h'
              injection h' with h'2
              injection h'2 with ha hb
              subst ha
              exact (ih l cl h1 k pr).mpr ⟨hrest, hpk⟩
            | right h' hrest =>
              rw [hl] at h'
              injection h' with h'2
              injection h'2 with ha hb
              subst hb
              have := (ih r cr h2 k pr).mpr ⟨hrest, hpk⟩
              rw [hqrl] at this
              cases this

/-- C7: `into_compact` emits `Combined` of the children's compacts when the
root is a key of the proofs and `Single(root)` otherwise; and for a
content-addressed proof map, `from_compact` of the compact recomputes the
same root together with a proof map holding exactly the entries of the
original map reachable from the root (with identical values), so replaying
any captured read of those entries against a backend populated with the
folded map succeeds with the identical value. -/
theorem compact_proofs_roundtrip {V : Type} [DecidableEq V] (H2 : V → V → V)
    (P : ProofsMap V) (hca : ∀ e ∈ P, e.1 = H2 e.2.1 e.2.2) :
    (∀ root l r fuel, lookupP P root = some (l, r) →
      intoCompactF (fuel + 1) P root =
        (intoCompactF fuel P l).bind fun cl =>
          (intoCompactF fuel P r).bind fun cr =>
            some (CompactValue.combined cl cr)) ∧
    (∀ root fuel, lookupP P root = none →
      intoCompactF (fuel + 1) P root = some (CompactValue.single root)) ∧
    (∀ fuel root c, intoCompactF fuel P root = some c →
      (fromCompact H2 c).2 = root ∧
      ∀ k pr, lookupP (fromCompact H2 c).1 k = some pr ↔
        (ReachP P root k ∧ lookupP P k = some pr)) := by
  refine ⟨?_, ?_, ?_⟩
  · intro root l r fuel hl
    have hstep : intoCompactF (fuel + 1) P root =
        match lookupP P root with
        | some (l, r) =>
          (intoCompactF fuel P l).bind fun cl =>
            (intoCompactF fuel P r).bind fun cr => some (CompactValue.combined cl cr)
        | none => some (CompactValue.single root) := rfl
    rw [hstep, hl]
  · intro root fuel hl
    have hstep : intoCompactF (fuel + 1) P root =
        match lookupP P root with
        | some (l, r) =>
          (intoCompactF fuel P l).bind fun cl =>
            (intoCompactF fuel P r).bind fun cr => some (CompactValue.combined cl cr)
        | none => some (CompactValue.single root) := rfl
    rw [hstep, hl]
  · intro fuel root c h
    exact ⟨fromCompact_root_eq H2 hca fuel root c h,
      fromCompact_lookup_iff H2 hca fuel root c h⟩

/-- C7 witness: a one-entry content-addressed proof map; `into_compact`
expands the root into `Combined(Single 1, Single 2)`, and `from_compact`
recomputes the root and the entry. -/
theorem compact_proofs_roundtrip_witness :
    intoCompactF 3 [(Nat.pair 1 2, (1, 2))] (Nat.pair 1 2) =
      some (CompactValue.combined (.single 1) (.single 2)) ∧
    (fromCompact Nat.pair (CompactValue.combined (.single 1) (.single 2))).2 = Nat.pair 1 2 ∧
    lookupP (fromCompact Nat.pair
      (CompactValue.combined (.single 1) (.single 2))).1 (Nat.pair 1 2) = some (1, 2) := by
  have h := compact_proofs_roundtrip Nat.pair [(Nat.pair 1 2, (1, 2))] (by decide)
  refine ⟨by rfl, ?_, ?_⟩
  · exact (h.2.2 3 (Nat.pair 1 2) (CompactValue.combined (.single 1) (.single 2)) (by rfl)).1
  · exact ((h.2.2 3 (Nat.pair 1 2) (CompactValue.combined (.single 1) (.single 2))
      (by rfl)).2 (Nat.pair 1 2) (1, 2)).mpr ⟨ReachP.here (by rfl), by rfl⟩

/-! ### Association-list and refcount-accounting lemmas -/

section StoreLemmas

variable {I E : Type} [DecidableEq I] [DecidableEq E]

theorem lookup_mem {s : Store I E} {k : I} {e : Entry I E} (h : lookup s k = some e) :
    (k, e) ∈ s := by
  induction s with
  | nil => simp [lookup] at h
  | cons hd tl ih =>
    by_cases hk : k = hd.1
    · simp only [lookup, if_pos hk] at h
      injection h with h2
      subst hk
      rw [← h2]
      exact List.mem_cons_self _ _
    · simp only [lookup, if_neg hk] at h
      exact List.mem_cons_of_mem _ (ih h)

theorem mem_keys_of_lookup {s : Store I E} {k : I} {e : Entry I E}
    (h : lookup s k = some e) : k ∈ s.map Prod.fst := by
  have := lookup_mem h
  exact List.mem_map_of_mem Prod.fst this

theorem lookup_of_mem_keys {s : Store I E} {k : I} (h : k ∈ s.map Prod.fst) :
    ∃ e, lookup s k = some e := by
  induction s with
  | nil => simp at h
  | cons hd tl ih =>
    by_cases hk : k = hd.1
    · exact ⟨hd.2, by simp [lookup, hk]⟩
    · simp only [List.map_cons, List.mem_cons] at h
      rcases h with h | h
      · exact absurd h hk
      · obtain ⟨e, he⟩ := ih h
        exact ⟨e, by simp [lookup, hk, he]⟩

theorem containsKey_iff_mem_keys {s : Store I E} {k : I} :
    containsKey s k = true ↔ k ∈ s.map Prod.fst := by
  constructor
  · intro h
    unfold containsKey at h
    cases hl : lookup s k with
    | none => rw [hl] at h; cases h
    | some e => exact mem_keys_of_lookup hl
  · intro h
    obtain ⟨e, he⟩ := lookup_of_mem_keys h
    unfold containsKey
    rw [he]
    rfl

theorem mem_lookup_nodup {s : Store I E} (hnd : KeysNodup s) {k : I} {e : Entry I E}
    (h : (k, e) ∈ s) : lookup s k = some e := by
  induction s with
  | nil => simp at h
  | cons hd tl ih =>
    unfold KeysNodup at hnd
    simp only [List.map_cons, List.nodup_cons] at hnd
    rcases List.mem_cons.mp h with h | h
    · rw [← h]
      simp [lookup]
    · have hk : k ≠ hd.1 := by
        intro hc
        apply hnd.1
        rw [← hc]
        exact List.mem_map_of_mem Prod.fst h
      simp only [lookup, if_neg hk]
      exact ih hnd.2 h

theorem keys_update (s : Store I E) (k : I) (e : Entry I E) :
    (update s k e).map Prod.fst = s.map Prod.fst := by
  induction s with
  | nil => rfl
  | cons hd tl ih =>
    by_cases hk : k = hd.1
    · simp [update, hk]
    · simp [update, hk, ih]

theorem nodup_update {s : Store I E} (hnd : KeysNodup s) (k : I) (e : Entry I E) :
    KeysNodup (update s k e) := by
  unfold KeysNodup
  rw [keys_update]
  exact hnd

theorem containsKey_update (s : Store I E) (k j : I) (e : Entry I E) :
    containsKey (update s k e) j = containsKey s j := by
  unfold containsKey
  by_cases hj : j = k
  · subst hj
    cases hl : lookup s j with
    | none => rw [lookup_update_absent hl]; rw [hl]
    | some e0 => rw [lookup_update_self hl]; rfl
  · rw [lookup_update_ne hj]

theorem mem_update_nodup {s : Store I E} (hnd : KeysNodup s) {k : I} {e : Entry I E}
    {x : I × Entry I E} (h : x ∈ update s k e) :
    x = (k, e) ∨ (x ∈ s ∧ x.1 ≠ k) := by
  induction s with
  | nil => simp [update] at h
  | cons hd tl ih =>
    unfold KeysNodup at hnd
    simp only [List.map_cons, List.nodup_cons] at hnd
    by_cases hk : k = hd.1
    · simp only [update, if_pos hk] at h
      rcases List.mem_cons.mp h with h | h
      · exact Or.inl h
      · right
        refine ⟨List.mem_cons_of_mem _ h, ?_⟩
        intro hc
        apply hnd.1
        have hmem : x.1 ∈ List.map Prod.fst tl := List.mem_map_of_mem Prod.fst h
        rw [hc, hk] at hmem
        exact hmem
    · simp only [update, if_neg hk] at h
      rcases List.mem_cons.mp h with h | h
      · right
        refine ⟨by rw [h]; exact List.mem_cons_self _ _, ?_⟩
        rw [h]
        intro hc
        exact hk hc.symm
      · rcases ih hnd.2 h with h2 | h2
        · exact Or.inl h2
        · exact Or.inr ⟨List.mem_cons_of_mem _ h2.1, h2.2⟩

theorem keys_erase_sublist (s : Store I E) (k : I) :
    ((erase s k).map Prod.fst).Sublist (s.map Prod.fst) := by
  induction s with
  | nil => simp [erase]
  | cons hd tl ih =>
    by_cases hk : k = hd.1
    · simp only [erase, if_pos hk, List.map_cons]
      exact List.sublist_cons_of_sublist _ (List.Sublist.refl _)
    · simp only [erase, if_neg hk, List.map_cons]
      exact List.Sublist.cons₂ _ ih

theorem nodup_erase {s : Store I E} (hnd : KeysNodup s) (k : I) :
    KeysNodup (erase s k) :=
  List.Nodup.sublist (keys_erase_sublist s k) hnd

theorem mem_erase_nodup {s : Store I E} (hnd : KeysNodup s) {k : I}
    {x : I × Entry I E} (h : x ∈ erase s k) : x ∈ s ∧ x.1 ≠ k := by
  constructor
  · revert h
    induction s with
    | nil => intro h; simp [erase] at h
    | cons hd tl ih =>
      intro h
      unfold KeysNodup at hnd
      simp only [List.map_cons, List.nodup_cons] at hnd
      by_cases hk : k = hd.1
      · simp only [erase, if_pos hk] at h
        exact List.mem_cons_of_mem _ h
      · simp only [erase, if_neg hk] at h
        rcases List.mem_cons.mp h with h | h
        · rw [h]; exact List.mem_cons_self _ _
        · exact List.mem_cons_of_mem _ (ih hnd.2 h)
  · intro hc
    have hx : lookup s x.1 = some x.2 := by
      apply mem_lookup_nodup hnd
      have := h
      revert this
      clear h
      induction s with
      | nil => intro h; simp [erase] at h
      | cons hd tl ih =>
        intro h
        unfold KeysNodup at hnd
        simp only [List.map_cons, List.nodup_cons] at hnd
        by_cases hk : k = hd.1
        · simp only [erase, if_pos hk] at h
          exact List.mem_cons_of_mem _ h
        · simp only [erase, if_neg hk] at h
          rcases List.mem_cons.mp h with h | h
          · rw [h]; exact List.mem_cons_self _ _
          · exact List.mem_cons_of_mem _ (ih hnd.2 h)
    have hnone : lookup (erase s k) k = none := lookup_erase_self hnd
    have : lookup (erase s k) x.1 = some x.2 := by
      apply mem_lookup_nodup (nodup_erase hnd k)
      exact h
    rw [hc] at this
    rw [hnone] at this
    cases this

end StoreLemmas

section RefcountLemmas

variable {I E : Type} [DecidableEq I] [DecidableEq E]

theorem pcNZ_nil (Z : List I) (j : I) : pcNZ ([] : Store I E) Z j = 0 := rfl

theorem pcNZ_cons (hd : I × Entry I E) (tl : Store I E) (Z : List I) (j : I) :
    pcNZ (hd :: tl) Z j = refWeight Z hd j + pcNZ tl Z j := by
  simp [pcNZ]

theorem refWeight_eq_of_ne {hd : I × Entry I E} {k : I} (Z : List I) (j : I)
    (h : hd.1 ≠ k) : refWeight (k :: Z) hd j = refWeight Z hd j := by
  unfold refWeight
  by_cases hz : hd.1 ∈ Z
  · simp [hz]
  · simp [hz, h]

theorem pcNZ_zombie_cons_of_absent {s : Store I E} {k : I}
    (h : k ∉ s.map Prod.fst) (Z : List I) (j : I) :
    pcNZ s (k :: Z) j = pcNZ s Z j := by
  induction s with
  | nil => rfl
  | cons hd tl ih =>
    simp only [List.map_cons, List.mem_cons] at h
    push_neg at h
    rw [pcNZ_cons, pcNZ_cons, ih h.2, refWeight_eq_of_ne Z j (fun hc => h.1 hc.symm)]

theorem pcNZ_update_isSome {s : Store I E} {k : I} {pair : Pair I E} {rc0 rc' : Option Nat}
    (h : lookup s k = some (pair, rc0)) (hsome : rc'.isSome = rc0.isSome)
    (Z : List I) (j : I) :
    pcNZ (update s k (pair, rc')) Z j = pcNZ s Z j := by
  induction s with
  | nil => rfl
  | cons hd tl ih =>
    by_cases hk : k = hd.1
    · simp only [lookup, if_pos hk] at h
      injection h with h2
      simp only [update, if_pos hk]
      rw [pcNZ_cons, pcNZ_cons]
      congr 1
      unfold refWeight
      subst hk
      rw [h2]
      by_cases hz : hd.1 ∈ Z
      · simp [hz]
      · cases rc' <;> cases rc0 <;> simp_all [hz]
    · simp only [lookup, if_neg hk] at h
      simp only [update, if_neg hk]
      rw [pcNZ_cons, pcNZ_cons, ih h]

theorem pcNZ_zombie_cons {s : Store I E} (hnd : KeysNodup s) {k : I} {pair : Pair I E}
    {n : Nat} (h : lookup s k = some (pair, some n)) (hz : k ∉ Z) (j : I) :
    pcNZ s Z j = occInt j pair + pcNZ s (k :: Z) j := by
  induction s with
  | nil => simp [lookup] at h
  | cons hd tl ih =>
    unfold KeysNodup at hnd
    simp only [List.map_cons, List.nodup_cons] at hnd
    by_cases hk : k = hd.1
    · simp only [lookup, if_pos hk] at h
      injection h with h2
      rw [pcNZ_cons, pcNZ_cons]
      have hnotm : k ∉ tl.map Prod.fst := by rw [hk]; exact hnd.1
      rw [pcNZ_zombie_cons_of_absent hnotm]
      have hw1 : refWeight Z hd j = occInt j pair := by
        unfold refWeight
        rw [← hk, h2]
        simp [hz]
      have hw2 : refWeight (k :: Z) hd j = 0 := by
        unfold refWeight
        rw [← hk]
        simp
      rw [hw1, hw2]
      omega
    · simp only [lookup, if_neg hk] at h
      rw [pcNZ_cons, pcNZ_cons, ih hnd.2 h,
        refWeight_eq_of_ne Z j (fun hc => hk hc.symm)]
      omega

theorem pcNZ_erase_zombie {s : Store I E} (hnd : KeysNodup s) (k : I) (Z : List I) (j : I) :
    pcNZ (erase s k) Z j = pcNZ s (k :: Z) j := by
  induction s with
  | nil => rfl
  | cons hd tl ih =>
    unfold KeysNodup at hnd
    simp only [List.map_cons, List.nodup_cons] at hnd
    by_cases hk : k = hd.1
    · simp only [erase, if_pos hk]
      rw [pcNZ_cons]
      have hw2 : refWeight (k :: Z) hd j = 0 := by
        unfold refWeight
        rw [← hk]
        simp
      have hnotm : k ∉ tl.map Prod.fst := by rw [hk]; exact hnd.1
      rw [hw2, pcNZ_zombie_cons_of_absent hnotm]
      omega
    · simp only [erase, if_neg hk]
      rw [pcNZ_cons, pcNZ_cons, ih hnd.2,
        refWeight_eq_of_ne Z j (fun hc => hk hc.symm)]

theorem pcNZ_cons_zombie_le (s : Store I E) (k : I) (Z : List I) (j : I) :
    pcNZ s (k :: Z) j ≤ pcNZ s Z j := by
  induction s with
  | nil => simp [pcNZ]
  | cons hd tl ih =>
    rw [pcNZ_cons, pcNZ_cons]
    have hw : refWeight (k :: Z) hd j ≤ refWeight Z hd j := by
      unfold refWeight
      by_cases hz : hd.1 ∈ Z
      · simp [hz]
      · by_cases hk : hd.1 = k
        · simp [hk, hz]
        · simp [hz, hk]
    omega

theorem pcNZ_ge_entry {s : Store I E} {k : I} {pair : Pair I E} {rc : Option Nat}
    (h : (k, (pair, rc)) ∈ s) (hsome : rc.isSome = true) {Z : List I} (hz : k ∉ Z) (j : I) :
    occInt j pair ≤ pcNZ s Z j := by
  induction s with
  | nil => simp at h
  | cons hd tl ih =>
    rw [pcNZ_cons]
    rcases List.mem_cons.mp h with h | h
    · have hw : refWeight Z hd j = occInt j pair := by
        unfold refWeight
        rw [← h]
        obtain ⟨m, hm⟩ := Option.isSome_iff_exists.mp hsome
        subst hm
        simp [hz]
      omega
    · have := ih h
      omega

theorem pcNZ_bumpRC (s : Store I E) (k : I) (Z : List I) (j : I) :
    pcNZ (bumpRC s k) Z j = pcNZ s Z j := by
  unfold bumpRC
  cases h : lookup s k with
  | none => rfl
  | some e =>
    obtain ⟨pair, rc⟩ := e
    apply pcNZ_update_isSome h
    cases rc <;> rfl

theorem muStore_nil : muStore ([] : Store I E) = 0 := rfl

theorem muStore_cons (hd : I × Entry I E) (tl : Store I E) :
    muStore (hd :: tl) = hd.2.2.getD 0 + muStore tl := by
  simp [muStore]

theorem muStore_update {s : Store I E} {k : I} {e0 : Entry I E}
    (h : lookup s k = some e0) (e' : Entry I E) :
    muStore (update s k e') + e0.2.getD 0 = muStore s + e'.2.getD 0 := by
  induction s with
  | nil => simp [lookup] at h
  | cons hd tl ih =>
    by_cases hk : k = hd.1
    · simp only [lookup, if_pos hk] at h
      injection h with h2
      simp only [update, if_pos hk]
      have hmk : muStore ((k, e') :: tl) = e'.2.getD 0 + muStore tl := by
        simp [muStore]
      rw [hmk, muStore_cons, ← h2]
      omega
    · simp only [lookup, if_neg hk] at h
      simp only [update, if_neg hk, Prod.mk.eta]
      rw [muStore_cons, muStore_cons]
      have := ih h
      omega

theorem muStore_erase_le (s : Store I E) (k : I) : muStore (erase s k) ≤ muStore s := by
  induction s with
  | nil => simp [erase]
  | cons hd tl ih =>
    by_cases hk : k = hd.1
    · simp only [erase, if_pos hk]
      rw [muStore_cons]
      omega
    · simp only [erase, if_neg hk, Prod.mk.eta]
      rw [muStore_cons, muStore_cons]
      omega

theorem muStore_ge_entry {s : Store I E} {k : I} {pair : Pair I E} {n : Nat}
    (h : (k, (pair, some n)) ∈ s) : n ≤ muStore s := by
  induction s with
  | nil => simp at h
  | cons hd tl ih =>
    rw [muStore_cons]
    rcases List.mem_cons.mp h with h | h
    · rw [← h]
      simp
    · have := ih h
      omega

theorem count_intChildren (pair : Pair I E) (j : I) :
    (intChildren pair).count j = occInt j pair := by
  obtain ⟨l, r⟩ := pair
  unfold intChildren occInt
  rw [List.count_append]
  have h1 : ∀ v : Value I E, (intChildren1 v).count j =
      (if v = Value.intermediate j then 1 else 0) := by
    intro v
    cases v with
    | intermediate a =>
      by_cases ha : a = j
      · subst ha
        simp [intChildren1]
      · rw [if_neg (fun h => ha (Value.intermediate.inj h))]
        rw [List.count_eq_zero.mpr
          (by simp only [intChildren1, List.mem_singleton]; exact fun h => ha h.symm)]
    | end_ d => simp [intChildren1]
  rw [h1, h1]

theorem removeB_mono {fuel : Nat} {s : Store I E} {k : I} {a : Store I E}
    (h : removeB fuel s k = some a) : removeB (fuel + 1) s k = some a := by
  induction fuel generalizing s k a with
  | zero => simp [removeB] at h
  | succ m ih =>
    unfold removeB at h ⊢
    cases hl : lookup s k with
    | none => rw [hl] at h; exact absurd h (by simp)
    | some e =>
      obtain ⟨pair, rc⟩ := e
      rw [hl] at h
      simp only at h ⊢
      by_cases hrc : rc.map (· - 1) = some 0
      · rw [if_pos hrc] at h
        rw [if_pos hrc]
        obtain ⟨pl, pr⟩ := pair
        cases pl with
        | intermediate sub =>
          simp only at h ⊢
          cases h2 : removeB m (update s k ((Value.intermediate sub, pr), rc.map (· - 1))) sub with
          | none => rw [h2] at h; simp at h
          | some s2 =>
            rw [h2] at h
            rw [ih h2]
            cases pr with
            | intermediate sub2 =>
              simp only at h ⊢
              cases h3 : removeB m s2 sub2 with
              | none => rw [h3] at h; simp at h
              | some s3 =>
                rw [h3] at h
                rw [ih h3]
                exact h
            | end_ d => exact h
        | end_ d =>
          simp only at h ⊢
          cases pr with
          | intermediate sub2 =>
            simp only at h ⊢
            cases h3 : removeB m (update s k ((Value.end_ d, Value.intermediate sub2), rc.map (· - 1))) sub2 with
            | none => rw [h3] at h; simp at h
            | some s3 =>
              rw [h3] at h
              rw [ih h3]
              exact h
          | end_ d2 => exact h
      · rw [if_neg hrc] at h
        rw [if_neg hrc]
        exact h

theorem containsKey_erase_ne {s : Store I E} {k j : I} (hne : j ≠ k) :
    containsKey (erase s k) j = containsKey s j := by
  unfold containsKey
  rw [lookup_erase_ne hne]

theorem occInt_eq_zero {j : I} {pair : Pair I E} (h : occInt j pair = 0) :
    pair.1 ≠ Value.intermediate j ∧ pair.2 ≠ Value.intermediate j := by
  unfold occInt at h
  constructor <;> intro hc <;> rw [hc] at h <;> simp at h

theorem pcNZ_zero_occ {s : Store I E} {Z : List I} {j : I} (h : pcNZ s Z j = 0) :
    ∀ e ∈ s, e.1 ∉ Z → ∀ n, e.2.2 = some n → occInt j e.2.1 = 0 := by
  induction s with
  | nil => intro e he; simp at he
  | cons hd tl ih =>
    rw [pcNZ_cons] at h
    intro e he heZ n hn
    rcases List.mem_cons.mp he with he | he
    · subst he
      have hw : refWeight Z e j = 0 := by omega
      unfold refWeight at hw
      rw [if_neg heZ, hn] at hw
      exact hw
    · exact ih (by omega) e he heZ n hn

theorem zombieEntry_lookup {s : Store I E} {z : I} (h : zombieEntryB s z = true) :
    ∃ pr, lookup s z = some (pr, some 0) := by
  unfold zombieEntryB at h
  cases hl : lookup s z with
  | none => rw [hl] at h; simp at h
  | some e =>
    obtain ⟨pr, rc⟩ := e
    rw [hl] at h
    cases rc with
    | none => simp at h
    | some n =>
      cases n with
      | zero => exact ⟨pr, rfl⟩
      | succ m => simp at h

theorem removeB_succ_some {s : Store I E} {k : I} {pair : Pair I E}
    {rc : Option Nat} (h : lookup s k = some (pair, rc)) (fuel : Nat) :
    removeB (fuel + 1) s k =
      (if rc.map (· - 1) = some 0 then
        match childStep fuel (update s k (pair, rc.map (· - 1))) pair.1 with
        | none => none
        | some s2 =>
          match childStep fuel s2 pair.2 with
          | none => none
          | some s3 => some (erase s3 k)
      else some (update s k (pair, rc.map (· - 1)))) := by
  obtain ⟨pl, pr2⟩ := pair
  unfold removeB
  rw [h]
  cases pl <;> cases pr2 <;> rfl

theorem removeB_succ_bind {s : Store I E} {k : I} {pair : Pair I E}
    {rc : Option Nat} (h : lookup s k = some (pair, rc)) (fuel : Nat) :
    removeB (fuel + 1) s k =
      (if rc.map (· - 1) = some 0 then
        (childStep fuel (update s k (pair, rc.map (· - 1))) pair.1).bind fun s2 =>
          (childStep fuel s2 pair.2).bind fun s3 => some (erase s3 k)
      else some (update s k (pair, rc.map (· - 1)))) := by
  rw [removeB_succ_some h fuel]
  by_cases hc : rc.map (· - 1) = some 0
  · rw [if_pos hc, if_pos hc]
    cases childStep fuel (update s k (pair, rc.map (· - 1))) pair.1 with
    | none => rfl
    | some s2 =>
      simp only [Option.some_bind]
      cases childStep fuel s2 pair.2 with
      | none => rfl
      | some s3 => rfl
  · rw [if_neg hc, if_neg hc]

theorem removeB_mono_le {fuel fuel' : Nat} (hle : fuel ≤ fuel') {s : Store I E} {k : I}
    {a : Store I E} (h : removeB fuel s k = some a) : removeB fuel' s k = some a := by
  induction fuel' with
  | zero =>
    have : fuel = 0 := Nat.le_zero.mp hle
    rw [this] at h
    simp [removeB] at h
  | succ m ih =>
    by_cases hf : fuel = m + 1
    · rw [← hf]; exact h
    · have : fuel ≤ m := by omega
      exact removeB_mono (ih this)

theorem removeB_spec : ∀ (fuel : Nat) (s : Store I E) (R Z : List I) (k : I),
    INVZ R Z s → k ∈ R → muStore s < fuel →
    ∃ s', removeB fuel s k = some s' ∧
      INVZ (R.erase k) Z s' ∧
      muStore s' ≤ muStore s ∧
      (∀ j prr rc0, lookup s' j = some (prr, rc0) → ∃ rc1, lookup s j = some (prr, rc1)) ∧
      (∀ j prr, lookup s j = some (prr, none) → lookup s' j = some (prr, none)) ∧
      (∀ z ∈ Z, lookup s' z = lookup s z) := by
  intro fuel
  induction fuel with
  | zero => intro s R Z k _ _ hmu; omega
  | succ m ih =>
    intro s R Z k hinv hkR hmu
    obtain ⟨hnd, hroots, hclosed, hnone, hvalid, hzomb⟩ := hinv
    have hkZ : k ∉ Z := fun hz => (hzomb k hz).2.1 hkR
    have hck : containsKey s k = true := hroots k hkR
    obtain ⟨e, he⟩ := lookup_of_mem_keys (containsKey_iff_mem_keys.mp hck)
    obtain ⟨pair, rc⟩ := e
    have hmemk : (k, (pair, rc)) ∈ s := lookup_mem he
    have hcountk : 1 ≤ R.count k := List.count_pos_iff.mpr hkR
    cases rc with
    | none =>
      have hrun : removeB (m + 1) s k = some s := by
        rw [removeB_succ_some he m, if_neg (by simp)]
        simp [update_self_eq he]
      refine ⟨s, hrun, ⟨hnd, ?_, hclosed, hnone, ?_, ?_⟩, le_refl _,
        fun j prr rc0 h => ⟨rc0, h⟩, fun j prr h => h, fun z _ => rfl⟩
      · intro r hr
        exact hroots r (List.mem_of_mem_erase hr)
      · intro e hes heZ nn hnn
        have hek : e.1 ≠ k := by
          intro hc
          have hle : lookup s e.1 = some e.2 := mem_lookup_nodup hnd hes
          rw [hc, he] at hle
          injection hle with h2
          rw [← h2] at hnn
          simp at hnn
        rw [List.count_erase_of_ne hek]
        exact hvalid e hes heZ nn hnn
      · intro z hz
        obtain ⟨hz1, hz2, hz3⟩ := hzomb z hz
        exact ⟨hz1, fun hc => hz2 (List.mem_of_mem_erase hc), hz3⟩
    | some n =>
      have hvn : n = R.count k + pcNZ s Z k := hvalid (k, (pair, some n)) hmemk hkZ n rfl
      by_cases h1 : n = 1
      · -- the entry reaches refcount zero: cascade into the children, then erase
        subst h1
        have hcR : R.count k = 1 := by omega
        have hcP : pcNZ s Z k = 0 := by omega
        have hl1 : lookup (update s k (pair, some 0)) k = some (pair, some 0) :=
          lookup_update_self he _
        have hnd1 : KeysNodup (update s k (pair, some 0)) := nodup_update hnd _ _
        have hmu1 : muStore (update s k (pair, some 0)) + 1 = muStore s := by
          have hx := muStore_update he (pair, some 0)
          simp at hx
          omega
        have hpc1 : ∀ j, pcNZ (update s k (pair, some 0)) Z j = pcNZ s Z j :=
          fun j => pcNZ_update_isSome he
            (show (some (0 : Nat)).isSome = (some (1 : Nat)).isSome from rfl) Z j
        have hsplit : ∀ j, pcNZ (update s k (pair, some 0)) Z j
            = occInt j pair + pcNZ (update s k (pair, some 0)) (k :: Z) j :=
          fun j => pcNZ_zombie_cons hnd1 hl1 hkZ j
        have hclk := hclosed (k, (pair, some 1)) hmemk hkZ
        have hchildpres : ∀ r ∈ intChildren pair, containsKey s r = true := by
          intro r hr
          rcases List.mem_append.mp hr with hr | hr
          · cases hp : pair.1 with
            | intermediate j =>
              rw [hp] at hr
              simp [intChildren1] at hr
              subst hr
              have hx := hclk.1
              rw [hp] at hx
              exact hx
            | end_ d => rw [hp] at hr; simp [intChildren1] at hr
          · cases hp : pair.2 with
            | intermediate j =>
              rw [hp] at hr
              simp [intChildren1] at hr
              subst hr
              have hx := hclk.2
              rw [hp] at hx
              exact hx
            | end_ d => rw [hp] at hr; simp [intChildren1] at hr
        have hocc0 : occInt k pair = 0 := by
          have hx := pcNZ_ge_entry hmemk rfl hkZ k
          omega
        have hkR1 : k ∉ intChildren pair := by
          intro hc
          have hx : 1 ≤ (intChildren pair).count k := List.count_pos_iff.mpr hc
          rw [count_intChildren] at hx
          omega
        have hcp1 : ∀ v : Value I E, childPresentB s v = true →
            childPresentB (update s k (pair, some 0)) v = true := by
          intro v hv
          cases v with
          | intermediate j =>
            simp only [childPresentB] at hv ⊢
            rw [containsKey_update]
            exact hv
          | end_ d => rfl
        have hcn1 : ∀ v : Value I E, childNoneB s v = true →
            childNoneB (update s k (pair, some 0)) v = true := by
          intro v hv
          cases v with
          | end_ d => rfl
          | intermediate j =>
            simp only [childNoneB] at hv ⊢
            by_cases hj : j = k
            · subst hj; rw [he] at hv; simp at hv
            · rw [lookup_update_ne hj]
              exact hv
        have hinv1 : INVZ (intChildren pair ++ R.erase k) (k :: Z)
            (update s k (pair, some 0)) := by
          refine ⟨hnd1, ?_, ?_, ?_, ?_, ?_⟩
          · intro r hr
            rw [containsKey_update]
            rcases List.mem_append.mp hr with hr | hr
            · exact hchildpres r hr
            · exact hroots r (List.mem_of_mem_erase hr)
          · intro e hes heZ
            have hek : e.1 ≠ k := fun hc => heZ (by rw [hc]; exact List.mem_cons_self k Z)
            have heZ0 : e.1 ∉ Z := fun hc => heZ (List.mem_cons_of_mem _ hc)
            rcases mem_update_nodup hnd hes with heq | ⟨hes', _⟩
            · exact absurd (by rw [heq]) hek
            · have hx := hclosed e hes' heZ0
              exact ⟨hcp1 _ hx.1, hcp1 _ hx.2⟩
          · intro e hes hn0
            rcases mem_update_nodup hnd hes with heq | ⟨hes', _⟩
            · rw [heq] at hn0; simp at hn0
            · have hx := hnone e hes' hn0
              exact ⟨hcn1 _ hx.1, hcn1 _ hx.2⟩
          · intro e hes heZ nn hnn
            have hek : e.1 ≠ k := fun hc => heZ (by rw [hc]; exact List.mem_cons_self k Z)
            have heZ0 : e.1 ∉ Z := fun hc => heZ (List.mem_cons_of_mem _ hc)
            rcases mem_update_nodup hnd hes with heq | ⟨hes', _⟩
            · exact absurd (by rw [heq]) hek
            · have hv := hvalid e hes' heZ0 nn hnn
              rw [List.count_append, count_intChildren, List.count_erase_of_ne hek]
              have h2 := hsplit e.1
              have h3 := hpc1 e.1
              omega
          · intro z hz
            rcases List.mem_cons.mp hz with hz | hz
            · subst hz
              refine ⟨?_, ?_, ?_⟩
              · unfold zombieEntryB
                rw [hl1]
              · intro hc
                rcases List.mem_append.mp hc with hc | hc
                · exact hkR1 hc
                · have hx : 1 ≤ (R.erase z).count z := List.count_pos_iff.mpr hc
                  rw [List.count_erase_self] at hx
                  omega
              · have h2 := hsplit z
                have h3 := hpc1 z
                omega
            · obtain ⟨hz1, hz2, hz3⟩ := hzomb z hz
              have hzk : z ≠ k := fun hc => hkZ (hc ▸ hz)
              refine ⟨?_, ?_, ?_⟩
              · unfold zombieEntryB at hz1 ⊢
                rw [lookup_update_ne hzk]
                exact hz1
              · intro hc
                rcases List.mem_append.mp hc with hc | hc
                · have hx : 1 ≤ (intChildren pair).count z := List.count_pos_iff.mpr hc
                  rw [count_intChildren] at hx
                  have hy := pcNZ_ge_entry hmemk rfl hkZ z
                  omega
                · exact hz2 (List.mem_of_mem_erase hc)
              · have h2 := pcNZ_cons_zombie_le (update s k (pair, some 0)) k Z z
                have h3 := hpc1 z
                omega
        have hchild : ∀ (v : Value I E) (t : Store I E) (R2 : List I),
            INVZ (intChildren1 v ++ R2) (k :: Z) t → muStore t < m →
            ∃ t', childStep m t v = some t' ∧
              INVZ R2 (k :: Z) t' ∧ muStore t' ≤ muStore t ∧
              (∀ j prr rc0, lookup t' j = some (prr, rc0) →
                ∃ rc1, lookup t j = some (prr, rc1)) ∧
              (∀ j prr, lookup t j = some (prr, none) → lookup t' j = some (prr, none)) ∧
              (∀ z ∈ (k :: Z), lookup t' z = lookup t z) := by
          intro v t R2 hinvt hmut
          cases v with
          | intermediate sub =>
            obtain ⟨t', h1', h2', h3', h4', h5', h6'⟩ :=
              ih t (intChildren1 (Value.intermediate sub : Value I E) ++ R2) (k :: Z) sub
                hinvt (by simp [intChildren1]) hmut
            refine ⟨t', h1', ?_, h3', h4', h5', h6'⟩
            have herase :
                (intChildren1 (Value.intermediate sub : Value I E) ++ R2).erase sub = R2 := by
              show (sub :: R2).erase sub = R2
              exact List.erase_cons_head sub R2
            rwa [herase] at h2'
          | end_ d =>
            exact ⟨t, rfl, hinvt, le_refl _, fun j prr rc0 h => ⟨rc0, h⟩,
              fun j prr h => h, fun z _ => rfl⟩
        have hassoc : intChildren pair ++ R.erase k
            = intChildren1 pair.1 ++ (intChildren1 pair.2 ++ R.erase k) := by
          unfold intChildren
          rw [List.append_assoc]
        rw [hassoc] at hinv1
        obtain ⟨s2, hrun2, hinv2, hmu2, hsub2, hnp2, hzp2⟩ :=
          hchild pair.1 (update s k (pair, some 0)) (intChildren1 pair.2 ++ R.erase k)
            hinv1 (by omega)
        obtain ⟨s3, hrun3, hinv3, hmu3, hsub3, hnp3, hzp3⟩ :=
          hchild pair.2 s2 (R.erase k) hinv2 (by omega)
        have hrun : removeB (m + 1) s k = some (erase s3 k) := by
          have hred : removeB (m + 1) s k =
              (childStep m (update s k (pair, some 0)) pair.1).bind fun s2 =>
                (childStep m s2 pair.2).bind fun s3 => some (erase s3 k) := by
            rw [removeB_succ_bind he m]
            rfl
          rw [hred, hrun2]
          simp only [Option.some_bind]
          rw [hrun3]
          simp only [Option.some_bind]
        obtain ⟨hnd3, hroots3, hclosed3, hnone3, hvalid3, hzomb3⟩ := hinv3
        obtain ⟨hzb3, hkR3, hpc3⟩ := hzomb3 k (List.mem_cons_self k Z)
        obtain ⟨pair3, hlk3⟩ := zombieEntry_lookup hzb3
        have hkRe : k ∉ R.erase k := by
          intro hc
          have h5 : 1 ≤ (R.erase k).count k := List.count_pos_iff.mpr hc
          rw [List.count_erase_self] at h5
          omega
        have hchildne : ∀ e ∈ s3, e.1 ∉ (k :: Z) → ∀ j,
            (e.2.1.1 = Value.intermediate j ∨ e.2.1.2 = Value.intermediate j) →
            j ≠ k := by
          intro e hes heZ j hj hjk
          subst hjk
          cases h22 : e.2.2 with
          | some nv =>
            have hocc := pcNZ_zero_occ hpc3 e hes heZ nv h22
            obtain ⟨ho1, ho2⟩ := occInt_eq_zero hocc
            rcases hj with hj | hj
            · exact ho1 hj
            · exact ho2 hj
          | none =>
            have hcn := hnone3 e hes h22
            rcases hj with hj | hj
            · have hx := hcn.1
              rw [hj] at hx
              simp only [childNoneB] at hx
              rw [hlk3] at hx
              simp at hx
            · have hx := hcn.2
              rw [hj] at hx
              simp only [childNoneB] at hx
              rw [hlk3] at hx
              simp at hx
        refine ⟨erase s3 k, hrun, ⟨nodup_erase hnd3 k, ?_, ?_, ?_, ?_, ?_⟩,
          ?_, ?_, ?_, ?_⟩
        · intro r hr
          have hrk : r ≠ k := fun hc => hkRe (hc ▸ hr)
          rw [containsKey_erase_ne hrk]
          exact hroots3 r hr
        · intro e hes heZ
          obtain ⟨hes3, hek⟩ := mem_erase_nodup hnd3 hes
          have heZ' : e.1 ∉ (k :: Z) := by
            intro hc
            rcases List.mem_cons.mp hc with hc | hc
            · exact hek hc
            · exact heZ hc
          have hcl := hclosed3 e hes3 heZ'
          constructor
          · cases hp : e.2.1.1 with
            | intermediate j =>
              have hjk : j ≠ k := hchildne e hes3 heZ' j (Or.inl hp)
              have hx := hcl.1
              rw [hp] at hx
              simp only [childPresentB] at hx ⊢
              rw [containsKey_erase_ne hjk]
              exact hx
            | end_ d => rfl
          · cases hp : e.2.1.2 with
            | intermediate j =>
              have hjk : j ≠ k := hchildne e hes3 heZ' j (Or.inr hp)
              have hx := hcl.2
              rw [hp] at hx
              simp only [childPresentB] at hx ⊢
              rw [containsKey_erase_ne hjk]
              exact hx
            | end_ d => rfl
        · intro e hes hn0
          obtain ⟨hes3, hek⟩ := mem_erase_nodup hnd3 hes
          have hcn := hnone3 e hes3 hn0
          constructor
          · cases hp : e.2.1.1 with
            | intermediate j =>
              have hx := hcn.1
              rw [hp] at hx
              simp only [childNoneB] at hx ⊢
              have hjk : j ≠ k := by
                intro hc
                rw [hc, hlk3] at hx
                simp at hx
              rw [lookup_erase_ne hjk]
              exact hx
            | end_ d => rfl
          · cases hp : e.2.1.2 with
            | intermediate j =>
              have hx := hcn.2
              rw [hp] at hx
              simp only [childNoneB] at hx ⊢
              have hjk : j ≠ k := by
                intro hc
                rw [hc, hlk3] at hx
                simp at hx
              rw [lookup_erase_ne hjk]
              exact hx
            | end_ d => rfl
        · intro e hes heZ nn hnn
          obtain ⟨hes3, hek⟩ := mem_erase_nodup hnd3 hes
          have heZ' : e.1 ∉ (k :: Z) := by
            intro hc
            rcases List.mem_cons.mp hc with hc | hc
            · exact hek hc
            · exact heZ hc
          have hv := hvalid3 e hes3 heZ' nn hnn
          rw [pcNZ_erase_zombie hnd3 k Z e.1]
          exact hv
        · intro z hz
          have hzk : z ≠ k := fun hc => hkZ (hc ▸ hz)
          obtain ⟨hz1, hz2, hz3⟩ := hzomb3 z (List.mem_cons_of_mem k hz)
          refine ⟨?_, hz2, ?_⟩
          · unfold zombieEntryB at hz1 ⊢
            rw [lookup_erase_ne hzk]
            exact hz1
          · rw [pcNZ_erase_zombie hnd3 k Z z]
            exact hz3
        · have h5 := muStore_erase_le s3 k
          omega
        · intro j prr rc0 h
          have hjk : j ≠ k := by
            intro hc
            rw [hc, lookup_erase_self hnd3] at h
            simp at h
          rw [lookup_erase_ne hjk] at h
          obtain ⟨rc2, h2'⟩ := hsub3 j prr rc0 h
          obtain ⟨rc1, h1'⟩ := hsub2 j prr rc2 h2'
          rw [lookup_update_ne hjk] at h1'
          exact ⟨rc1, h1'⟩
        · intro j prr h
          have hjk : j ≠ k := by
            intro hc
            rw [hc, he] at h
            simp at h
          have h1' : lookup (update s k (pair, some 0)) j = some (prr, none) := by
            rw [lookup_update_ne hjk]
            exact h
          have h3' := hnp3 j prr (hnp2 j prr h1')
          rw [lookup_erase_ne hjk]
          exact h3'
        · intro z hz
          have hzk : z ≠ k := fun hc => hkZ (hc ▸ hz)
          rw [lookup_erase_ne hzk, hzp3 z (List.mem_cons_of_mem k hz),
            hzp2 z (List.mem_cons_of_mem k hz), lookup_update_ne hzk]
      · -- the refcount stays positive: pure decrement
        have hn2 : 2 ≤ n := by omega
        have hrun : removeB (m + 1) s k = some (update s k (pair, some (n - 1))) := by
          rw [removeB_succ_some he m, if_neg (by simp; omega)]
          rfl
        have hpc : ∀ j, pcNZ (update s k (pair, some (n - 1))) Z j = pcNZ s Z j :=
          fun j => pcNZ_update_isSome he
            (show (some (n - 1) : Option Nat).isSome = (some n).isSome from rfl) Z j
        have hlk : lookup (update s k (pair, some (n - 1))) k = some (pair, some (n - 1)) :=
          lookup_update_self he _
        have hcp : ∀ v : Value I E, childPresentB s v = true →
            childPresentB (update s k (pair, some (n - 1))) v = true := by
          intro v hv
          cases v with
          | intermediate j =>
            simp only [childPresentB] at hv ⊢
            rw [containsKey_update]
            exact hv
          | end_ d => rfl
        have hcn : ∀ v : Value I E, childNoneB s v = true →
            childNoneB (update s k (pair, some (n - 1))) v = true := by
          intro v hv
          cases v with
          | end_ d => rfl
          | intermediate j =>
            simp only [childNoneB] at hv ⊢
            by_cases hj : j = k
            · subst hj; rw [he] at hv; simp at hv
            · rw [lookup_update_ne hj]
              exact hv
        refine ⟨_, hrun, ⟨nodup_update hnd _ _, ?_, ?_, ?_, ?_, ?_⟩, ?_, ?_, ?_, ?_⟩
        · intro r hr
          rw [containsKey_update]
          exact hroots r (List.mem_of_mem_erase hr)
        · intro e hes heZ
          rcases mem_update_nodup hnd hes with heq | ⟨hes', hek⟩
          · subst heq
            have hx := hclosed (k, (pair, some n)) hmemk hkZ
            exact ⟨hcp _ hx.1, hcp _ hx.2⟩
          · have hx := hclosed e hes' heZ
            exact ⟨hcp _ hx.1, hcp _ hx.2⟩
        · intro e hes hn0
          rcases mem_update_nodup hnd hes with heq | ⟨hes', hek⟩
          · rw [heq] at hn0; simp at hn0
          · have hx := hnone e hes' hn0
            exact ⟨hcn _ hx.1, hcn _ hx.2⟩
        · intro e hes heZ nn hnn
          rcases mem_update_nodup hnd hes with heq | ⟨hes', hek⟩
          · have he1 : e.1 = k := by rw [heq]
            have he2 : e.2.2 = some (n - 1) := by rw [heq]
            rw [he2] at hnn
            injection hnn with hnn
            rw [he1, List.count_erase_self, hpc]
            omega
          · have hx := hvalid e hes' heZ nn hnn
            rw [List.count_erase_of_ne hek, hpc]
            exact hx
        · intro z hz
          obtain ⟨hz1, hz2, hz3⟩ := hzomb z hz
          have hzk : z ≠ k := fun hc => hz2 (hc ▸ hkR)
          refine ⟨?_, fun hc => hz2 (List.mem_of_mem_erase hc), ?_⟩
          · unfold zombieEntryB at hz1 ⊢
            rw [lookup_update_ne hzk]
            exact hz1
          · rw [hpc]
            exact hz3
        · have hx := muStore_update he (pair, some (n - 1))
          simp at hx
          omega
        · intro j prr rc0 h
          by_cases hj : j = k
          · subst hj
            rw [hlk] at h
            injection h with h2
            injection h2 with h2a h2b
            refine ⟨some n, ?_⟩
            rw [← h2a]
            exact he
          · rw [lookup_update_ne hj] at h
            exact ⟨rc0, h⟩
        · intro j prr h
          have hj : j ≠ k := by
            intro hc
            rw [hc, he] at h
            simp at h
          rw [lookup_update_ne hj]
          exact h
        · intro z hz
          have hzk : z ≠ k := fun hc => (hzomb z hz).2.1 (hc ▸ hkR)
          exact lookup_update_ne hzk _

theorem lookup_cons_self (k : I) (e : Entry I E) (s : Store I E) :
    lookup ((k, e) :: s) k = some e := by
  simp [lookup]

theorem lookup_cons_ne {k j : I} (hne : j ≠ k) (e : Entry I E) (s : Store I E) :
    lookup ((k, e) :: s) j = lookup s j := by
  simp [lookup, hne]

theorem keys_bumpRC (s : Store I E) (c : I) :
    (bumpRC s c).map Prod.fst = s.map Prod.fst := by
  unfold bumpRC
  cases lookup s c with
  | none => rfl
  | some e => exact keys_update s c _

theorem nodup_bumpRC {s : Store I E} (hnd : KeysNodup s) (c : I) :
    KeysNodup (bumpRC s c) := by
  unfold KeysNodup
  rw [keys_bumpRC]
  exact hnd

theorem lookup_bumpChild_ne {s : Store I E} {v : Value I E} {j : I}
    (hne : v ≠ Value.intermediate j) : lookup (bumpChild s v) j = lookup s j := by
  cases v with
  | intermediate c =>
    have hcj : j ≠ c := fun hc => hne (by rw [hc])
    exact lookup_bumpRC_ne hcj
  | end_ d => rfl

theorem lookup_bumpChild_self {s : Store I E} {j : I} {pair : Pair I E} {rc : Option Nat}
    (h : lookup s j = some (pair, rc)) :
    lookup (bumpChild s (Value.intermediate j)) j = some (pair, rc.map (· + 1)) :=
  lookup_bumpRC_self h

theorem pcNZ_bumpChild (s : Store I E) (v : Value I E) (Z : List I) (j : I) :
    pcNZ (bumpChild s v) Z j = pcNZ s Z j := by
  cases v with
  | intermediate c => exact pcNZ_bumpRC s c Z j
  | end_ d => rfl

theorem containsKey_bumpChild (s : Store I E) (v : Value I E) (j : I) :
    containsKey (bumpChild s v) j = containsKey s j := by
  cases v with
  | intermediate c => exact containsKey_bumpRC j
  | end_ d => rfl

theorem keys_bumpChild (s : Store I E) (v : Value I E) :
    (bumpChild s v).map Prod.fst = s.map Prod.fst := by
  cases v with
  | intermediate c => exact keys_bumpRC s c
  | end_ d => rfl

theorem nodup_bumpChild {s : Store I E} (hnd : KeysNodup s) (v : Value I E) :
    KeysNodup (bumpChild s v) := by
  unfold KeysNodup
  rw [keys_bumpChild]
  exact hnd

theorem occInt_eq_zero_of_ne {j : I} {pair : Pair I E}
    (h1 : pair.1 ≠ Value.intermediate j) (h2 : pair.2 ≠ Value.intermediate j) :
    occInt j pair = 0 := by
  unfold occInt
  rw [if_neg h1, if_neg h2]

theorem pcNZ_eq_zero_of_all {s : Store I E} {Z : List I} {j : I}
    (h : ∀ e ∈ s, e.1 ∉ Z → ∀ n, e.2.2 = some n → occInt j e.2.1 = 0) :
    pcNZ s Z j = 0 := by
  induction s with
  | nil => rfl
  | cons hd tl ih =>
    rw [pcNZ_cons]
    have hw : refWeight Z hd j = 0 := by
      unfold refWeight
      by_cases hz : hd.1 ∈ Z
      · rw [if_pos hz]
      · rw [if_neg hz]
        cases h22 : hd.2.2 with
        | none => rfl
        | some n => exact h hd (List.mem_cons_self hd tl) hz n h22
    rw [hw, ih (fun e he => h e (List.mem_cons_of_mem hd he))]

theorem pcNZ_absent_zero {s : Store I E} {Z : List I} (hclosed : ClosedNZ Z s)
    {key : I} (habs : containsKey s key = false) : pcNZ s Z key = 0 := by
  apply pcNZ_eq_zero_of_all
  intro e he heZ n _
  have hcl := hclosed e he heZ
  apply occInt_eq_zero_of_ne
  · intro hc
    have hx := hcl.1
    rw [hc] at hx
    simp only [childPresentB] at hx
    rw [habs] at hx
    exact Bool.false_ne_true hx
  · intro hc
    have hx := hcl.2
    rw [hc] at hx
    simp only [childPresentB] at hx
    rw [habs] at hx
    exact Bool.false_ne_true hx

theorem insertB_success_shape {s s' : Store I E} {k : I} {pair : Pair I E}
    (h : insertB s k pair = (s', none)) :
    (containsKey s k = true ∧ s' = s) ∨
    (containsKey s k = false ∧ childPresentB s pair.1 = true ∧
      childPresentB s pair.2 = true ∧
      s' = (k, (pair, some 0)) :: bumpChild (bumpChild s pair.1) pair.2) := by
  obtain ⟨pl, p2⟩ := pair
  by_cases hck : containsKey s k = true
  · left
    refine ⟨hck, ?_⟩
    unfold insertB at h
    rw [if_pos hck] at h
    injection h with h1 _
    exact h1.symm
  · right
    have hckn := hck
    rw [Bool.not_eq_true] at hck
    cases pl with
    | intermediate sub =>
      cases p2 with
      | intermediate sub2 =>
        have hunf : insertB s k (Value.intermediate sub, Value.intermediate sub2) =
            (if containsKey s k = true then ((s, none) : Store I E × Option BackendError)
             else
               if containsKey s sub = true then
                 if containsKey (bumpRC s sub) sub2 = true then
                   ((k, ((Value.intermediate sub, Value.intermediate sub2), some 0)) ::
                     bumpRC (bumpRC s sub) sub2, none)
                 else (bumpRC s sub, some BackendError.setIntermediateNotExist)
               else (s, some BackendError.setIntermediateNotExist)) := rfl
        rw [hunf, if_neg hckn] at h
        by_cases hs1 : containsKey s sub = true
        · rw [if_pos hs1] at h
          by_cases hs2 : containsKey (bumpRC s sub) sub2 = true
          · rw [if_pos hs2] at h
            injection h with h1 _
            refine ⟨hck, ?_, ?_, h1.symm⟩
            · simp only [childPresentB]
              exact hs1
            · simp only [childPresentB]
              rwa [containsKey_bumpRC sub2] at hs2
          · rw [if_neg hs2] at h
            injection h with _ h2
            exact Option.noConfusion h2
        · rw [if_neg hs1] at h
          injection h with _ h2
          exact Option.noConfusion h2
      | end_ d =>
        have hunf : insertB s k (Value.intermediate sub, Value.end_ d) =
            (if containsKey s k = true then ((s, none) : Store I E × Option BackendError)
             else
               if containsKey s sub = true then
                 ((k, ((Value.intermediate sub, Value.end_ d), some 0)) :: bumpRC s sub,
                   none)
               else (s, some BackendError.setIntermediateNotExist)) := rfl
        rw [hunf, if_neg hckn] at h
        by_cases hs1 : containsKey s sub = true
        · rw [if_pos hs1] at h
          injection h with h1 _
          refine ⟨hck, ?_, rfl, h1.symm⟩
          simp only [childPresentB]
          exact hs1
        · rw [if_neg hs1] at h
          injection h with _ h2
          exact Option.noConfusion h2
    | end_ d =>
      cases p2 with
      | intermediate sub2 =>
        have hunf : insertB s k (Value.end_ d, Value.intermediate sub2) =
            (if containsKey s k = true then ((s, none) : Store I E × Option BackendError)
             else
               if containsKey s sub2 = true then
                 ((k, ((Value.end_ d, Value.intermediate sub2), some 0)) :: bumpRC s sub2,
                   none)
               else (s, some BackendError.setIntermediateNotExist)) := rfl
        rw [hunf, if_neg hckn] at h
        by_cases hs2 : containsKey s sub2 = true
        · rw [if_pos hs2] at h
          injection h with h1 _
          refine ⟨hck, rfl, ?_, h1.symm⟩
          simp only [childPresentB]
          exact hs2
        · rw [if_neg hs2] at h
          injection h with _ h2
          exact Option.noConfusion h2
      | end_ d2 =>
        have hunf : insertB s k (Value.end_ d, Value.end_ d2) =
            (if containsKey s k = true then ((s, none) : Store I E × Option BackendError)
             else ((k, ((Value.end_ d, Value.end_ d2), some 0)) :: s, none)) := rfl
        rw [hunf, if_neg hckn] at h
        injection h with h1 _
        exact ⟨hck, rfl, rfl, h1.symm⟩

theorem bumpRC_absent {s : Store I E} {c : I} (h : lookup s c = none) :
    bumpRC s c = s := by
  unfold bumpRC
  rw [h]

theorem lookup_bumpChild_absent {s : Store I E} {j : I} (h : lookup s j = none)
    (v : Value I E) : lookup (bumpChild s v) j = none := by
  cases v with
  | end_ d => exact h
  | intermediate c =>
    show lookup (bumpRC s c) j = none
    by_cases hcj : j = c
    · subst hcj
      rw [bumpRC_absent h]
      exact h
    · rw [lookup_bumpRC_ne hcj]
      exact h

theorem lookup_bumpChild2 (s : Store I E) (pair : Pair I E) (j : I) :
    lookup (bumpChild (bumpChild s pair.1) pair.2) j
      = (lookup s j).map (fun e => (e.1, e.2.map (· + occInt j pair))) := by
  by_cases h1 : pair.1 = Value.intermediate j <;>
    by_cases h2 : pair.2 = Value.intermediate j
  · have hocc : occInt j pair = 2 := by
      unfold occInt
      rw [if_pos h1, if_pos h2]
    rw [hocc]
    cases hl : lookup s j with
    | none =>
      rw [lookup_bumpChild_absent (lookup_bumpChild_absent hl pair.1) pair.2]
      rfl
    | some e0 =>
      obtain ⟨p0, rc0⟩ := e0
      have hb1 : lookup (bumpChild s pair.1) j = some (p0, rc0.map (· + 1)) := by
        rw [h1]
        exact lookup_bumpChild_self hl
      have hb2 : lookup (bumpChild (bumpChild s pair.1) pair.2) j
          = some (p0, (rc0.map (· + 1)).map (· + 1)) := by
        rw [h2]
        exact lookup_bumpChild_self hb1
      rw [hb2]
      cases rc0 <;> simp
  · have hocc : occInt j pair = 1 := by
      unfold occInt
      rw [if_pos h1, if_neg h2]
    rw [hocc]
    cases hl : lookup s j with
    | none =>
      rw [lookup_bumpChild_ne h2, lookup_bumpChild_absent hl pair.1]
      rfl
    | some e0 =>
      obtain ⟨p0, rc0⟩ := e0
      rw [lookup_bumpChild_ne h2]
      have hb1 : lookup (bumpChild s pair.1) j = some (p0, rc0.map (· + 1)) := by
        rw [h1]
        exact lookup_bumpChild_self hl
      rw [hb1]
      rfl
  · have hocc : occInt j pair = 1 := by
      unfold occInt
      rw [if_neg h1, if_pos h2]
    rw [hocc]
    cases hl : lookup s j with
    | none =>
      rw [lookup_bumpChild_absent (by rw [lookup_bumpChild_ne h1]; exact hl) pair.2]
      rfl
    | some e0 =>
      obtain ⟨p0, rc0⟩ := e0
      have hb1 : lookup (bumpChild s pair.1) j = some (p0, rc0) := by
        rw [lookup_bumpChild_ne h1]
        exact hl
      have hb2 : lookup (bumpChild (bumpChild s pair.1) pair.2) j
          = some (p0, rc0.map (· + 1)) := by
        rw [h2]
        exact lookup_bumpChild_self hb1
      rw [hb2]
      rfl
  · have hocc : occInt j pair = 0 := by
      unfold occInt
      rw [if_neg h1, if_neg h2]
    rw [hocc, lookup_bumpChild_ne h2, lookup_bumpChild_ne h1]
    cases hl : lookup s j with
    | none => rfl
    | some e0 =>
      obtain ⟨p0, rc0⟩ := e0
      cases rc0 <;> simp

theorem insertB_new_lookup (s : Store I E) (k : I) (pair : Pair I E) (j : I) :
    lookup ((k, (pair, some 0)) :: bumpChild (bumpChild s pair.1) pair.2) j
      = if j = k then some (pair, some 0)
        else (lookup s j).map (fun e => (e.1, e.2.map (· + occInt j pair))) := by
  by_cases hj : j = k
  · rw [if_pos hj, hj, lookup_cons_self]
  · rw [if_neg hj, lookup_cons_ne hj, lookup_bumpChild2]

theorem pcNZ_insert_new (s : Store I E) (k : I) (pair : Pair I E) (j : I) :
    pcNZ ((k, (pair, some 0)) :: bumpChild (bumpChild s pair.1) pair.2) [] j
      = occInt j pair + pcNZ s [] j := by
  rw [pcNZ_cons, pcNZ_bumpChild, pcNZ_bumpChild]
  congr 1

theorem insertB_INV {R : List I} {s s' : Store I E} {k : I} {pair : Pair I E}
    (hinv : INV R s) (h : insertB s k pair = (s', none)) : INV R s' := by
  obtain ⟨hnd, hroots, hclosed, hnone, hvalid, hzomb⟩ := hinv
  rcases insertB_success_shape h with ⟨hck, rfl⟩ | ⟨hck, hcp1, hcp2, rfl⟩
  · exact ⟨hnd, hroots, hclosed, hnone, hvalid, hzomb⟩
  · have hkR : k ∉ R := by
      intro hc
      have hx := hroots k hc
      rw [hck] at hx
      exact Bool.false_ne_true hx
    have hocck : occInt k pair = 0 := by
      apply occInt_eq_zero_of_ne
      · intro hc
        rw [hc] at hcp1
        simp only [childPresentB] at hcp1
        rw [hck] at hcp1
        exact Bool.false_ne_true hcp1
      · intro hc
        rw [hc] at hcp2
        simp only [childPresentB] at hcp2
        rw [hck] at hcp2
        exact Bool.false_ne_true hcp2
    have hpck : pcNZ s [] k = 0 := pcNZ_absent_zero hclosed hck
    have hnd' : KeysNodup ((k, (pair, some 0)) :: bumpChild (bumpChild s pair.1) pair.2) := by
      unfold KeysNodup
      simp only [List.map_cons]
      rw [keys_bumpChild, keys_bumpChild]
      refine List.nodup_cons.mpr ⟨?_, hnd⟩
      intro hc
      have hx := containsKey_iff_mem_keys.mpr hc
      rw [hck] at hx
      exact Bool.false_ne_true hx
    have hlift : ∀ v : Value I E, childPresentB s v = true →
        childPresentB ((k, (pair, some 0)) :: bumpChild (bumpChild s pair.1) pair.2) v
          = true := by
      intro v hv
      cases v with
      | end_ d => rfl
      | intermediate j =>
        simp only [childPresentB] at hv ⊢
        unfold containsKey at hv ⊢
        rw [insertB_new_lookup]
        by_cases hjk : j = k
        · rw [if_pos hjk]; rfl
        · rw [if_neg hjk]
          cases hl : lookup s j with
          | none => rw [hl] at hv; exact absurd hv (by simp)
          | some e2 => rfl
    have hliftn : ∀ v : Value I E, childNoneB s v = true →
        childNoneB ((k, (pair, some 0)) :: bumpChild (bumpChild s pair.1) pair.2) v
          = true := by
      intro v hv
      cases v with
      | end_ d => rfl
      | intermediate j =>
        simp only [childNoneB] at hv ⊢
        rw [insertB_new_lookup]
        by_cases hjk : j = k
        · rw [hjk] at hv
          cases hl : lookup s k with
          | none => rw [hl] at hv; exact absurd hv (by simp)
          | some e2 =>
            unfold containsKey at hck
            rw [hl] at hck
            exact absurd hck (by simp)
        · rw [if_neg hjk]
          cases hl : lookup s j with
          | none => rw [hl] at hv; exact absurd hv (by simp)
          | some e2 =>
            rw [hl] at hv
            obtain ⟨p2, rc2⟩ := e2
            cases rc2 with
            | none => simp
            | some n2 => simp at hv
    refine ⟨hnd', ?_, ?_, ?_, ?_, ?_⟩
    · intro r hr
      have hr0 := hroots r hr
      unfold containsKey at hr0 ⊢
      rw [insertB_new_lookup]
      by_cases hrk : r = k
      · rw [if_pos hrk]; rfl
      · rw [if_neg hrk]
        cases hl : lookup s r with
        | none => rw [hl] at hr0; exact absurd hr0 (by simp)
        | some e2 => rfl
    · intro e hes _
      have hle := mem_lookup_nodup hnd' hes
      rw [insertB_new_lookup] at hle
      by_cases hek : e.1 = k
      · rw [if_pos hek] at hle
        injection hle with h2
        rw [← h2]
        exact ⟨hlift _ hcp1, hlift _ hcp2⟩
      · rw [if_neg hek] at hle
        cases hl : lookup s e.1 with
        | none => rw [hl] at hle; exact absurd hle (by simp)
        | some e0 =>
          rw [hl] at hle
          simp only [Option.map_some'] at hle
          injection hle with h2
          have hcl := hclosed (e.1, e0) (lookup_mem hl) (by simp)
          have h21 : e.2.1 = e0.1 := by rw [← h2]
          rw [h21]
          exact ⟨hlift _ hcl.1, hlift _ hcl.2⟩
    · intro e hes hn0
      have hle := mem_lookup_nodup hnd' hes
      rw [insertB_new_lookup] at hle
      by_cases hek : e.1 = k
      · rw [if_pos hek] at hle
        injection hle with h2
        rw [← h2] at hn0
        simp at hn0
      · rw [if_neg hek] at hle
        cases hl : lookup s e.1 with
        | none => rw [hl] at hle; exact absurd hle (by simp)
        | some e0 =>
          rw [hl] at hle
          simp only [Option.map_some'] at hle
          injection hle with h2
          have h22 : e.2.2 = e0.2.map (· + occInt e.1 pair) := by rw [← h2]
          rw [h22] at hn0
          have he0 : e0.2 = none := by
            cases hx : e0.2 with
            | none => rfl
            | some n0 => rw [hx] at hn0; simp at hn0
          have hnz := hnone (e.1, e0) (lookup_mem hl) he0
          have h21 : e.2.1 = e0.1 := by rw [← h2]
          rw [h21]
          exact ⟨hliftn _ hnz.1, hliftn _ hnz.2⟩
    · intro e hes _ nn hnn
      have hle := mem_lookup_nodup hnd' hes
      rw [insertB_new_lookup] at hle
      by_cases hek : e.1 = k
      · rw [if_pos hek] at hle
        injection hle with h2
        have h22 : e.2.2 = some 0 := by rw [← h2]
        rw [h22] at hnn
        injection hnn with hnn2
        rw [hek]
        have hc0 : R.count k = 0 := List.count_eq_zero.mpr hkR
        have hpc' := pcNZ_insert_new s k pair k
        omega
      · rw [if_neg hek] at hle
        cases hl : lookup s e.1 with
        | none => rw [hl] at hle; exact absurd hle (by simp)
        | some e0 =>
          rw [hl] at hle
          simp only [Option.map_some'] at hle
          injection hle with h2
          have h22 : e.2.2 = e0.2.map (· + occInt e.1 pair) := by rw [← h2]
          rw [h22] at hnn
          obtain ⟨p0, rc0⟩ := e0
          cases rc0 with
          | none => simp at hnn
          | some n0 =>
            simp only [Option.map_some'] at hnn
            injection hnn with hnn2
            have hv := hvalid (e.1, (p0, some n0)) (lookup_mem hl) (by simp) n0 rfl
            simp only at hv
            have hpc' := pcNZ_insert_new s k pair e.1
            omega
    · intro z hz
      exact absurd hz (List.not_mem_nil z)

theorem lookup_bumpRC_eq (s : Store I E) (k : I) (j : I) :
    lookup (bumpRC s k) j
      = if j = k then (lookup s k).map (fun e => (e.1, e.2.map (· + 1)))
        else lookup s j := by
  by_cases hj : j = k
  · rw [if_pos hj]
    subst hj
    cases hl : lookup s j with
    | none => rw [bumpRC_absent hl, hl]; rfl
    | some e0 =>
      obtain ⟨p0, rc0⟩ := e0
      unfold bumpRC
      rw [hl, lookup_update_self hl]
      rfl
  · rw [if_neg hj]
    exact lookup_bumpRC_ne hj

theorem rootifyB_INV {R : List I} {s s2 : Store I E} {k : I}
    (hinv : INV R s) (h : rootifyB s k = some s2) : INV (k :: R) s2 := by
  obtain ⟨hnd, hroots, hclosed, hnone, hvalid, hzomb⟩ := hinv
  unfold rootifyB at h
  by_cases hck : containsKey s k = true
  · rw [if_pos hck] at h
    injection h with h1
    subst h1
    have hnd' : KeysNodup (bumpRC s k) := nodup_bumpRC hnd k
    have hlift : ∀ v : Value I E, childPresentB s v = true →
        childPresentB (bumpRC s k) v = true := by
      intro v hv
      cases v with
      | end_ d => rfl
      | intermediate j =>
        simp only [childPresentB] at hv ⊢
        rw [containsKey_bumpRC j]
        exact hv
    have hliftn : ∀ v : Value I E, childNoneB s v = true →
        childNoneB (bumpRC s k) v = true := by
      intro v hv
      cases v with
      | end_ d => rfl
      | intermediate j =>
        simp only [childNoneB] at hv ⊢
        rw [lookup_bumpRC_eq]
        by_cases hjk : j = k
        · rw [if_pos hjk]
          rw [hjk] at hv
          cases hl : lookup s k with
          | none => rw [hl] at hv; exact absurd hv (by simp)
          | some e0 =>
            rw [hl] at hv
            obtain ⟨p0, rc0⟩ := e0
            cases rc0 with
            | none => simp
            | some n0 => simp at hv
        · rw [if_neg hjk]
          exact hv
    refine ⟨hnd', ?_, ?_, ?_, ?_, ?_⟩
    · intro r hr
      rw [containsKey_bumpRC r]
      rcases List.mem_cons.mp hr with hr | hr
      · rw [hr]; exact hck
      · exact hroots r hr
    · intro e hes _
      have hle := mem_lookup_nodup hnd' hes
      rw [lookup_bumpRC_eq] at hle
      by_cases hek : e.1 = k
      · rw [if_pos hek] at hle
        cases hl : lookup s k with
        | none => rw [hl] at hle; exact absurd hle (by simp)
        | some e0 =>
          rw [hl] at hle
          simp only [Option.map_some'] at hle
          injection hle with h2
          have hcl := hclosed (k, e0) (lookup_mem hl) (by simp)
          have h21 : e.2.1 = e0.1 := by rw [← h2]
          rw [h21]
          exact ⟨hlift _ hcl.1, hlift _ hcl.2⟩
      · rw [if_neg hek] at hle
        have hcl := hclosed e (lookup_mem hle) (by simp)
        exact ⟨hlift _ hcl.1, hlift _ hcl.2⟩
    · intro e hes hn0
      have hle := mem_lookup_nodup hnd' hes
      rw [lookup_bumpRC_eq] at hle
      by_cases hek : e.1 = k
      · rw [if_pos hek] at hle
        cases hl : lookup s k with
        | none => rw [hl] at hle; exact absurd hle (by simp)
        | some e0 =>
          rw [hl] at hle
          simp only [Option.map_some'] at hle
          injection hle with h2
          have h22 : e.2.2 = e0.2.map (· + 1) := by rw [← h2]
          rw [h22] at hn0
          have he0 : e0.2 = none := by
            cases hx : e0.2 with
            | none => rfl
            | some n0 => rw [hx] at hn0; simp at hn0
          have hnz := hnone (k, e0) (lookup_mem hl) he0
          have h21 : e.2.1 = e0.1 := by rw [← h2]
          rw [h21]
          exact ⟨hliftn _ hnz.1, hliftn _ hnz.2⟩
      · rw [if_neg hek] at hle
        have hnz := hnone e (lookup_mem hle) hn0
        exact ⟨hliftn _ hnz.1, hliftn _ hnz.2⟩
    · intro e hes _ nn hnn
      have hle := mem_lookup_nodup hnd' hes
      rw [lookup_bumpRC_eq] at hle
      by_cases hek : e.1 = k
      · rw [if_pos hek] at hle
        cases hl : lookup s k with
        | none => rw [hl] at hle; exact absurd hle (by simp)
        | some e0 =>
          rw [hl] at hle
          simp only [Option.map_some'] at hle
          injection hle with h2
          have h22 : e.2.2 = e0.2.map (· + 1) := by rw [← h2]
          rw [h22] at hnn
          obtain ⟨p0, rc0⟩ := e0
          cases rc0 with
          | none => simp at hnn
          | some n0 =>
            simp only [Option.map_some'] at hnn
            injection hnn with hnn2
            have hv := hvalid (k, (p0, some n0)) (lookup_mem hl) (by simp) n0 rfl
            simp only at hv
            rw [hek, List.count_cons_self, pcNZ_bumpRC]
            omega
      · rw [if_neg hek] at hle
        have hv := hvalid (e.1, e.2) (lookup_mem hle) (by simp) nn (by rw [hnn])
        simp only at hv
        rw [List.count_cons_of_ne hek, pcNZ_bumpRC]
        exact hv
    · intro z hz
      exact absurd hz (List.not_mem_nil z)
  · rw [if_neg hck] at h
    exact Option.noConfusion h

theorem unwind_INV (H : Value I E → Value I E → I) {R : List I} :
    ∀ (lst : List (Sel × Pair I E)) (s s2 : Store I E) (u u2 : Value I E),
    INV R s → unwind H s lst u = some (s2, u2) → INV R s2 := by
  intro lst
  induction lst with
  | nil =>
    intro s s2 u u2 hinv h
    unfold unwind at h
    injection h with h1
    injection h1 with ha hb
    rw [← ha]
    exact hinv
  | cons hd tl ih =>
    intro s s2 u u2 hinv h
    obtain ⟨sel, pr⟩ := hd
    unfold unwind at h
    cases sel with
    | left =>
      simp only at h
      cases hins : insertB s (H u pr.2) (u, pr.2) with
      | mk sf eo =>
        rw [hins] at h
        cases eo with
        | none => exact ih sf s2 (Value.intermediate (H u pr.2)) u2 (insertB_INV hinv hins) h
        | some err => simp at h
    | right =>
      simp only at h
      cases hins : insertB s (H pr.1 u) (pr.1, u) with
      | mk sf eo =>
        rw [hins] at h
        cases eo with
        | none => exact ih sf s2 (Value.intermediate (H pr.1 u)) u2 (insertB_INV hinv hins) h
        | some err => simp at h

theorem setChain_INV [Inhabited E] (H : Value I E → Value I E → I) {R : List I}
    {s t : Store I E} {root : Value I E} {idx : Nat} {v u : Value I E}
    (hinv : INV R s) (h : setChain H s root idx v = some (t, u)) :
    INV (rootsAfter u R) t := by
  unfold setChain at h
  have hsecond : ∀ (rv : Option I) (rt0 : List Sel),
      (match unwind H s (walkValues s rv rt0).reverse v with
        | none => none
        | some (s2, u0) =>
          match u0 with
          | Value.intermediate k2 => (rootifyB s2 k2).map (fun s3 => (s3, u0))
          | Value.end_ _ => some (s2, u0)) = some (t, u) →
      INV (rootsAfter u R) t := by
    intro rv rt0 hm
    cases hunw : unwind H s (walkValues s rv rt0).reverse v with
    | none => rw [hunw] at hm; simp at hm
    | some p2 =>
      rw [hunw] at hm
      obtain ⟨s2, u0⟩ := p2
      have hinv2 : INV R s2 :=
        unwind_INV H (walkValues s rv rt0).reverse s s2 v u0 hinv hunw
      simp only at hm
      cases u0 with
      | intermediate k2 =>
        simp only at hm
        cases hro : rootifyB s2 k2 with
        | none => rw [hro] at hm; simp at hm
        | some s3 =>
          rw [hro] at hm
          simp only [Option.map_some'] at hm
          injection hm with hm1
          injection hm1 with hma hmb
          rw [← hma, ← hmb]
          exact rootifyB_INV hinv2 hro
      | end_ vd2 =>
        simp only at hm
        injection hm with hm1
        injection hm1 with hma hmb
        rw [← hma, ← hmb]
        exact hinv2
  cases v with
  | end_ vd =>
    simp only at h
    cases root with
    | intermediate rk =>
      simp only at h
      exact hsecond (some rk) (route idx) h
    | end_ rd =>
      cases hrt : route idx with
      | nil =>
        simp only [hrt] at h
        injection h with h1
        injection h1 with ha hb
        rw [← ha, ← hb]
        exact hinv
      | cons a as =>
        simp only [hrt] at h
        exact hsecond none (a :: as) h
  | intermediate key =>
    simp only at h
    cases hg : getB s key with
    | none => rw [hg] at h; simp at h
    | some pairk =>
      rw [hg] at h
      have hck : containsKey s key = true := by
        unfold getB at hg
        unfold containsKey
        cases hl : lookup s key with
        | none => rw [hl] at hg; simp at hg
        | some e0 => rfl
      have hins : insertB s key pairk = (s, none) := by
        unfold insertB
        rw [if_pos hck]
      simp only at h
      rw [hins] at h
      simp only at h
      cases root with
      | intermediate rk =>
        simp only at h
        exact hsecond (some rk) (route idx) h
      | end_ rd =>
        cases hrt : route idx with
        | nil =>
          simp only [hrt] at h
          cases hro : rootifyB s key with
          | none => rw [hro] at h; simp at h
          | some s2 =>
            rw [hro] at h
            simp only [Option.map_some'] at h
            injection h with h1
            injection h1 with ha hb
            rw [← ha, ← hb]
            exact rootifyB_INV hinv hro
        | cons a as =>
          simp only [hrt] at h
          exact hsecond none (a :: as) h

end RefcountLemmas

section C2

variable {I E : Type} [DecidableEq I] [DecidableEq E]

/-- C2: in the raw `set` of an owned tree, the chain (`setChain`, ending with
the rootify of the new root) runs before the unrootify of the old root, so
after `set` completes every key reachable from the new root in the post-chain
backend — in particular every subtree shared between the old and the new
tree — is still present with an identical pair: the unrootify cascade never
deletes a node the new tree references. -/
theorem set_preserves_new_tree [Inhabited E]
    (H : Value I E → Value I E → I) (fuel : Nat) (s t s' : Store I E)
    (root : Value I E) (idx : Nat) (v u u' : Value I E) (R : List I)
    (hinv : INV R s)
    (hown : ∀ k0, root = Value.intermediate k0 → k0 ∈ R)
    (hchain : setChain H s root idx v = some (t, u))
    (hset : setB H fuel s root idx v = some (s', u')) :
    u' = u ∧ ∀ j, ReachKey t u j →
      ∃ pr rc rc', lookup t j = some (pr, rc) ∧ lookup s' j = some (pr, rc') := by
  have hinvt : INV (rootsAfter u R) t := setChain_INV H hinv hchain
  have hwalk : ∀ (W : Store I E) (RW : List I), INVZ RW [] W →
      (∀ j prr rc0, lookup W j = some (prr, rc0) → ∃ rc1, lookup t j = some (prr, rc1)) →
      ∀ (w : Value I E) (j : I), ReachKey t w j →
        (∀ uk, w = Value.intermediate uk → uk ∈ RW) →
        ∃ pr rc rc', lookup t j = some (pr, rc) ∧ lookup W j = some (pr, rc') := by
    intro W RW hinvW hsubW w j hreach
    obtain ⟨hndW, hrootsW, hclW, hnoW, hvaW, hzoW⟩ := hinvW
    induction hreach with
    | root =>
      rename_i j0
      intro hukW
      have hmem := hukW j0 rfl
      have hck := hrootsW j0 hmem
      obtain ⟨e0, hl0⟩ := lookup_of_mem_keys (containsKey_iff_mem_keys.mp hck)
      obtain ⟨pr0, rc0⟩ := e0
      obtain ⟨rc1, hlt⟩ := hsubW j0 pr0 rc0 hl0
      exact ⟨pr0, rc1, rc0, hlt, hl0⟩
    | stepLeft hr hg hp ih =>
      intro hukW
      obtain ⟨pr, rc, rc', hlt, hlw⟩ := ih hukW
      rename_i j0 j1 pairX
      unfold getB at hg
      rw [hlt] at hg
      simp only [Option.map_some'] at hg
      injection hg with hg1
      have hcl := hclW (j1, (pr, rc')) (lookup_mem hlw) (by simp)
      have hx := hcl.1
      rw [show ((j1, (pr, rc')) : I × Entry I E).2.1.1 = pr.1 from rfl, hg1, hp] at hx
      simp only [childPresentB] at hx
      obtain ⟨e2, hl2⟩ := lookup_of_mem_keys (containsKey_iff_mem_keys.mp hx)
      obtain ⟨pr2, rc2⟩ := e2
      obtain ⟨rc3, hlt2⟩ := hsubW j0 pr2 rc2 hl2
      exact ⟨pr2, rc3, rc2, hlt2, hl2⟩
    | stepRight hr hg hp ih =>
      intro hukW
      obtain ⟨pr, rc, rc', hlt, hlw⟩ := ih hukW
      rename_i j0 j1 pairX
      unfold getB at hg
      rw [hlt] at hg
      simp only [Option.map_some'] at hg
      injection hg with hg1
      have hcl := hclW (j1, (pr, rc')) (lookup_mem hlw) (by simp)
      have hx := hcl.2
      rw [show ((j1, (pr, rc')) : I × Entry I E).2.1.2 = pr.2 from rfl, hg1, hp] at hx
      simp only [childPresentB] at hx
      obtain ⟨e2, hl2⟩ := lookup_of_mem_keys (containsKey_iff_mem_keys.mp hx)
      obtain ⟨pr2, rc2⟩ := e2
      obtain ⟨rc3, hlt2⟩ := hsubW j0 pr2 rc2 hl2
      exact ⟨pr2, rc3, rc2, hlt2, hl2⟩
  unfold setB at hset
  rw [hchain] at hset
  simp only at hset
  cases root with
  | end_ rd =>
    simp only at hset
    injection hset with h1
    injection h1 with ha hb
    refine ⟨hb.symm, ?_⟩
    intro j hreach
    rw [← ha]
    exact hwalk t (rootsAfter u R) hinvt (fun j0 prr rc0 hW => ⟨rc0, hW⟩)
      u j hreach (fun uk huk => by rw [huk]; exact List.mem_cons_self uk R)
  | intermediate k0 =>
    simp only at hset
    cases hrem : removeB fuel t k0 with
    | none => rw [hrem] at hset; simp at hset
    | some s0 =>
      rw [hrem] at hset
      simp only [Option.map_some'] at hset
      injection hset with h1
      injection h1 with ha hb
      have hk0R : k0 ∈ rootsAfter u R := by
        have hm := hown k0 rfl
        cases u with
        | intermediate uk => exact List.mem_cons_of_mem uk hm
        | end_ d => exact hm
      obtain ⟨s1', hrun1, hinv1, hmu1, hsub1, hnp1, hzp1⟩ :=
        removeB_spec (muStore t + 1) t (rootsAfter u R) [] k0 hinvt hk0R (by omega)
      have hsame : s0 = s1' := by
        by_cases hf : fuel ≤ muStore t + 1
        · have h2 := removeB_mono_le hf hrem
          rw [h2] at hrun1
          exact Option.some.inj hrun1
        · have h2 := removeB_mono_le (by omega : muStore t + 1 ≤ fuel) hrun1
          rw [h2] at hrem
          exact (Option.some.inj hrem).symm
      refine ⟨hb.symm, ?_⟩
      intro j hreach
      rw [← ha, hsame]
      refine hwalk s1' ((rootsAfter u R).erase k0) hinv1 hsub1 u j hreach ?_
      intro uk huk
      rw [huk]
      by_cases huk0 : uk = k0
      · subst huk0
        show uk ∈ (uk :: R).erase uk
        rw [List.erase_cons_head]
        exact hown uk rfl
      · show uk ∈ (uk :: R).erase k0
        exact (List.mem_erase_of_ne huk0).mpr (List.mem_cons_self uk R)

/-- Witness for C2: on the singleton backend rooted at
`hash (End 1, End 2)` with refcount 1, setting generalized index 2 to
`End 9` builds and rootifies the new root `hash (End 9, End 2)`, the
unrootify cascade then deletes the old tree, and every key reachable from
the new root survives with an identical pair. -/
theorem set_preserves_new_tree_witness :
    ((Value.intermediate (hashC (Value.end_ 9) (Value.end_ 2)) : Value Nat Nat)
        = Value.intermediate (hashC (Value.end_ 9) (Value.end_ 2)) ∧
      ∀ j, ReachKey
          ([(hashC (Value.end_ 9) (Value.end_ 2),
              ((Value.end_ 9, Value.end_ 2), some 1)),
            (hashC (Value.end_ 1) (Value.end_ 2),
              ((Value.end_ 1, Value.end_ 2), some 1))] : Store Nat Nat)
          (Value.intermediate (hashC (Value.end_ 9) (Value.end_ 2))) j →
        ∃ pr rc rc',
          lookup ([(hashC (Value.end_ 9) (Value.end_ 2),
              ((Value.end_ 9, Value.end_ 2), some 1)),
            (hashC (Value.end_ 1) (Value.end_ 2),
              ((Value.end_ 1, Value.end_ 2), some 1))] : Store Nat Nat) j
            = some (pr, rc) ∧
          lookup ([(hashC (Value.end_ 9) (Value.end_ 2),
              ((Value.end_ 9, Value.end_ 2), some 1))] : Store Nat Nat) j
            = some (pr, rc')) := by
  refine set_preserves_new_tree hashC 5
    [(hashC (Value.end_ 1) (Value.end_ 2), ((Value.end_ 1, Value.end_ 2), some 1))]
    [(hashC (Value.end_ 9) (Value.end_ 2), ((Value.end_ 9, Value.end_ 2), some 1)),
      (hashC (Value.end_ 1) (Value.end_ 2), ((Value.end_ 1, Value.end_ 2), some 1))]
    [(hashC (Value.end_ 9) (Value.end_ 2), ((Value.end_ 9, Value.end_ 2), some 1))]
    (Value.intermediate (hashC (Value.end_ 1) (Value.end_ 2))) 2 (Value.end_ 9)
    (Value.intermediate (hashC (Value.end_ 9) (Value.end_ 2)))
    (Value.intermediate (hashC (Value.end_ 9) (Value.end_ 2)))
    [hashC (Value.end_ 1) (Value.end_ 2)] ?_ ?_ ?_ ?_
  · refine ⟨?_, ?_, ?_, ?_, ?_, ?_⟩
    · unfold KeysNodup
      decide
    · intro rr hrr
      have h0 := List.mem_singleton.mp hrr
      subst h0
      decide
    · intro e he hz
      have h0 := List.mem_singleton.mp he
      subst h0
      exact ⟨rfl, rfl⟩
    · intro e he hn
      have h0 := List.mem_singleton.mp he
      subst h0
      exact Option.noConfusion hn
    · intro e he hz n hn
      have h0 := List.mem_singleton.mp he
      subst h0
      injection hn with h1
      subst h1
      decide
    · intro z hz
      exact absurd hz (List.not_mem_nil z)
  · intro k0 hk
    injection hk with h1
    rw [← h1]
    exact List.mem_singleton.mpr rfl
  · rfl
  · rfl

end C2

section CALemmas

variable {I E : Type} [DecidableEq I] [DecidableEq E]

theorem pairsSub_refl (s : Store I E) : PairsSub s s :=
  fun e he => ⟨e.2.2, he⟩

theorem pairsSub_trans {s1 s2 s3 : Store I E} (h12 : PairsSub s1 s2)
    (h23 : PairsSub s2 s3) : PairsSub s1 s3 := by
  intro e he
  obtain ⟨r1, h1⟩ := h12 e he
  obtain ⟨r2, h2⟩ := h23 (e.1, (e.2.1, r1)) h1
  exact ⟨r2, h2⟩

theorem CA_of_pairsSub {Hh : Value I E → Value I E → I} {s' s : Store I E}
    (hsub : PairsSub s' s) (hCA : CA Hh s) : CA Hh s' := by
  intro e he
  obtain ⟨rcx, hm⟩ := hsub e he
  exact hCA (e.1, (e.2.1, rcx)) hm

theorem mem_erase_subset {s : Store I E} {k : I} {e : I × Entry I E}
    (h : e ∈ erase s k) : e ∈ s := by
  induction s with
  | nil => simp [erase] at h
  | cons hd tl ih =>
    by_cases hk : k = hd.1
    · simp only [erase, if_pos hk] at h
      exact List.mem_cons_of_mem hd h
    · simp only [erase, if_neg hk, Prod.mk.eta] at h
      rcases List.mem_cons.mp h with h | h
      · exact h ▸ List.mem_cons_self hd tl
      · exact List.mem_cons_of_mem hd (ih h)

theorem pairsSub_erase (s : Store I E) (k : I) : PairsSub (erase s k) s :=
  fun e he => ⟨e.2.2, mem_erase_subset he⟩

theorem pairsSub_update {s : Store I E} {k : I} {p : Pair I E} {rc0 : Option Nat}
    (hl : lookup s k = some (p, rc0)) (rc' : Option Nat) :
    PairsSub (update s k (p, rc')) s := by
  induction s with
  | nil => intro e he; simp [update] at he
  | cons hd tl ih =>
    by_cases hk : k = hd.1
    · simp only [lookup, if_pos hk] at hl
      injection hl with h2
      simp only [update, if_pos hk]
      intro e he
      have hhd : hd = (k, (p, rc0)) := by rw [← h2, hk]
      rcases List.mem_cons.mp he with he | he
      · refine ⟨rc0, ?_⟩
        rw [he]
        exact List.mem_cons.mpr (Or.inl (by rw [hhd]))
      · exact ⟨e.2.2, List.mem_cons_of_mem hd he⟩
    · simp only [lookup, if_neg hk] at hl
      simp only [update, if_neg hk, Prod.mk.eta]
      intro e he
      rcases List.mem_cons.mp he with he | he
      · exact ⟨e.2.2, List.mem_cons.mpr (Or.inl he)⟩
      · obtain ⟨rcx, hm⟩ := ih hl e he
        exact ⟨rcx, List.mem_cons_of_mem hd hm⟩

theorem pairsSub_bumpRC (s : Store I E) (c : I) : PairsSub (bumpRC s c) s := by
  unfold bumpRC
  cases hl : lookup s c with
  | none => exact pairsSub_refl s
  | some e0 =>
    obtain ⟨p0, rc0⟩ := e0
    exact pairsSub_update hl _

theorem pairsSub_bumpChild (s : Store I E) (v : Value I E) :
    PairsSub (bumpChild s v) s := by
  cases v with
  | intermediate c => exact pairsSub_bumpRC s c
  | end_ d => exact pairsSub_refl s

theorem CA_insertB {Hh : Value I E → Value I E → I} {s s' : Store I E} {k : I}
    {pair : Pair I E} (hCA : CA Hh s) (hk : k = Hh pair.1 pair.2)
    (h : insertB s k pair = (s', none)) : CA Hh s' := by
  rcases insertB_success_shape h with ⟨_, rfl⟩ | ⟨_, _, _, rfl⟩
  · exact hCA
  · intro e he
    rcases List.mem_cons.mp he with he | he
    · rw [he]
      exact hk
    · exact CA_of_pairsSub
        (pairsSub_trans (pairsSub_bumpChild _ pair.2) (pairsSub_bumpChild s pair.1))
        hCA e he

theorem CA_bumpRC {Hh : Value I E → Value I E → I} {s : Store I E}
    (hCA : CA Hh s) (c : I) : CA Hh (bumpRC s c) :=
  CA_of_pairsSub (pairsSub_bumpRC s c) hCA

theorem CA_rootifyB {Hh : Value I E → Value I E → I} {s s2 : Store I E} {k : I}
    (hCA : CA Hh s) (h : rootifyB s k = some s2) : CA Hh s2 := by
  unfold rootifyB at h
  by_cases hck : containsKey s k = true
  · rw [if_pos hck] at h
    injection h with h1
    rw [← h1]
    exact CA_bumpRC hCA k
  · rw [if_neg hck] at h
    exact Option.noConfusion h

theorem CA_removeB {Hh : Value I E → Value I E → I} :
    ∀ {fuel : Nat} {s s' : Store I E} {k : I},
    CA Hh s → removeB fuel s k = some s' → CA Hh s' := by
  intro fuel
  induction fuel with
  | zero => intro s s' k _ h; simp [removeB] at h
  | succ m ih =>
    intro s s' k hCA h
    cases hl : lookup s k with
    | none => unfold removeB at h; rw [hl] at h; simp at h
    | some e0 =>
      obtain ⟨pair, rc⟩ := e0
      rw [removeB_succ_some hl m] at h
      have hCA1 : CA Hh (update s k (pair, rc.map (· - 1))) :=
        CA_of_pairsSub (pairsSub_update hl _) hCA
      by_cases hrc : rc.map (· - 1) = some 0
      · rw [if_pos hrc] at h
        cases hc1 : childStep m (update s k (pair, rc.map (· - 1))) pair.1 with
        | none => rw [hc1] at h; simp at h
        | some s2 =>
          rw [hc1] at h
          simp only at h
          have hCA2 : CA Hh s2 := by
            cases hp : pair.1 with
            | intermediate sub =>
              rw [hp] at hc1
              simp only [childStep] at hc1
              exact ih hCA1 hc1
            | end_ d =>
              rw [hp] at hc1
              simp only [childStep] at hc1
              injection hc1 with h2
              rw [← h2]
              exact hCA1
          cases hc2 : childStep m s2 pair.2 with
          | none => rw [hc2] at h; simp at h
          | some s3 =>
            rw [hc2] at h
            simp only at h
            have hCA3 : CA Hh s3 := by
              cases hp : pair.2 with
              | intermediate sub =>
                rw [hp] at hc2
                simp only [childStep] at hc2
                exact ih hCA2 hc2
              | end_ d =>
                rw [hp] at hc2
                simp only [childStep] at hc2
                injection hc2 with h2
                rw [← h2]
                exact hCA2
            injection h with h2
            rw [← h2]
            exact CA_of_pairsSub (pairsSub_erase s3 k) hCA3
      · rw [if_neg hrc] at h
        injection h with h2
        rw [← h2]
        exact hCA1

theorem insertB_lookup_CA {Hh : Value I E → Value I E → I}
    (hinj : ∀ a b c d, Hh a b = Hh c d → a = c ∧ b = d)
    {s s' : Store I E} {k : I} {pair : Pair I E} (hCA : CA Hh s)
    (hk : k = Hh pair.1 pair.2) (h : insertB s k pair = (s', none)) :
    ∃ rc, lookup s' k = some (pair, rc) := by
  rcases insertB_success_shape h with ⟨hck, heq⟩ | ⟨_, _, _, rfl⟩
  · rw [heq]
    unfold containsKey at hck
    cases hl : lookup s k with
    | none => rw [hl] at hck; simp at hck
    | some e0 =>
      obtain ⟨p0, rc0⟩ := e0
      have hca0 := hCA (k, (p0, rc0)) (lookup_mem hl)
      simp only at hca0
      rw [hk] at hca0
      obtain ⟨h1, h2⟩ := hinj _ _ _ _ hca0
      refine ⟨rc0, ?_⟩
      have hp : p0 = pair := Prod.ext h1.symm h2.symm
      rw [hp]
  · exact ⟨some 0, lookup_cons_self k _ _⟩

theorem walkValues_nil [Inhabited E] (s : Store I E) (rv : Option I) :
    walkValues s rv [] = [] := by
  cases rv <;> rfl

theorem setChain_single [Inhabited E] {Hh : Value I E → Value I E → I}
    (hinj : ∀ a b c d, Hh a b = Hh c d → a = c ∧ b = d)
    {s t : Store I E} {root : Value I E} {idx : Nat} {v u : Value I E}
    (sel : Sel) (hrt : route idx = [sel]) (hCA : CA Hh s)
    (hch : setChain Hh s root idx v = some (t, u)) :
    ∃ k1 pairNew rc,
      u = Value.intermediate k1 ∧ k1 = Hh pairNew.1 pairNew.2 ∧
      (sel = Sel.left → pairNew.1 = v) ∧ (sel = Sel.right → pairNew.2 = v) ∧
      (∀ rk Proot rcr, root = Value.intermediate rk →
        lookup s rk = some (Proot, rcr) →
        (sel = Sel.left → pairNew.2 = Proot.2) ∧
        (sel = Sel.right → pairNew.1 = Proot.1)) ∧
      lookup t k1 = some (pairNew, rc) ∧ CA Hh t := by
  unfold setChain at hch
  have hcore : ∀ (P : Pair I E),
      (match unwind Hh s [(sel, P)] v with
        | none => none
        | some (s2, u0) =>
          match u0 with
          | Value.intermediate k2 => (rootifyB s2 k2).map (fun s3 => (s3, u0))
          | Value.end_ _ => some (s2, u0)) = some (t, u) →
      ∃ k1 rc,
        u = Value.intermediate k1 ∧
        k1 = Hh (match sel with | Sel.left => v | Sel.right => P.1)
          (match sel with | Sel.left => P.2 | Sel.right => v) ∧
        lookup t k1 = some
          (((match sel with | Sel.left => v | Sel.right => P.1),
            (match sel with | Sel.left => P.2 | Sel.right => v)), rc) ∧
        CA Hh t := by
    intro P hm
    cases sel with
    | left =>
      have hu : unwind Hh s [(Sel.left, P)] v =
          (match insertB s (Hh v P.2) (v, P.2) with
            | (s2, none) => some (s2, Value.intermediate (Hh v P.2))
            | (_, some _) => none) := rfl
      rw [hu] at hm
      cases hins : insertB s (Hh v P.2) (v, P.2) with
      | mk sf eo =>
        rw [hins] at hm
        cases eo with
        | some err => simp at hm
        | none =>
          simp only at hm
          cases hro : rootifyB sf (Hh v P.2) with
          | none => rw [hro] at hm; simp at hm
          | some s3 =>
            rw [hro] at hm
            simp only [Option.map_some'] at hm
            injection hm with hm1
            injection hm1 with hma hmb
            obtain ⟨rc0, hlf⟩ := insertB_lookup_CA hinj hCA
              (show (Hh v P.2) = Hh (v, P.2).1 (v, P.2).2 from rfl) hins
            have hs3 : s3 = bumpRC sf (Hh v P.2) := by
              unfold rootifyB at hro
              by_cases hck : containsKey sf (Hh v P.2) = true
              · rw [if_pos hck] at hro
                injection hro with hx
                exact hx.symm
              · rw [if_neg hck] at hro
                exact Option.noConfusion hro
            refine ⟨Hh v P.2, rc0.map (· + 1), hmb.symm, rfl, ?_, ?_⟩
            · rw [← hma, hs3]
              exact lookup_bumpRC_self hlf
            · rw [← hma, hs3]
              exact CA_bumpRC (CA_insertB hCA
                (show (Hh v P.2) = Hh (v, P.2).1 (v, P.2).2 from rfl) hins) _
    | right =>
      have hu : unwind Hh s [(Sel.right, P)] v =
          (match insertB s (Hh P.1 v) (P.1, v) with
            | (s2, none) => some (s2, Value.intermediate (Hh P.1 v))
            | (_, some _) => none) := rfl
      rw [hu] at hm
      cases hins : insertB s (Hh P.1 v) (P.1, v) with
      | mk sf eo =>
        rw [hins] at hm
        cases eo with
        | some err => simp at hm
        | none =>
          simp only at hm
          cases hro : rootifyB sf (Hh P.1 v) with
          | none => rw [hro] at hm; simp at hm
          | some s3 =>
            rw [hro] at hm
            simp only [Option.map_some'] at hm
            injection hm with hm1
            injection hm1 with hma hmb
            obtain ⟨rc0, hlf⟩ := insertB_lookup_CA hinj hCA
              (show (Hh P.1 v) = Hh (P.1, v).1 (P.1, v).2 from rfl) hins
            have hs3 : s3 = bumpRC sf (Hh P.1 v) := by
              unfold rootifyB at hro
              by_cases hck : containsKey sf (Hh P.1 v) = true
              · rw [if_pos hck] at hro
                injection hro with hx
                exact hx.symm
              · rw [if_neg hck] at hro
                exact Option.noConfusion hro
            refine ⟨Hh P.1 v, rc0.map (· + 1), hmb.symm, rfl, ?_, ?_⟩
            · rw [← hma, hs3]
              exact lookup_bumpRC_self hlf
            · rw [← hma, hs3]
              exact CA_bumpRC (CA_insertB hCA
                (show (Hh P.1 v) = Hh (P.1, v).1 (P.1, v).2 from rfl) hins) _
  have hfinish : ∀ (P : Pair I E),
      (∀ rk Proot rcr, root = Value.intermediate rk →
        lookup s rk = some (Proot, rcr) →
        (sel = Sel.left → P.2 = Proot.2) ∧ (sel = Sel.right → P.1 = Proot.1)) →
      (match unwind Hh s [(sel, P)] v with
        | none => none
        | some (s2, u0) =>
          match u0 with
          | Value.intermediate k2 => (rootifyB s2 k2).map (fun s3 => (s3, u0))
          | Value.end_ _ => some (s2, u0)) = some (t, u) →
      ∃ k1 pairNew rc,
        u = Value.intermediate k1 ∧ k1 = Hh pairNew.1 pairNew.2 ∧
        (sel = Sel.left → pairNew.1 = v) ∧ (sel = Sel.right → pairNew.2 = v) ∧
        (∀ rk Proot rcr, root = Value.intermediate rk →
          lookup s rk = some (Proot, rcr) →
          (sel = Sel.left → pairNew.2 = Proot.2) ∧
          (sel = Sel.right → pairNew.1 = Proot.1)) ∧
        lookup t k1 = some (pairNew, rc) ∧ CA Hh t := by
    intro P hPr hm
    obtain ⟨k1, rc, hu0, hk1, hlk, hCAt⟩ := hcore P hm
    cases sel with
    | left =>
      refine ⟨k1, (v, P.2), rc, hu0, hk1, fun _ => rfl, fun hc => Sel.noConfusion hc,
        ?_, hlk, hCAt⟩
      intro rk Proot rcr hroot hlrk
      exact ⟨fun _ => (hPr rk Proot rcr hroot hlrk).1 rfl,
        fun hc => Sel.noConfusion hc⟩
    | right =>
      refine ⟨k1, (P.1, v), rc, hu0, hk1, fun hc => Sel.noConfusion hc, fun _ => rfl,
        ?_, hlk, hCAt⟩
      intro rk Proot rcr hroot hlrk
      exact ⟨fun hc => Sel.noConfusion hc,
        fun _ => (hPr rk Proot rcr hroot hlrk).2 rfl⟩
  have hstep : ∀ s1 : Store I E, s1 = s →
      (match root, route idx with
        | Value.end_ _, ([] : List Sel) =>
          match v with
          | Value.intermediate key => (rootifyB s1 key).map (fun s2 => (s2, v))
          | Value.end_ _ => some (s1, v)
        | r, rt =>
          match unwind Hh s1 (walkValues s1 r.intermediate? rt).reverse v with
          | none => none
          | some (s2, u0) =>
            match u0 with
            | Value.intermediate k2 => (rootifyB s2 k2).map (fun s3 => (s3, u0))
            | Value.end_ _ => some (s2, u0)) = some (t, u) →
      ∃ k1 pairNew rc,
        u = Value.intermediate k1 ∧ k1 = Hh pairNew.1 pairNew.2 ∧
        (sel = Sel.left → pairNew.1 = v) ∧ (sel = Sel.right → pairNew.2 = v) ∧
        (∀ rk Proot rcr, root = Value.intermediate rk →
          lookup s rk = some (Proot, rcr) →
          (sel = Sel.left → pairNew.2 = Proot.2) ∧
          (sel = Sel.right → pairNew.1 = Proot.1)) ∧
        lookup t k1 = some (pairNew, rc) ∧ CA Hh t := by
    intro s1 hs1 ht
    subst hs1
    rw [hrt] at ht
    cases root with
    | intermediate rk =>
      simp only at ht
      cases hgb : getB s1 rk with
      | some P0 =>
        have hwv : walkValues s1 (some rk) [sel] = [(sel, P0)] := by
          unfold walkValues
          rw [hgb]
          show (sel, P0) :: walkValues s1
            (match sel with
              | Sel.left => P0.1.intermediate?
              | Sel.right => P0.2.intermediate?) [] = [(sel, P0)]
          rw [walkValues_nil]
        rw [show (Value.intermediate rk : Value I E).intermediate? = some rk from rfl,
          hwv, show ([(sel, P0)] : List (Sel × Pair I E)).reverse = [(sel, P0)] from rfl]
          at ht
        refine hfinish P0 ?_ ht
        intro rk2 Proot rcr hroot hlrk
        injection hroot with hrk2
        rw [← hrk2] at hlrk
        unfold getB at hgb
        rw [hlrk] at hgb
        simp only [Option.map_some'] at hgb
        injection hgb with hP0
        constructor
        · intro _
          rw [← hP0]
        · intro _
          rw [← hP0]
      | none =>
        have hwv : walkValues s1 (some rk) [sel]
            = [(sel, (Value.end_ default, Value.end_ default))] := by
          unfold walkValues
          rw [hgb]
          rfl
        rw [show (Value.intermediate rk : Value I E).intermediate? = some rk from rfl,
          hwv,
          show ([(sel, ((Value.end_ default : Value I E), (Value.end_ default : Value I E)))] :
            List (Sel × Pair I E)).reverse
            = [(sel, (Value.end_ default, Value.end_ default))] from rfl] at ht
        refine hfinish (Value.end_ default, Value.end_ default) ?_ ht
        intro rk2 Proot rcr hroot hlrk
        injection hroot with hrk2
        rw [← hrk2] at hlrk
        unfold getB at hgb
        rw [hlrk] at hgb
        simp at hgb
    | end_ rd =>
      simp only at ht
      have hwv : walkValues s1 (none : Option I) [sel]
          = [(sel, (Value.end_ default, Value.end_ default))] := rfl
      rw [show (Value.end_ rd : Value I E).intermediate? = (none : Option I) from rfl,
        hwv,
        show ([(sel, ((Value.end_ default : Value I E), (Value.end_ default : Value I E)))] :
          List (Sel × Pair I E)).reverse
          = [(sel, (Value.end_ default, Value.end_ default))] from rfl] at ht
      refine hfinish (Value.end_ default, Value.end_ default) ?_ ht
      intro rk2 Proot rcr hroot hlrk
      exact Value.noConfusion hroot
  cases v with
  | end_ vd =>
    simp only at hch
    exact hstep s rfl hch
  | intermediate key =>
    simp only at hch
    cases hg : getB s key with
    | none => rw [hg] at hch; simp at hch
    | some pairk =>
      rw [hg] at hch
      have hck : containsKey s key = true := by
        unfold getB at hg
        unfold containsKey
        cases hl : lookup s key with
        | none => rw [hl] at hg; simp at hg
        | some e0 => rfl
      have hins : insertB s key pairk = (s, none) := by
        unfold insertB
        rw [if_pos hck]
      simp only at hch
      rw [hins] at hch
      simp only at hch
      exact hstep s rfl hch

theorem setB_single [Inhabited E] {Hh : Value I E → Value I E → I}
    (hinj : ∀ a b c d, Hh a b = Hh c d → a = c ∧ b = d)
    {fuel : Nat} {s s' : Store I E} {root : Value I E} {idx : Nat} {v u' : Value I E}
    {R : List I} (sel : Sel) (hrt : route idx = [sel])
    (hinv : INV R s) (hCA : CA Hh s)
    (hown : ∀ k0, root = Value.intermediate k0 → k0 ∈ R)
    (h : setB Hh fuel s root idx v = some (s', u')) :
    ∃ k1 pairNew rc,
      u' = Value.intermediate k1 ∧ k1 = Hh pairNew.1 pairNew.2 ∧
      (sel = Sel.left → pairNew.1 = v) ∧ (sel = Sel.right → pairNew.2 = v) ∧
      (∀ rk Proot rcr, root = Value.intermediate rk →
        lookup s rk = some (Proot, rcr) →
        (sel = Sel.left → pairNew.2 = Proot.2) ∧
        (sel = Sel.right → pairNew.1 = Proot.1)) ∧
      lookup s' k1 = some (pairNew, rc) ∧
      INV (rootsAfterSet root u' R) s' ∧ CA Hh s' ∧
      (∀ uk, u' = Value.intermediate uk → uk ∈ rootsAfterSet root u' R) := by
  unfold setB at h
  cases hch : setChain Hh s root idx v with
  | none => rw [hch] at h; simp at h
  | some p =>
    rw [hch] at h
    obtain ⟨t, u⟩ := p
    obtain ⟨k1, pairNew, rc, huk, hk1, hsl, hsr, hPr, hlt, hCAt⟩ :=
      setChain_single hinj sel hrt hCA hch
    have hinvt : INV (rootsAfter u R) t := setChain_INV Hh hinv hch
    simp only at h
    cases root with
    | end_ rd =>
      simp only at h
      injection h with h1
      injection h1 with ha hb
      refine ⟨k1, pairNew, rc, ?_, hk1, hsl, hsr, hPr, ?_, ?_, ?_, ?_⟩
      · rw [← hb]; exact huk
      · rw [← ha]; exact hlt
      · show INV (rootsAfter u' R) s'
        rw [← ha, ← hb]
        exact hinvt
      · rw [← ha]; exact hCAt
      · intro uk huk2
        show uk ∈ rootsAfter u' R
        rw [huk2]
        exact List.mem_cons_self uk R
    | intermediate k0 =>
      simp only at h
      cases hrem : removeB fuel t k0 with
      | none => rw [hrem] at h; simp at h
      | some s0 =>
        rw [hrem] at h
        simp only [Option.map_some'] at h
        injection h with h1
        injection h1 with ha hb
        have hk0R : k0 ∈ rootsAfter u R := by
          have hm := hown k0 rfl
          cases u with
          | intermediate uk => exact List.mem_cons_of_mem uk hm
          | end_ d => exact hm
        obtain ⟨s1', hrun1, hinv1, hmu1, hsub1, hnp1, hzp1⟩ :=
          removeB_spec (muStore t + 1) t (rootsAfter u R) [] k0 hinvt hk0R (by omega)
        have hsame : s0 = s1' := by
          by_cases hf : fuel ≤ muStore t + 1
          · have h2 := removeB_mono_le hf hrem
            rw [h2] at hrun1
            exact Option.some.inj hrun1
          · have h2 := removeB_mono_le (by omega : muStore t + 1 ≤ fuel) hrun1
            rw [h2] at hrem
            exact (Option.some.inj hrem).symm
        have hk1R : k1 ∈ (rootsAfter u R).erase k0 := by
          by_cases hk10 : k1 = k0
          · subst hk10
            rw [huk]
            show k1 ∈ (k1 :: R).erase k1
            rw [List.erase_cons_head]
            exact hown k1 rfl
          · rw [huk]
            show k1 ∈ (k1 :: R).erase k0
            exact (List.mem_erase_of_ne hk10).mpr (List.mem_cons_self k1 R)
        have hck1 := hinv1.2.1 k1 hk1R
        obtain ⟨e1, hle1⟩ := lookup_of_mem_keys (containsKey_iff_mem_keys.mp hck1)
        obtain ⟨pr1, rc1⟩ := e1
        obtain ⟨rcx, hltx⟩ := hsub1 k1 pr1 rc1 hle1
        rw [hlt] at hltx
        injection hltx with hx
        injection hx with hx1 hx2
        refine ⟨k1, pairNew, rc1, ?_, hk1, hsl, hsr, hPr,
          ?_, ?_, ?_, ?_⟩
        · rw [← hb]; exact huk
        · rw [← ha, hsame, hx1]
          exact hle1
        · show INV ((rootsAfter u' R).erase k0) s'
          rw [← ha, hsame, ← hb]
          exact hinv1
        · rw [← ha]
          exact CA_removeB hCAt hrem
        · intro uk huk2
          show uk ∈ (rootsAfter u' R).erase k0
          rw [← hb]
          rw [← hb] at huk2
          rw [huk] at huk2
          injection huk2 with hukk
          rw [← hukk]
          exact hk1R

theorem getRawGo_nil (s : Store I E) (cur : Value I E) :
    getRawGo s cur [] = some cur := by
  cases cur <;> rfl

theorem setB_release [Inhabited E] {Hh : Value I E → Value I E → I}
    {fuel : Nat} {s s' : Store I E} {root : Value I E} {idx : Nat} {d0 : E}
    {u' : Value I E} {R : List I} (hrt : route idx = [])
    (hinv : INV R s) (hCA : CA Hh s)
    (hown : ∀ k0, root = Value.intermediate k0 → k0 ∈ R)
    (h : setB Hh fuel s root idx (Value.end_ d0) = some (s', u')) :
    u' = Value.end_ d0 ∧
    INV (rootsAfterSet root u' R) s' ∧ CA Hh s' ∧
    (∀ j pr rc, lookup s' j = some (pr, rc) → ∃ rc0, lookup s j = some (pr, rc0)) := by
  have hch0 : setChain Hh s root idx (Value.end_ d0) = some (s, Value.end_ d0) := by
    unfold setChain
    simp only
    rw [hrt]
    cases root <;> rfl
  unfold setB at h
  rw [hch0] at h
  simp only at h
  cases root with
  | end_ rd =>
    simp only at h
    injection h with h1
    injection h1 with ha hb
    refine ⟨hb.symm, ?_, ?_, ?_⟩
    · show INV (rootsAfter u' R) s'
      rw [← hb, ← ha]
      exact hinv
    · rw [← ha]
      exact hCA
    · intro j pr rc hj
      rw [← ha] at hj
      exact ⟨rc, hj⟩
  | intermediate k0 =>
    simp only at h
    cases hrem : removeB fuel s k0 with
    | none => rw [hrem] at h; simp at h
    | some s0 =>
      rw [hrem] at h
      simp only [Option.map_some'] at h
      injection h with h1
      injection h1 with ha hb
      obtain ⟨s1', hrun1, hinv1, hmu1, hsub1, hnp1, hzp1⟩ :=
        removeB_spec (muStore s + 1) s R [] k0 hinv (hown k0 rfl) (by omega)
      have hsame : s0 = s1' := by
        by_cases hf : fuel ≤ muStore s + 1
        · have h2 := removeB_mono_le hf hrem
          rw [h2] at hrun1
          exact Option.some.inj hrun1
        · have h2 := removeB_mono_le (by omega : muStore s + 1 ≤ fuel) hrun1
          rw [h2] at hrem
          exact (Option.some.inj hrem).symm
      refine ⟨hb.symm, ?_, ?_, ?_⟩
      · show INV ((rootsAfter u' R).erase k0) s'
        rw [← hb, ← ha, hsame]
        exact hinv1
      · rw [← ha]
        exact CA_removeB hCA hrem
      · intro j pr rc hj
        rw [← ha, hsame] at hj
        exact hsub1 j pr rc hj

/-- C3: a successful `with_mut` mutation (and `List`'s `update_metadata`,
which performs the same two `set`s) rewrites both children of the outer root
in the same operation — generalized index 2 to the new inner sequence root
and generalized index 3 to the length leaf — so the outer root afterwards
equals `Intermediate (hash (inner_root, length_leaf))` and reading indices 2
and 3 returns exactly the new inner root and the new length. -/
theorem with_mut_updates_metadata {I E : Type} [DecidableEq I] [DecidableEq E]
    [Inhabited E] (Hh : Value I E → Value I E → I)
    (hinj : ∀ a b c d, Hh a b = Hh c d → a = c ∧ b = d)
    (fuel : Nat) (s s2 : Store I E) (root innerRoot : Value I E) (lenLeaf : E)
    (r2 : Value I E) (R : List I)
    (hinv : INV R s) (hCA : CA Hh s)
    (hown : ∀ k0, root = Value.intermediate k0 → k0 ∈ R)
    (h : updateMetadataB Hh fuel s root innerRoot lenLeaf = some (s2, r2)) :
    r2 = Value.intermediate (Hh innerRoot (Value.end_ lenLeaf)) ∧
    getRaw s2 r2 2 = some innerRoot ∧
    getRaw s2 r2 3 = some (Value.end_ lenLeaf) := by
  unfold updateMetadataB at h
  cases h1 : setB Hh fuel s root 2 innerRoot with
  | none => rw [h1] at h; simp at h
  | some p1 =>
    rw [h1] at h
    obtain ⟨s1, r1⟩ := p1
    simp only at h
    cases h2 : setB Hh fuel s1 r1 3 (Value.end_ lenLeaf) with
    | none => rw [h2] at h; simp at h
    | some p2 =>
      rw [h2] at h
      obtain ⟨s2', r2'⟩ := p2
      simp only at h
      injection h with hh
      injection hh with hha hhb
      obtain ⟨k1, pN1, rc1, hu1, hk1, hsl1, hsr1, hPr1, hlk1, hinv1, hCA1, hroot1⟩ :=
        setB_single hinj Sel.left (show route 2 = [Sel.left] from rfl) hinv hCA hown h1
      have hp11 : pN1.1 = innerRoot := hsl1 rfl
      obtain ⟨k2, pN2, rc2, hu2, hk2, hsl2, hsr2, hPr2, hlk2, hinv2, hCA2, hroot2⟩ :=
        setB_single hinj Sel.right (show route 3 = [Sel.right] from rfl) hinv1 hCA1
          hroot1 h2
      have hp22 : pN2.2 = Value.end_ lenLeaf := hsr2 rfl
      have hp21 : pN2.1 = innerRoot := by
        have hx := (hPr2 k1 pN1 rc1 hu1 hlk1).2 rfl
        rw [hx, hp11]
      have hr2 : r2 = Value.intermediate (Hh innerRoot (Value.end_ lenLeaf)) := by
        rw [← hhb, hu2, hk2, hp21, hp22]
      have hgb2 : getB s2' (Hh innerRoot (Value.end_ lenLeaf))
          = some (innerRoot, Value.end_ lenLeaf) := by
        unfold getB
        have hkk : k2 = Hh innerRoot (Value.end_ lenLeaf) := by
          rw [hk2, hp21, hp22]
        rw [← hkk, hlk2]
        simp only [Option.map_some']
        rw [show pN2 = (innerRoot, Value.end_ lenLeaf) from Prod.ext hp21 hp22]
      refine ⟨hr2, ?_, ?_⟩
      · unfold getRaw
        rw [show route 2 = [Sel.left] from rfl, ← hha, hr2]
        have hgr : getRawGo s2'
            (Value.intermediate (Hh innerRoot (Value.end_ lenLeaf))) [Sel.left]
            = (match getB s2' (Hh innerRoot (Value.end_ lenLeaf)) with
              | none => none
              | some pair => getRawGo s2' pair.1 []) := rfl
        rw [hgr, hgb2]
        show getRawGo s2' innerRoot [] = some innerRoot
        rw [getRawGo_nil]
      · unfold getRaw
        rw [show route 3 = [Sel.right] from rfl, ← hha, hr2]
        have hgr : getRawGo s2'
            (Value.intermediate (Hh innerRoot (Value.end_ lenLeaf))) [Sel.right]
            = (match getB s2' (Hh innerRoot (Value.end_ lenLeaf)) with
              | none => none
              | some pair => getRawGo s2' pair.2 []) := rfl
        rw [hgr, hgb2]
        show getRawGo s2' (Value.end_ lenLeaf) [] = some (Value.end_ lenLeaf)
        rw [getRawGo_nil]

/-- Witness for C3: on the singleton backend rooted at `hash (End 1, End 2)`,
updating the metadata to inner root `End 7` and length leaf `3` yields the
outer root `hash (End 7, End 3)` whose children read back as the inner root
and the length leaf. -/
theorem with_mut_updates_metadata_witness :
    ((Value.intermediate (hashC (Value.end_ 7) (Value.end_ 3)) : Value Nat Nat)
        = Value.intermediate (hashC (Value.end_ 7) (Value.end_ 3)) ∧
      getRaw ([(hashC (Value.end_ 7) (Value.end_ 3),
          ((Value.end_ 7, Value.end_ 3), some 1))] : Store Nat Nat)
        (Value.intermediate (hashC (Value.end_ 7) (Value.end_ 3))) 2
        = some (Value.end_ 7) ∧
      getRaw ([(hashC (Value.end_ 7) (Value.end_ 3),
          ((Value.end_ 7, Value.end_ 3), some 1))] : Store Nat Nat)
        (Value.intermediate (hashC (Value.end_ 7) (Value.end_ 3))) 3
        = some (Value.end_ 3)) := by
  refine with_mut_updates_metadata hashC hashC_injective 5
    [(hashC (Value.end_ 1) (Value.end_ 2), ((Value.end_ 1, Value.end_ 2), some 1))]
    [(hashC (Value.end_ 7) (Value.end_ 3), ((Value.end_ 7, Value.end_ 3), some 1))]
    (Value.intermediate (hashC (Value.end_ 1) (Value.end_ 2))) (Value.end_ 7) 3
    (Value.intermediate (hashC (Value.end_ 7) (Value.end_ 3)))
    [hashC (Value.end_ 1) (Value.end_ 2)] ?_ ?_ ?_ ?_
  · refine ⟨?_, ?_, ?_, ?_, ?_, ?_⟩
    · unfold KeysNodup
      decide
    · intro rr hrr
      have h0 := List.mem_singleton.mp hrr
      subst h0
      decide
    · intro e he hz
      have h0 := List.mem_singleton.mp he
      subst h0
      exact ⟨rfl, rfl⟩
    · intro e he hn
      have h0 := List.mem_singleton.mp he
      subst h0
      exact Option.noConfusion hn
    · intro e he hz n hn
      have h0 := List.mem_singleton.mp he
      subst h0
      injection hn with h1
      subst h1
      decide
    · intro z hz
      exact absurd hz (List.not_mem_nil z)
  · intro e he
    have h0 := List.mem_singleton.mp he
    subst h0
    rfl
  · intro k0 hk
    injection hk with h1
    rw [← h1]
    exact List.mem_singleton.mpr rfl
  · rfl

/-- C4: when a vector's length equals its current capacity, `push` fails
with `AccessOverflowed` if a fixed `max_len` is set (no state is produced,
so the capacity never changes); otherwise `push` first extends — it builds
a fresh raw tree whose left child (generalized index 2) is the old raw's
root and whose right child (generalized index 3) is `empty_at(depth)` for
the old depth, replaces the raw by it — and then writes the pushed element
at the first vacant leaf position (raw index `current_max_len + old_len`). -/
theorem pow2GoF_le (fuel len m : Nat) : m ≤ pow2GoF fuel len m := by
  induction fuel generalizing m with
  | zero => exact Nat.le_refl m
  | succ fuel ih =>
    unfold pow2GoF
    by_cases h : 0 < m ∧ m < len
    · rw [if_pos h]
      exact Nat.le_trans (by omega) (ih (2 * m))
    · rw [if_neg h]

theorem currentMaxLen_pos {I E : Type} (v : VecState I E) (hml : v.maxLen = none) :
    1 ≤ currentMaxLen v := by
  unfold currentMaxLen
  rw [hml]
  exact pow2GoF_le v.len v.len 1

theorem vector_push_spec {I E : Type} [DecidableEq I] [DecidableEq E] [Inhabited E]
    (Hh : Value I E → Value I E → I)
    (hinj : ∀ a b c d, Hh a b = Hh c d → a = c ∧ b = d)
    (pol : EmptyStatus) (fuel : Nat) (s : Store I E) (v : VecState I E) (x : E)
    (R : List I) (hlen : v.len = currentMaxLen v) :
    (v.maxLen.isSome = true →
      vPush Hh pol fuel s v x = Except.error TreeError.accessOverflowed) ∧
    (v.maxLen = none →
      INV R (emptyAtB Hh pol s (vDepth v)).1 →
      CA Hh (emptyAtB Hh pol s (vDepth v)).1 →
      (∀ k0, v.root = Value.intermediate k0 → k0 ∈ R) →
      ∀ s'' v'', vPush Hh pol fuel s v x = Except.ok (s'', v'') →
      ∃ sE rE sF rootF,
        vExtend Hh pol fuel s v = Except.ok (sE, { v with root := rE }) ∧
        getRaw sE rE 2 = some v.root ∧
        getRaw sE rE 3 = some (emptyAtB Hh pol s (vDepth v)).2 ∧
        setB Hh fuel sE rE
          (currentMaxLen { v with root := rE, len := v.len + 1 } + v.len)
          (Value.end_ x) = some (sF, rootF) ∧
        s'' = sF ∧ v'' = { root := rootF, len := v.len + 1, maxLen := v.maxLen }) := by
  constructor
  · intro hsome
    unfold vPush
    rw [if_pos hlen, if_pos hsome]
  · intro hml hinv0 hCA0 hvown s'' v'' hpush
    rcases hemp : emptyAtB Hh pol s (vDepth v) with ⟨s0, empty⟩
    rw [hemp] at hinv0 hCA0
    unfold vPush at hpush
    rw [if_pos hlen, if_neg (by rw [hml]; simp)] at hpush
    cases hext : vExtend Hh pol fuel s v with
    | error e => rw [hext] at hpush; simp at hpush
    | ok p =>
      rw [hext] at hpush
      obtain ⟨sE, vE⟩ := p
      simp only at hpush
      -- dissect the extend
      have hext2 := hext
      unfold vExtend at hext2
      rw [hemp] at hext2
      simp only at hext2
      cases h1 : setB Hh fuel s0 (Value.end_ default) 2 v.root with
      | none => rw [h1] at hext2; simp at hext2
      | some p1 =>
        rw [h1] at hext2
        obtain ⟨s1, r1⟩ := p1
        simp only at hext2
        cases h2 : setB Hh fuel s1 r1 3 empty with
        | none => rw [h2] at hext2; simp at hext2
        | some p2 =>
          rw [h2] at hext2
          obtain ⟨s2, r2⟩ := p2
          simp only at hext2
          cases h3 : setB Hh fuel s2 v.root 1 (Value.end_ default) with
          | none => rw [h3] at hext2; simp at hext2
          | some p3 =>
            rw [h3] at hext2
            obtain ⟨s3, u3⟩ := p3
            simp only at hext2
            injection hext2 with hext3
            injection hext3 with hxa hxb
            have hvml : ({ vE with len := v.len + 1 } : VecState I E).maxLen = none := by
              rw [← hxb]
              exact hml
            have hcap : 1 ≤ currentMaxLen ({ vE with len := v.len + 1 } : VecState I E) :=
              currentMaxLen_pos _ hvml
            rw [if_neg (by omega)] at hpush
            -- set #1: left child of the fresh raw becomes the old root
            obtain ⟨k1, pN1, rc1, hu1, hk1, hsl1, hsr1, hPr1, hlk1, hinv1, hCA1, hroot1⟩ :=
              setB_single hinj Sel.left (show route 2 = [Sel.left] from rfl) hinv0 hCA0
                (fun k0 hk0 => Value.noConfusion hk0) h1
            have hp11 : pN1.1 = v.root := hsl1 rfl
            -- set #2: right child becomes the empty subtree
            obtain ⟨k2, pN2, rc2, hu2, hk2, hsl2, hsr2, hPr2, hlk2, hinv2, hCA2, hroot2⟩ :=
              setB_single hinj Sel.right (show route 3 = [Sel.right] from rfl) hinv1 hCA1
                hroot1 h2
            have hp22 : pN2.2 = empty := hsr2 rfl
            have hp21 : pN2.1 = v.root := by
              have hx := (hPr2 k1 pN1 rc1 hu1 hlk1).2 rfl
              rw [hx, hp11]
            -- the root set evolving through the two sets
            have hR1eq : rootsAfterSet (Value.end_ (default : E)) r1 R = k1 :: R := by
              show rootsAfter r1 R = k1 :: R
              rw [hu1]
              rfl
            have hR2eq : rootsAfterSet r1 r2 (rootsAfterSet (Value.end_ (default : E)) r1 R)
                = k2 :: R := by
              rw [hR1eq, hu1, hu2]
              show (k2 :: k1 :: R).erase k1 = k2 :: R
              by_cases hk : k2 = k1
              · rw [hk, List.erase_cons_head]
              · rw [List.erase_cons_tail (by simp [hk]), List.erase_cons_head]
            rw [hR2eq] at hinv2 hroot2
            -- set #3: release of the old vector root
            obtain ⟨hu3e, hinv3, hCA3, hsub3⟩ :=
              setB_release (show route 1 = [] from rfl) hinv2 hCA2
                (fun k0 hk0 => List.mem_cons_of_mem k2 (hvown k0 hk0)) h3
            -- the new root's entry survives the release
            have hk2mem : k2 ∈ rootsAfterSet v.root u3 (k2 :: R) := by
              cases hvr : v.root with
              | end_ vd =>
                show k2 ∈ rootsAfter u3 (k2 :: R)
                rw [hu3e]
                exact List.mem_cons_self k2 R
              | intermediate k0 =>
                show k2 ∈ (rootsAfter u3 (k2 :: R)).erase k0
                rw [hu3e]
                show k2 ∈ (k2 :: R).erase k0
                by_cases hk20 : k2 = k0
                · rw [hk20, List.erase_cons_head]
                  rw [← hk20] at hvr ⊢
                  have := hvown k2 hvr
                  exact this
                · rw [List.erase_cons_tail (by simp [hk20])]
                  exact List.mem_cons_self k2 _
            have hck2 := hinv3.2.1 k2 hk2mem
            obtain ⟨e3, hle3⟩ := lookup_of_mem_keys (containsKey_iff_mem_keys.mp hck2)
            obtain ⟨pr3, rc3⟩ := e3
            obtain ⟨rcy, hly⟩ := hsub3 k2 pr3 rc3 hle3
            rw [hlk2] at hly
            injection hly with hly1
            injection hly1 with hly2 hly3
            -- children reads on the extended tree
            have hgb3 : getB s3 k2 = some (v.root, empty) := by
              unfold getB
              rw [hle3]
              simp only [Option.map_some']
              rw [← hly2, show pN2 = (v.root, empty) from Prod.ext hp21 hp22]
            have hread2 : getRaw s3 r2 2 = some v.root := by
              unfold getRaw
              rw [show route 2 = [Sel.left] from rfl, hu2]
              have hgr : getRawGo s3 (Value.intermediate k2) [Sel.left]
                  = (match getB s3 k2 with
                    | none => none
                    | some pair => getRawGo s3 pair.1 []) := rfl
              rw [hgr, hgb3]
              show getRawGo s3 v.root [] = some v.root
              rw [getRawGo_nil]
            have hread3 : getRaw s3 r2 3 = some empty := by
              unfold getRaw
              rw [show route 3 = [Sel.right] from rfl, hu2]
              have hgr : getRawGo s3 (Value.intermediate k2) [Sel.right]
                  = (match getB s3 k2 with
                    | none => none
                    | some pair => getRawGo s3 pair.2 []) := rfl
              rw [hgr, hgb3]
              show getRawGo s3 empty [] = some empty
              rw [getRawGo_nil]
            -- reassemble the push
            cases hw : setB Hh fuel sE ({ vE with len := v.len + 1 } : VecState I E).root
                (currentMaxLen { vE with len := v.len + 1 } + v.len) (Value.end_ x) with
            | none =>
              rw [hw] at hpush
              simp at hpush
            | some pw =>
              obtain ⟨sF, rootF⟩ := pw
              rw [hw] at hpush
              simp only at hpush
              injection hpush with hpw
              injection hpw with hpa hpb
              rw [← hxb] at hw
              refine ⟨sE, r2, sF, rootF, ?_, ?_, ?_, ?_, hpa.symm, ?_⟩
              · rw [← hxb]
              · rw [← hxa]
                exact hread2
              · rw [← hxa]
                exact hread3
              · exact hw
              · rw [← hpb, ← hxb]

/-- Witness for C4: a full vector with `max_len = Some 1` rejects a push
with `AccessOverflowed`; a full unbounded vector with one element (rooted
at `hash (End 5, End 0) = 110`) extends — the new raw's left child is the
old root, its right child is the (unit-policy) empty — and then writes the
pushed element at raw index `current_max_len + old_len`. -/
theorem vector_push_spec_witness :
    vPush hashC EmptyStatus.unit 5 ([] : Store Nat Nat)
        ⟨Value.end_ 0, 1, some 1⟩ 9 = Except.error TreeError.accessOverflowed ∧
    (∃ sE rE sF rootF,
      vExtend hashC EmptyStatus.unit 5
          ([(110, ((Value.end_ 5, Value.end_ 0), some 1))] : Store Nat Nat)
          ⟨Value.intermediate 110, 1, none⟩
        = Except.ok (sE, (⟨rE, 1, none⟩ : VecState Nat Nat)) ∧
      getRaw sE rE 2 = some (Value.intermediate 110) ∧
      getRaw sE rE 3 = some (Value.end_ 0) ∧
      setB hashC 5 sE rE (currentMaxLen (⟨rE, 2, none⟩ : VecState Nat Nat) + 1)
        (Value.end_ 9) = some (sF, rootF) ∧
      ([(49080, ((Value.intermediate 110, Value.end_ 9), some 1)),
        (110, ((Value.end_ 5, Value.end_ 0), some 1))] : Store Nat Nat) = sF ∧
      (⟨Value.intermediate 49080, 2, none⟩ : VecState Nat Nat) = ⟨rootF, 2, none⟩) := by
  constructor
  · exact (vector_push_spec hashC hashC_injective EmptyStatus.unit 5 []
      ⟨Value.end_ 0, 1, some 1⟩ 9 [] (by decide)).1 rfl
  · refine (vector_push_spec hashC hashC_injective EmptyStatus.unit 5
      [(110, ((Value.end_ 5, Value.end_ 0), some 1))] ⟨Value.intermediate 110, 1, none⟩
      9 [110] (by decide)).2 rfl ?_ ?_ ?_
      [(49080, ((Value.intermediate 110, Value.end_ 9), some 1)),
        (110, ((Value.end_ 5, Value.end_ 0), some 1))]
      ⟨Value.intermediate 49080, 2, none⟩ rfl
    · show INV ([110] : List Nat)
        ([(110, ((Value.end_ 5, Value.end_ 0), some 1))] : Store Nat Nat)
      refine ⟨?_, ?_, ?_, ?_, ?_, ?_⟩
      · unfold KeysNodup
        decide
      · intro rr hrr
        have h0 := List.mem_singleton.mp hrr
        subst h0
        decide
      · intro e he hz
        have h0 := List.mem_singleton.mp he
        subst h0
        exact ⟨rfl, rfl⟩
      · intro e he hn
        have h0 := List.mem_singleton.mp he
        subst h0
        exact Option.noConfusion hn
      · intro e he hz n hn
        have h0 := List.mem_singleton.mp he
        subst h0
        injection hn with h1
        subst h1
        decide
      · intro z hz
        exact absurd hz (List.not_mem_nil z)
    · show CA hashC ([(110, ((Value.end_ 5, Value.end_ 0), some 1))] : Store Nat Nat)
      intro e he
      have h0 := List.mem_singleton.mp he
      subst h0
      rfl
    · intro k0 hk
      injection hk with h1
      rw [← h1]
      exact List.mem_singleton.mpr rfl

/-- A `set` whose generalized index routes to the root itself (index 1) and
whose new value is a leaf simply returns that leaf as the new root. -/
theorem setB_nil_end [Inhabited E] {Hh : Value I E → Value I E → I} {fuel : Nat}
    {s s' : Store I E} {root : Value I E} {idx : Nat} {d0 : E} {u' : Value I E}
    (hrt : route idx = []) (h : setB Hh fuel s root idx (Value.end_ d0) = some (s', u')) :
    u' = Value.end_ d0 := by
  have hch0 : setChain Hh s root idx (Value.end_ d0) = some (s, Value.end_ d0) := by
    unfold setChain
    simp only
    rw [hrt]
    cases root <;> rfl
  unfold setB at h
  rw [hch0] at h
  simp only at h
  cases root with
  | end_ rd =>
    simp only at h
    injection h with h1
    injection h1 with ha hb
    exact hb.symm
  | intermediate k =>
    simp only at h
    cases hrm : removeB fuel s k with
    | none =>
      rw [hrm] at h
      simp at h
    | some t =>
      rw [hrm] at h
      simp only [Option.map_some'] at h
      injection h with h1
      injection h1 with ha hb
      exact hb.symm

/-- `Vector::shrink` never touches `len` or `max_len`. -/
theorem vShrink_ok [Inhabited E] {Hh : Value I E → Value I E → I} {fuel : Nat}
    {s : Store I E} {v : VecState I E} {s2 : Store I E} {v2 : VecState I E}
    (h : vShrink Hh fuel s v = Except.ok (s2, v2)) :
    v2.len = v.len ∧ v2.maxLen = v.maxLen := by
  unfold vShrink at h
  cases hg : getRaw s v.root 2 with
  | some ev =>
    rw [hg] at h
    simp only at h
    cases hsb : setB Hh fuel s v.root 1 ev with
    | none =>
      rw [hsb] at h
      simp at h
    | some p =>
      rw [hsb] at h
      obtain ⟨ss, rr⟩ := p
      simp only at h
      injection h with h1
      injection h1 with ha hb
      rw [← hb]
      exact ⟨rfl, rfl⟩
  | none =>
    rw [hg] at h
    simp only at h
    cases hsb : setB Hh fuel s v.root 1 (Value.end_ (default : E)) with
    | none =>
      rw [hsb] at h
      simp at h
    | some p =>
      rw [hsb] at h
      obtain ⟨ss, rr⟩ := p
      simp only at h
      injection h with h1
      injection h1 with ha hb
      rw [← hb]
      exact ⟨rfl, rfl⟩

/-- `Vector::shrink` of a tree whose root is already a leaf installs the
canonical empty leaf `End(default)` as the new root (the extend slot at
generalized index 2 reads back `None`). -/
theorem vShrink_end_root [Inhabited E] {Hh : Value I E → Value I E → I} {fuel : Nat}
    {s : Store I E} {rd : E} {s2 : Store I E} {v2 : VecState I E} (v : VecState I E)
    (hroot : v.root = Value.end_ rd) (h : vShrink Hh fuel s v = Except.ok (s2, v2)) :
    v2.root = Value.end_ (default : E) := by
  unfold vShrink at h
  have hg : getRaw s v.root 2 = none := by
    rw [hroot]
    rfl
  rw [hg] at h
  simp only at h
  cases hsb : setB Hh fuel s v.root 1 (Value.end_ (default : E)) with
  | none =>
    rw [hsb] at h
    simp at h
  | some p =>
    rw [hsb] at h
    obtain ⟨ss, rr⟩ := p
    simp only at h
    injection h with h1
    injection h1 with ha hb
    have hrr : rr = Value.end_ (default : E) :=
      setB_nil_end (show route 1 = [] from rfl) hsb
    rw [← hb]
    exact hrr

/-- The pop walk-up loop, characterized: with enough fuel it ascends `m`
levels, where every strictly ascended-through position `i / 2 ^ j` (for
`j < m`) is a left child of an existing parent (even and above the root)
and the reached position `i / 2 ^ m` is not. -/
theorem walkUpF_spec : ∀ (fuel i d : Nat), i ≤ fuel →
    ∃ m, walkUpF fuel i d = (i / 2 ^ m, d + m) ∧
      (∀ j, j < m → 1 < i / 2 ^ j ∧ (i / 2 ^ j) % 2 = 0) ∧
      ¬(1 < i / 2 ^ m ∧ (i / 2 ^ m) % 2 = 0) := by
  intro fuel
  induction fuel with
  | zero =>
    intro i d hle
    have hi : i = 0 := Nat.le_zero.mp hle
    subst hi
    refine ⟨0, rfl, ?_, ?_⟩
    · intro j hj
      omega
    · simp
  | succ fuel ih =>
    intro i d hle
    by_cases h : 1 < i ∧ i % 2 = 0
    · have hle2 : i / 2 ≤ fuel := by omega
      obtain ⟨m, hw, hall, hstop⟩ := ih (i / 2) (d + 1) hle2
      have hdd : ∀ j : Nat, i / 2 / 2 ^ j = i / 2 ^ (j + 1) := by
        intro j
        rw [Nat.div_div_eq_div_mul]
        congr 1
        rw [pow_succ]
        exact Nat.mul_comm 2 (2 ^ j)
      refine ⟨m + 1, ?_, ?_, ?_⟩
      · show walkUpF (fuel + 1) i d = (i / 2 ^ (m + 1), d + (m + 1))
        unfold walkUpF
        rw [if_pos h, hw, hdd m]
        have hda : d + 1 + m = d + (m + 1) := by omega
        rw [hda]
      · intro j hj
        cases j with
        | zero =>
          constructor
          · simpa using h.1
          · simpa using h.2
        | succ j2 =>
          have hj2 : j2 < m := by omega
          have hx := hall j2 hj2
          rw [hdd j2] at hx
          exact hx
      · rw [← hdd m]
        exact hstop
    · refine ⟨0, ?_, ?_, ?_⟩
      · show walkUpF (fuel + 1) i d = (i / 2 ^ 0, d + 0)
        unfold walkUpF
        rw [if_neg h]
        simp
      · intro j hj
        omega
      · simpa using h

/-- The walk-up loop as called by `pop` (fuel `i` always suffices since the
position halves at every step). -/
theorem walkUp_spec (i : Nat) :
    ∃ m, walkUp i 0 = (i / 2 ^ m, m) ∧
      (∀ j, j < m → 1 < i / 2 ^ j ∧ (i / 2 ^ j) % 2 = 0) ∧
      ¬(1 < i / 2 ^ m ∧ (i / 2 ^ m) % 2 = 0) := by
  obtain ⟨m, hw, hall, hstop⟩ := walkUpF_spec i i 0 (Nat.le_refl i)
  refine ⟨m, ?_, hall, hstop⟩
  show walkUpF i i 0 = (i / 2 ^ m, m)
  rw [hw, Nat.zero_add]

/-- C5: on a non-empty vector a successful `pop` returns exactly the element
`get` reads at index `len - 1`; from the vacated one-based leaf position
`current_max_len + (len - 1)` it ascends one level precisely while the
position is a left child of an existing parent (even, above the root),
stopping after `d` levels at position `r` (so `r` is not itself a left
child), and plants the precomputed empty subtree `empty_at(d)` there by a
raw `set`; `len` drops by one while `max_len` is kept; when the new length
does not reach half the capacity and no `max_len` is fixed the tree is
additionally shrunk, and a vector popped to zero under that shrinking ends
with the canonical empty root `End(default)`. -/
theorem vector_pop_spec {I E : Type} [DecidableEq I] [DecidableEq E] [Inhabited E]
    (Hh : Value I E → Value I E → I) (pol : EmptyStatus) (fuel : Nat)
    (s : Store I E) (v : VecState I E) (hlen : v.len ≠ 0)
    (s' : Store I E) (v' : VecState I E) (xo : Option E)
    (h : vPop Hh pol fuel s v = Except.ok (s', v', xo)) :
    ∃ x r d s1 root1,
      xo = some x ∧
      vGet s v (v.len - 1) = Except.ok x ∧
      walkUp (currentMaxLen v + (v.len - 1)) 0 = (r, d) ∧
      r = (currentMaxLen v + (v.len - 1)) / 2 ^ d ∧
      (∀ j, j < d → 1 < (currentMaxLen v + (v.len - 1)) / 2 ^ j ∧
        ((currentMaxLen v + (v.len - 1)) / 2 ^ j) % 2 = 0) ∧
      ¬(1 < r ∧ r % 2 = 0) ∧
      setB Hh fuel (emptyAtB Hh pol s d).1 v.root r (emptyAtB Hh pol s d).2
        = some (s1, root1) ∧
      v'.len = v.len - 1 ∧ v'.maxLen = v.maxLen ∧
      (¬(v.len - 1 ≤ currentMaxLen v / 2 ∧ v.maxLen = none) →
        s' = s1 ∧ v'.root = root1) ∧
      ((v.len - 1 ≤ currentMaxLen v / 2 ∧ v.maxLen = none) →
        vShrink Hh fuel s1 { v with root := root1 }
          = Except.ok (s', { v' with len := v.len })) ∧
      (v.len = 1 → v.maxLen = none → v'.root = Value.end_ (default : E)) := by
  unfold vPop at h
  rw [if_neg hlen] at h
  simp only at h
  by_cases hri : currentMaxLen v + (v.len - 1) = 0
  · rw [if_pos hri] at h
    exact Except.noConfusion h
  · rw [if_neg hri] at h
    cases hg : getRaw s v.root (currentMaxLen v + (v.len - 1)) with
    | none =>
      rw [hg] at h
      simp at h
    | some val =>
      rw [hg] at h
      cases val with
      | intermediate k =>
        simp only at h
        exact Except.noConfusion h
      | end_ x =>
        simp only at h
        obtain ⟨m, hw, hall, hstop⟩ := walkUp_spec (currentMaxLen v + (v.len - 1))
        rw [hw] at h
        simp only at h
        rcases hemp : emptyAtB Hh pol s m with ⟨s0, empty⟩
        rw [hemp] at h
        simp only at h
        cases hsb : setB Hh fuel s0 v.root
            ((currentMaxLen v + (v.len - 1)) / 2 ^ m) empty with
        | none =>
          rw [hsb] at h
          simp at h
        | some p =>
          rw [hsb] at h
          obtain ⟨s1, root1⟩ := p
          simp only at h
          have hvget : vGet s v (v.len - 1) = Except.ok x := by
            unfold vGet
            rw [if_neg (show ¬(v.len ≤ v.len - 1) by omega), if_neg hri, hg]
          have hsbE : setB Hh fuel (emptyAtB Hh pol s m).1 v.root
              ((currentMaxLen v + (v.len - 1)) / 2 ^ m) (emptyAtB Hh pol s m).2
              = some (s1, root1) := by
            rw [hemp]
            exact hsb
          by_cases hsc : v.len - 1 ≤ currentMaxLen v / 2 ∧ v.maxLen = none
          · rw [if_pos hsc] at h
            cases hsh : vShrink Hh fuel s1 { v with root := root1 } with
            | error e =>
              rw [hsh] at h
              simp at h
            | ok q =>
              rw [hsh] at h
              obtain ⟨s2, v2⟩ := q
              simp only at h
              injection h with h1
              injection h1 with ha hbc
              injection hbc with hb hc
              have h2l : v2.len = v.len := (vShrink_ok hsh).1
              have h2m : v2.maxLen = v.maxLen := (vShrink_ok hsh).2
              refine ⟨x, (currentMaxLen v + (v.len - 1)) / 2 ^ m, m, s1, root1,
                hc.symm, hvget, hw, rfl, hall, hstop, hsbE, ?_, ?_, ?_, ?_, ?_⟩
              · rw [← hb]
              · rw [← hb]
                exact h2m
              · intro hns
                exact absurd hsc hns
              · intro hy
                rw [hsh, ha]
                have hv2 : v2 = ({ v' with len := v.len } : VecState I E) := by
                  rw [← hb]
                  show v2 = ⟨v2.root, v.len, v2.maxLen⟩
                  rw [← h2l]
                rw [hv2]
              · intro hlen1 hml
                have hcap1 : currentMaxLen v = 1 := by
                  unfold currentMaxLen
                  rw [hml, hlen1]
                  rfl
                have hri1 : currentMaxLen v + (v.len - 1) = 1 := by
                  rw [hcap1, hlen1]
                have hvv : walkUp 1 0 = ((1 : Nat), (0 : Nat)) := by decide
                have hw2 := hw
                rw [hri1] at hw2
                have h10 := hvv.symm.trans hw2
                injection h10 with h10a h10b
                have h10c : 0 = m := h10b
                subst h10c
                have hpol0 : emptyAtB Hh pol s 0 = (s, Value.end_ (default : E)) := by
                  cases pol <;> rfl
                have hse := hpol0.symm.trans hemp
                injection hse with hsea hseb
                rw [hri1, ← hseb] at hsb
                have hb1 : root1 = Value.end_ (default : E) :=
                  setB_nil_end (show route (1 / 2 ^ 0) = [] by decide) hsb
                have hroot1 : ({ v with root := root1 } : VecState I E).root
                    = Value.end_ (default : E) := hb1
                have hv2r : v2.root = Value.end_ (default : E) :=
                  vShrink_end_root _ hroot1 hsh
                rw [← hb]
                exact hv2r
          · rw [if_neg hsc] at h
            injection h with h1
            injection h1 with ha hbc
            injection hbc with hb hc
            refine ⟨x, (currentMaxLen v + (v.len - 1)) / 2 ^ m, m, s1, root1,
              hc.symm, hvget, hw, rfl, hall, hstop, hsbE, ?_, ?_, ?_, ?_, ?_⟩
            · rw [← hb]
            · rw [← hb]
            · intro hns
              refine ⟨ha.symm, ?_⟩
              rw [← hb]
            · intro hy
              exact absurd hy hsc
            · intro hlen1 hml
              exact absurd ⟨by omega, hml⟩ hsc

/-- Witness for C5: popping the single element of `⟨End 7, len 1, no max⟩`
over the empty store returns `7` (the element `get` reads at index 0), the
walk-up from one-based position 1 stops immediately at the root with zero
levels ascended, the canonical empty leaf is planted there, and — the new
length 0 being at most half the capacity with no fixed `max_len` — the
shrunk result has the canonical empty root `End 0`. -/
theorem vector_pop_spec_witness :
    (⟨Value.end_ 7, 1, none⟩ : VecState Nat Nat).len ≠ 0 ∧
    vPop hashC EmptyStatus.unit 5 ([] : Store Nat Nat) ⟨Value.end_ 7, 1, none⟩
      = Except.ok ([], ⟨Value.end_ 0, 0, none⟩, some 7) ∧
    (∃ x r d s1 root1,
      (some (7 : Nat) : Option Nat) = some x ∧
      vGet ([] : Store Nat Nat) (⟨Value.end_ 7, 1, none⟩ : VecState Nat Nat) 0
        = Except.ok x ∧
      walkUp 1 0 = (r, d) ∧
      r = 1 / 2 ^ d ∧
      (∀ j, j < d → 1 < 1 / 2 ^ j ∧ (1 / 2 ^ j) % 2 = 0) ∧
      ¬(1 < r ∧ r % 2 = 0) ∧
      setB hashC 5 (emptyAtB hashC EmptyStatus.unit [] d).1 (Value.end_ 7) r
        (emptyAtB hashC EmptyStatus.unit [] d).2 = some (s1, root1) ∧
      (0 : Nat) = 0 ∧ (none : Option Nat) = none ∧
      (¬((0 : Nat) ≤ 1 / 2 ∧ (none : Option Nat) = none) →
        ([] : Store Nat Nat) = s1 ∧ Value.end_ 0 = root1) ∧
      (((0 : Nat) ≤ 1 / 2 ∧ (none : Option Nat) = none) →
        vShrink hashC 5 s1 (⟨root1, 1, none⟩ : VecState Nat Nat)
          = Except.ok ([], (⟨Value.end_ 0, 1, none⟩ : VecState Nat Nat))) ∧
      ((1 : Nat) = 1 → (none : Option Nat) = none →
        (Value.end_ (0 : Nat) : Value Nat Nat) = Value.end_ (default : Nat))) :=
  ⟨by decide, rfl,
    vector_pop_spec hashC EmptyStatus.unit 5 [] ⟨Value.end_ 7, 1, none⟩ (by decide)
      [] ⟨Value.end_ 0, 0, none⟩ (some 7) rfl⟩

end CALemmas

end BM
